import Mathlib

/-!
# Stack slicing and switch state in `greenlet`

A shallow embedding of the `StackState`, `ExceptionState`, `PythonState` and
`SwitchingArgs` member functions of `src/greenlet/greenlet_greenlet.hpp` and
proofs about them.

Conventions of the embedding

* A `char*` is a natural number, `0` being `nullptr`. The live C stack of the
  OS thread is a function from addresses to bytes.
* The `StackState` objects of one OS thread live in an arena (a list); a
  `StackState*` is `Option Nat`: `none` is `nullptr`, `some h` points at entry
  `h`. A handle outside the arena is a dangling pointer.
* The heap block behind `stack_copy` is owned by exactly one `StackState`, so it
  is stored by value: `none` is `nullptr`, `some bytes` a block with those
  contents.
* `intptr_t` values are integers. The pointer difference `stop - _stack_start`
  is kept in an `intptr_t`: it is the difference of the two addresses reduced
  modulo `2 ^ 64` into `[-2^63, 2^63)` (function `intptr_t`), negative when `stop`
  lies `2^63` or more above `_stack_start`, as `(char*)-1` lies above `(char*)1`.
* `PyMem_Free` is recorded: the thread keeps the list of the blocks that
  `free_stack_copy()` has handed to it.
* `assert` is compiled in or out by `NDEBUG`; every function that contains one
  takes the flag `ndebug`.
* Loops over `stack_prev` links are run for at most one more iteration than
  there are `StackState`s. The loops change no `stack_stop` and no
  `stack_prev`, so a walk through valid objects that has not ended by then has
  come back to an object it has seen and never ends: that is `Fault.no_return`
  (theorems `find_more_stack_fuel` and `save_loop_fuel`).
-/

namespace greenlet

/-- Ways in which a call does not come back with a value. -/
inductive Fault where
  | null_deref
  | out_of_bounds
  | assertion
  | no_return
  deriving DecidableEq

/-- The five data members of `class StackState`. -/
structure StackState where
  _stack_start : Nat
  stack_stop : Nat
  stack_copy : Option (List Nat)
  _stack_saved : Int
  stack_prev : Option Nat
  deriving DecidableEq

/-- Behaviour of the CPython allocator, which the header only calls: whether the
`k`-th call of `PyMem_Realloc` fails, and the indeterminate value it leaves in
byte `i` of the block when that byte is new. -/
structure Allocator where
  fails : Nat → Bool
  junk : Nat → Nat → Nat

/-- What the `StackState` code of one OS thread reads and writes: the live C
stack, the arena of `StackState` objects, the number of `PyMem_Realloc` calls made
so far, whether `PyErr_NoMemory` has set the error indicator, and the blocks
handed to `PyMem_Free` so far, in the order of the calls. -/
structure Thread where
  stack : Nat → Nat
  states : List StackState
  nrealloc : Nat
  err_no_memory : Bool
  freed : List (List Nat) := []

/-- The address `(char*)-1` on a 64-bit platform. -/
def CHAR_PTR_MINUS_ONE : Nat := 2 ^ 64 - 1

/-- The largest value of an `intptr_t` on a 64-bit platform. -/
def PTRDIFF_MAX : Nat := 2 ^ 63 - 1

/-- The value an `intptr_t` takes when the integer `x` is stored in it: `x` modulo
`2 ^ 64`, in `[-2^63, 2^63)`. -/
def intptr_t (x : Int) : Int := (x + 2 ^ 63) % 2 ^ 64 - 2 ^ 63

/-- Call number `k` of `PyMem_Realloc(p, n)`: `NULL` when the allocator fails or
the size, converted from a negative `intptr_t`, exceeds `PY_SSIZE_T_MAX`; else a
block of `n` bytes that keeps the old contents up to the smaller of the two
sizes. -/
def PyMem_Realloc (A : Allocator) (k : Nat) (p : Option (List Nat)) (n : Int) :
    Option (List Nat) :=
  if n < 0 ∨ A.fails k = true then none
  else some ((List.range n.toNat).map (fun i => if i < (p.getD []).length then (p.getD []).getD i 0 else A.junk k i))

/-- The call `memcpy(c + off, src, n)` into the heap block `c`, where `src` points
into the live stack. -/
def memcpy_to_heap (c : List Nat) (off : Nat) (stack : Nat → Nat) (src n : Nat) : List Nat :=
  (List.range c.length).map
    (fun i => if off ≤ i ∧ i < off + n then stack (src + (i - off)) else c.getD i 0)

/-- The call `memcpy(dst, c, n)` from the heap block `c` onto the live stack. -/
def memcpy_to_stack (stack : Nat → Nat) (dst : Nat) (c : List Nat) (n : Nat) : Nat → Nat :=
  fun a => if dst ≤ a ∧ a < dst + n then c.getD (a - dst) 0 else stack a

/-- `StackState::StackState()`. -/
def StackState.init : StackState :=
  { _stack_start := 0, stack_stop := 0, stack_copy := none, _stack_saved := 0, stack_prev := none }

/-- `StackState::StackState(void* mark, StackState& current)`, `current` being the
object at handle `cur`. -/
def StackState.init_mark (mark : Nat) (cur : Nat) (current : StackState) : StackState :=
  { _stack_start := 0
    stack_stop := mark
    stack_copy := none
    _stack_saved := 0
    stack_prev := if current._stack_start ≠ 0 then some cur else current.stack_prev }

/-- `StackState::make_main()`. -/
def StackState.make_main : StackState :=
  { StackState.init with _stack_start := 1, stack_stop := CHAR_PTR_MINUS_ONE }

/-- `StackState::started()`. -/
def StackState.started (s : StackState) : Bool := s.stack_stop != 0

/-- `StackState::main()`. -/
def StackState.main (s : StackState) : Bool := s.stack_stop == CHAR_PTR_MINUS_ONE

/-- `StackState::active()`. -/
def StackState.active (s : StackState) : Bool := s._stack_start != 0

/-- `StackState::stack_saved()`. -/
def StackState.stack_saved (s : StackState) : Int := s._stack_saved

/-- `StackState::stack_start()`. -/
def StackState.stack_start (s : StackState) : Nat := s._stack_start

/-- `PyMem_Free(p)`, `freed` being the blocks freed before: the block is added to
them; `PyMem_Free(nullptr)` frees nothing. -/
def PyMem_Free (freed : List (List Nat)) (p : Option (List Nat)) : List (List Nat) :=
  match p with
  | none => freed
  | some b => freed ++ [b]

/-- `StackState::free_stack_copy()`: `PyMem_Free(stack_copy)`, then both members
are reset. The object as the call leaves it; the block it gives up is `given_up`. -/
def StackState.free_stack_copy (s : StackState) : StackState :=
  { s with stack_copy := none, _stack_saved := 0 }

/-- The argument of the `PyMem_Free` call in a `free_stack_copy()` that took the
object from `s` to `s1`. A block is held by one object and stored by value, so it
is the block that `s` held, provided `s1` has given it up: a block that is only
overwritten later has been leaked, not freed. -/
def StackState.given_up (s s1 : StackState) : Option (List Nat) :=
  if s1.stack_copy = none then s.stack_copy else none

/-- `StackState::set_active()`. -/
def StackState.set_active (ndebug : Bool) (s : StackState) : Except Fault StackState :=
  if ndebug = false ∧ s._stack_start ≠ 0 then .error .assertion
  else .ok { s with _stack_start := 1 }

/-- `StackState::set_inactive()`. -/
def StackState.set_inactive (s : StackState) : StackState :=
  let s1 := { s with _stack_start := 0 }
  if s1._stack_saved ≠ 0 then s1.free_stack_copy else s1

/-- `StackState::copy_stack_to_heap_up_to(stop)` on the object at handle `this`.
`sz2` is the pointer difference as the `intptr_t` it is assigned to. A failed
reallocation returns `-1` after `PyErr_NoMemory()`. With a negative `_stack_saved`
the `memcpy` would start before the block. -/
def StackState.copy_stack_to_heap_up_to (A : Allocator) (ndebug : Bool) (w : Thread)
    (this : Nat) (stop : Nat) : Except Fault (Int × Thread) :=
  match w.states[this]? with
  | none => .error .null_deref
  | some s =>
    let sz1 : Int := s._stack_saved
    let sz2 : Int := intptr_t ((stop : Int) - (s._stack_start : Int))
    if ndebug = false ∧ s._stack_start = 0 then .error .assertion
    else if sz2 > sz1 then
      match PyMem_Realloc A w.nrealloc s.stack_copy sz2 with
      | none => .ok (-1, { w with nrealloc := w.nrealloc + 1, err_no_memory := true })
      | some c =>
        if sz1 < 0 then .error .out_of_bounds
        else
          let c1 := memcpy_to_heap c sz1.toNat w.stack (s._stack_start + sz1.toNat) (sz2 - sz1).toNat
          .ok (0, { w with
                      nrealloc := w.nrealloc + 1
                      states := w.states.set this { s with stack_copy := some c1, _stack_saved := sz2 } })
    else .ok (0, w)

/-- The `while` loop and the final `if` of `StackState::copy_stack_to_heap`, with
`owner` the pointer the loop advances. -/
def StackState.save_loop (A : Allocator) (ndebug : Bool) (this : Nat) (target_stop : Nat) :
    Nat → Thread → Option Nat → Except Fault (Int × Thread)
  | 0, _, _ => .error .no_return
  | _ + 1, _, none => .error .null_deref
  | fuel + 1, w, some o =>
    match w.states[o]? with
    | none => .error .null_deref
    | some os =>
      if os.stack_stop < target_stop then
        match StackState.copy_stack_to_heap_up_to A ndebug w o os.stack_stop with
        | .error e => .error e
        | .ok (r, w1) =>
          if r ≠ 0 then .ok (-1, w1)
          else
            match w1.states[o]? with
            | none => .error .null_deref
            | some os1 => StackState.save_loop A ndebug this target_stop fuel w1 os1.stack_prev
      else if o ≠ this then
        match StackState.copy_stack_to_heap_up_to A ndebug w o target_stop with
        | .error e => .error e
        | .ok (r, w1) => if r ≠ 0 then .ok (-1, w1) else .ok (0, w1)
      else .ok (0, w)

/-- The first `n` iterations of the `while` loop of `StackState::copy_stack_to_heap`:
the thread and `owner` after them, when each of them found
`owner->stack_stop < target_stop` and an evacuation that returned 0; `none` when the
loop has left off before. -/
def StackState.save_loop_passes (A : Allocator) (ndebug : Bool) (target_stop : Nat) :
    Nat → Thread → Option Nat → Option (Thread × Option Nat)
  | 0, w, owner => some (w, owner)
  | _ + 1, _, none => none
  | n + 1, w, some o =>
    match w.states[o]? with
    | none => none
    | some os =>
      if os.stack_stop < target_stop then
        match StackState.copy_stack_to_heap_up_to A ndebug w o os.stack_stop with
        | .error _ => none
        | .ok (r, w1) =>
          if r ≠ 0 then none
          else
            match w1.states[o]? with
            | none => none
            | some os1 => StackState.save_loop_passes A ndebug target_stop n w1 os1.stack_prev
      else none

/-- `StackState::copy_stack_to_heap(stackref, current)` on the object at handle
`this`, `current` being the object at handle `current`. -/
def StackState.copy_stack_to_heap (A : Allocator) (ndebug : Bool) (w : Thread)
    (this : Nat) (stackref : Nat) (current : Nat) : Except Fault (Int × Thread) :=
  match w.states[this]?, w.states[current]? with
  | some t, some c =>
    let target_stop := t.stack_stop
    if ndebug = false ∧ c._stack_saved ≠ 0 then .error .assertion
    else if c._stack_start = 0 then
      StackState.save_loop A ndebug this target_stop (w.states.length + 1) w c.stack_prev
    else
      StackState.save_loop A ndebug this target_stop (w.states.length + 1)
        { w with states := w.states.set current { c with _stack_start := stackref } }
        (some current)
  | _, _ => .error .null_deref

/-- The first part of `StackState::copy_heap_to_stack`: the heap copy goes back
onto the C stack and is freed. -/
def StackState.restore_heap_copy (w : Thread) (this : Nat) : Except Fault Thread :=
  match w.states[this]? with
  | none => .error .null_deref
  | some s =>
    if s._stack_saved ≠ 0 then
      match s.stack_copy with
      | none => .error .null_deref
      | some c =>
        if s._stack_start = 0 then .error .null_deref
        else if s._stack_saved < 0 ∨ (c.length : Int) < s._stack_saved then .error .out_of_bounds
        else
          .ok { w with
                  stack := memcpy_to_stack w.stack s._stack_start c s._stack_saved.toNat
                  states := w.states.set this s.free_stack_copy
                  freed := PyMem_Free w.freed (s.given_up s.free_stack_copy) }
    else .ok w

/-- The `while` loop of `StackState::copy_heap_to_stack`: the first owner with
more stack than `stop`, or null. -/
def StackState.find_more_stack (states : List StackState) (stop : Nat) :
    Nat → Option Nat → Except Fault (Option Nat)
  | 0, _ => .error .no_return
  | _ + 1, none => .ok none
  | fuel + 1, some o =>
    match states[o]? with
    | none => .error .null_deref
    | some os =>
      if os.stack_stop ≤ stop then StackState.find_more_stack states stop fuel os.stack_prev
      else .ok (some o)

/-- `StackState::copy_heap_to_stack(current)` on the object at handle `this`,
`current` being the object at handle `current`. -/
def StackState.copy_heap_to_stack (w : Thread) (this : Nat) (current : Nat) :
    Except Fault Thread :=
  match StackState.restore_heap_copy w this with
  | .error e => .error e
  | .ok w1 =>
    match w1.states[this]?, w1.states[current]? with
    | some t, some c =>
      let owner := if c._stack_start = 0 then c.stack_prev else some current
      match StackState.find_more_stack w1.states t.stack_stop (w1.states.length + 1) owner with
      | .error e => .error e
      | .ok owner1 => .ok { w1 with states := w1.states.set this { t with stack_prev := owner1 } }
    | _, _ => .error .null_deref

/-- The record a successful, growing `copy_stack_to_heap_up_to(stop)` leaves
behind, `c` being the block `PyMem_Realloc` returned. -/
def evacuated (stack : Nat → Nat) (s : StackState) (stop : Nat) (c : List Nat) : StackState :=
  { s with
    stack_copy := some (memcpy_to_heap c s._stack_saved.toNat stack
      (s._stack_start + s._stack_saved.toNat)
      (intptr_t ((stop : Int) - (s._stack_start : Int)) - s._stack_saved).toNat)
    _stack_saved := intptr_t ((stop : Int) - (s._stack_start : Int)) }

/-- The list `l` names, in order, the objects met from `o` along `stack_prev`
links, the last of them having a null `stack_prev`. -/
def IsChain (S : List StackState) : Option Nat → List Nat → Prop
  | none, [] => True
  | some h, k :: l => h = k ∧ ∃ s, S[h]? = some s ∧ IsChain S s.stack_prev l
  | none, _ :: _ => False
  | some _, [] => False

/-- The object at handle `h` has `stack_prev` pointing at the object at handle `p`. -/
def Link (S : List StackState) (h p : Nat) : Prop :=
  ∃ s, S[h]? = some s ∧ s.stack_prev = some p

/-- The object at handle `k` is `h` itself or is met from `h` along `stack_prev`
links. -/
def Reach (S : List StackState) : Nat → Nat → Prop :=
  Relation.ReflTransGen (Link S)

/-- Claim C6 as the specification words it, for one call: after
`t.copy_heap_to_stack(current)` the `stack_prev` of `t` is null or points at an
object whose `_stack_start` is not null. -/
def RelinkedToActive (w : Thread) (t current : Nat) : Prop :=
  ∀ w2, StackState.copy_heap_to_stack w t current = .ok w2 →
    ∃ t2, w2.states[t]? = some t2 ∧
      (t2.stack_prev = none ∨
        ∃ p sp, t2.stack_prev = some p ∧ w2.states[p]? = some sp ∧ sp._stack_start ≠ 0)

/-- Every object met from `h` has a `stack_prev` that is null or points at an
object with a strictly greater `stack_stop`. -/
def OrderedFrom (S : List StackState) (h : Nat) : Prop :=
  ∀ k s, Reach S h k → S[k]? = some s →
    s.stack_prev = none ∨
      ∃ p sp, s.stack_prev = some p ∧ S[p]? = some sp ∧ s.stack_stop < sp.stack_stop

/-- A thread on which a dying `current` (handle 2) has an inactive object (handle 1)
behind it; handle 3 is about to be restored. -/
def relinkExample : Thread :=
  { stack := fun _ => 0
    states :=
      [ { _stack_start := 1, stack_stop := CHAR_PTR_MINUS_ONE, stack_copy := none,
          _stack_saved := 0, stack_prev := none },
        { _stack_start := 0, stack_stop := 300, stack_copy := none,
          _stack_saved := 0, stack_prev := some 0 },
        { _stack_start := 0, stack_stop := 100, stack_copy := none,
          _stack_saved := 0, stack_prev := some 1 },
        { _stack_start := 50, stack_stop := 200, stack_copy := none,
          _stack_saved := 0, stack_prev := none } ]
    nrealloc := 0
    err_no_memory := false }

/-- The thread `relinkExample` with the object at handle 1 active. -/
def relinkExampleActive : Thread :=
  { relinkExample with
    states := relinkExample.states.set 1
      { _stack_start := 7, stack_stop := 300, stack_copy := none, _stack_saved := 0,
        stack_prev := some 0 } }

/-- The two arenas agree on `stack_stop` and `stack_prev` of every object. -/
def SameLinks (S S2 : List StackState) : Prop :=
  ∀ k : Nat, (S2[k]?).map (fun s => (s.stack_stop, s.stack_prev)) =
    (S[k]?).map (fun s => (s.stack_stop, s.stack_prev))

/-! ### One OS thread running greenlets -/

/-- Modelled from the spec: the greenlets of one OS thread, as claims C1 and C9
describe them (the switch driver that sequences the `StackState` calls is not in
this header): the thread's memory and `StackState`s, which one is running, and the
lowest address `stack_lo` of the thread's C stack. -/
structure Sched where
  w : Thread
  current : Nat
  stack_lo : Nat := 0

/-- Modelled from the spec: `a` is an address of the C stack that starts at `lo`. The
stack is one object, and no object holds more than `PTRDIFF_MAX` bytes; the sentinel
`(char*)-1` of `make_main()` is no stack address. -/
def StackAddress (lo a : Nat) : Prop :=
  lo ≤ a ∧ a ≤ lo + PTRDIFF_MAX ∧ a < CHAR_PTR_MINUS_ONE

instance StackAddress.decidable (lo a : Nat) : Decidable (StackAddress lo a) := by
  unfold StackAddress
  infer_instance

/-- Modelled from the spec: what the running greenlet can do next. `create mark`
is `StackState(mark, current)`; `write addr val` stores a byte on the C stack;
`switch target stackref` is a switch to `target` made with the stack pointer at
`stackref`. -/
inductive Action where
  | create (mark : Nat)
  | write (addr val : Nat)
  | switch (target stackref : Nat)

/-- Modelled from the spec: a thread holding a single `make_main()` state. -/
def Sched.init (stack : Nat → Nat) : Sched :=
  { w := { stack := stack, states := [StackState.make_main], nrealloc := 0, err_no_memory := false }
    current := 0 }

/-- Modelled from the spec: `set_active()` on the target of a switch that has not
run before; the thread, whose stack starts at `lo`, then runs the target. -/
def Sched.enter (ndebug : Bool) (w : Thread) (target : Nat) (lo : Nat) : Option Sched :=
  match w.states[target]? with
  | none => none
  | some t =>
    if t._stack_start = 0 then
      match t.set_active ndebug with
      | .ok t1 =>
        some { w := { w with states := w.states.set target t1 }, current := target,
               stack_lo := lo }
      | .error _ => none
    else some { w := w, current := target, stack_lo := lo }

/-- Modelled from the spec: one step of the thread; `none` when the step is not one
the claims speak of. `create` takes a non-null `mark` inside the running greenlet's
stack (below its `stack_stop`); the running greenlet writes only at addresses below
its own `stack_stop`; a switch, made with a non-null stack pointer, is
`target.copy_stack_to_heap(stackref, current)` returning 0, then
`target.copy_heap_to_stack(current)`, then `set_active()` on a target entered for
the first time, after which the target is the running one. Marks and stack pointers
are addresses of the thread's C stack (`StackAddress`), wherever in the address space
that stack lies. -/
def Sched.step (A : Allocator) (ndebug : Bool) (s : Sched) : Action → Option Sched
  | .create mark =>
    match s.w.states[s.current]? with
    | none => none
    | some c =>
      if 0 < mark ∧ mark < c.stack_stop ∧ StackAddress s.stack_lo mark then
        some { s with w := { s.w with
                 states := s.w.states ++ [StackState.init_mark mark s.current c] } }
      else none
  | .write addr val =>
    match s.w.states[s.current]? with
    | none => none
    | some c =>
      if addr < c.stack_stop then
        some { s with w := { s.w with stack := Function.update s.w.stack addr val } }
      else none
  | .switch target stackref =>
    if stackref = 0 ∨ ¬ StackAddress s.stack_lo stackref then none
    else
      match StackState.copy_stack_to_heap A ndebug s.w target stackref s.current with
      | .error _ => none
      | .ok (r, w1) =>
        if r ≠ 0 then none
        else
          match StackState.copy_heap_to_stack w1 target s.current with
          | .error _ => none
          | .ok w2 => Sched.enter ndebug w2 target s.stack_lo

/-- Modelled from the spec: a sequence of steps. -/
def Sched.run (A : Allocator) (ndebug : Bool) : List Action → Sched → Option Sched
  | [], s => some s
  | a :: as, s =>
    match s.step A ndebug a with
    | none => none
    | some s1 => Sched.run A ndebug as s1

/-- Modelled from the spec: the states of a thread that started from a single
`make_main()` state, with its C stack anywhere in the address space. -/
def Reachable (s : Sched) : Prop :=
  ∃ (A : Allocator) (ndebug : Bool) (stack : Nat → Nat) (lo : Nat) (acts : List Action),
    Sched.run A ndebug acts { Sched.init stack with stack_lo := lo } = some s

/-- An allocator that never fails. -/
def neverFails : Allocator := { fails := fun _ => false, junk := fun _ _ => 0 }

/-- An allocator whose call number `n` fails. -/
def failsAt (n : Nat) : Allocator := { fails := fun k => decide (k = n), junk := fun _ _ => 0 }

/-- Steps after which the greenlet at handle 2 runs, the main one (handle 0) is
saved up to address 10 and the greenlet at handle 1 is saved in full. -/
def oomScenario : List Action :=
  [.create 20, .switch 1 18, .switch 0 16, .create 10, .switch 2 8]

/-- The thread after `oomScenario`, the allocator failing at its call number 4. -/
def oomSched : Sched :=
  (Sched.run (failsAt 4) false oomScenario (Sched.init (fun a => a % 10))).getD
    (Sched.init (fun a => a % 10))

/-- The thread the failed switch from handle 2 to handle 1 leaves behind. -/
def oomFailed : Thread :=
  match StackState.copy_stack_to_heap (failsAt 4) false oomSched.w 1 5 2 with
  | .ok (_, w2) => w2
  | .error _ => oomSched.w

/-- The thread when the failed switch from handle 2 to handle 1 has set the stack
pointer of handle 2 and evacuated it in full, and comes to the main greenlet. -/
def oomArrived : Thread :=
  match oomSched.w.states[2]? with
  | none => oomSched.w
  | some c =>
    match StackState.save_loop_passes (failsAt 4) false 20 1
        { oomSched.w with states := oomSched.w.states.set 2 { c with _stack_start := 5 } }
        (some 2) with
    | some (wf, _) => wf
    | none => oomSched.w

/-- A thread with the main greenlet alone, its stack pointer last seen at 12. -/
def smallThread : Thread :=
  { stack := fun a => a % 10
    states := [{ StackState.make_main with _stack_start := 12 }]
    nrealloc := 0
    err_no_memory := false }

/-- A thread with the state of `make_main()` alone, as it is made. -/
def mainThread : Thread :=
  { stack := fun a => a % 10
    states := [StackState.make_main]
    nrealloc := 0
    err_no_memory := false }

/-- The thread `smallThread` after `copy_stack_to_heap_up_to(16)` on its one state. -/
def smallEvacuated : Thread :=
  match StackState.copy_stack_to_heap_up_to neverFails false smallThread 0 16 with
  | .ok (_, w) => w
  | .error _ => smallThread

/-! ### Invariants of the thread -/

/-- The byte at address `a` of the stack of the greenlet with state `s`: read from
the heap copy when `a` lies in the saved part `[_stack_start, _stack_start +
_stack_saved)`, from the live stack otherwise. -/
def StackState.view (stack : Nat → Nat) (s : StackState) (a : Nat) : Option Nat :=
  if (a : Int) < (s._stack_start : Int) + s._stack_saved then
    match s.stack_copy with
    | none => none
    | some b => b[a - s._stack_start]?
  else some (stack a)

/-- The bytes of `[_stack_start, stack_stop)`, as the greenlet with state `s` sees
them, are those of `snap`. -/
def Held (stack : Nat → Nat) (s : StackState) (snap : Nat → Nat) : Prop :=
  ∀ a, s._stack_start ≤ a → a < s.stack_stop → s.view stack a = some (snap a)

/-- The state `s1` is the state `s` with more of its stack saved. -/
def Grown (stack : Nat → Nat) (s s1 : StackState) : Prop :=
  s1._stack_start = s._stack_start ∧ s1.stack_stop = s.stack_stop ∧
  s1.stack_prev = s.stack_prev ∧ s._stack_saved ≤ s1._stack_saved ∧
  ∀ a, s._stack_start ≤ a → s1.view stack a = s.view stack a

/-- The heap copy of a state is as long as `_stack_saved` says, is there exactly
when something is saved, and ends at or below `stack_stop`. -/
structure WF (s : StackState) : Prop where
  saved_nonneg : 0 ≤ s._stack_saved
  copy_len : ∀ b, s.stack_copy = some b → (b.length : Int) = s._stack_saved
  copy_none : s.stack_copy = none → s._stack_saved = 0
  copy_pos : ∀ b, s.stack_copy = some b → 0 < s._stack_saved
  saved_le : 0 < s._stack_saved →
    (s._stack_start : Int) + s._stack_saved ≤ (s.stack_stop : Int)
  stop_pos : 0 < s.stack_stop

/-- The list `l` is the chain of `stack_prev` links from `o`; along it `stack_stop`
grows strictly from `lo` on, every state is active, and every state is saved at
least up to the `stack_stop` of the one before it (`lo` for the first). -/
def Guarded (S : List StackState) : Nat → Option Nat → List Nat → Prop
  | _, none, [] => True
  | lo, some h, k :: l =>
    h = k ∧ ∃ s, S[h]? = some s ∧ lo < s.stack_stop ∧
      (lo : Int) ≤ (s._stack_start : Int) + s._stack_saved ∧ s._stack_start ≠ 0 ∧
      Guarded S s.stack_stop s.stack_prev l
  | _, none, _ :: _ => False
  | _, some _, [] => False

/-- A state off the chain has not run yet or is saved in full. -/
def Parked (s : StackState) : Prop :=
  (s._stack_start = 0 ∧ s._stack_saved = 0) ∨
  (s._stack_start ≠ 0 ∧ (s.stack_stop : Int) ≤ (s._stack_start : Int) + s._stack_saved)

/-- Every non-null `_stack_start` but that of the object `cur`, and every
`stack_stop` but that of the object at handle 0 (the main one of a thread, whose
`stack_stop` is `(char*)-1`), is an address of the C stack that starts at `lo`. -/
def Low (lo : Nat) (cur : Option Nat) (S : List StackState) : Prop :=
  ∀ (h : Nat) (st : StackState), S[h]? = some st →
    (some h ≠ cur → st._stack_start = 0 ∨ StackAddress lo st._stack_start) ∧
    (h ≠ 0 → StackAddress lo st.stack_stop) ∧
    (h = 0 → st.stack_stop = CHAR_PTR_MINUS_ONE)

/-- The invariant of a thread: every state is well formed, the running one has
nothing saved and heads a guarded chain, every state off that chain is parked, and
the addresses held by the states other than the running one are those of the
thread's stack. -/
def Inv (s : Sched) : Prop :=
  (∀ (h : Nat) (st : StackState), s.w.states[h]? = some st → WF st) ∧
  ∃ c l, s.w.states[s.current]? = some c ∧ c._stack_saved = 0 ∧
    Guarded s.w.states 0 (some s.current) (s.current :: l) ∧
    (∀ (h : Nat) (st : StackState), h ∉ s.current :: l → s.w.states[h]? = some st →
      Parked st) ∧
    Low s.stack_lo (some s.current) s.w.states

/-- Claim C9 as the specification words it, for one state of the thread: a
`StackState` with non-null `_stack_start` and `_stack_saved == 0` is the running
one. -/
def AtMostOneUnsaved (s : Sched) : Prop :=
  ∀ (h : Nat) (st : StackState), s.w.states[h]? = some st →
    st._stack_start ≠ 0 → st._stack_saved = 0 → h = s.current

/-- Steps after which two greenlets have nothing saved: the one at handle 2 was
switched away from with its whole stack above the `stack_stop` of the one at
handle 1, which runs. -/
def twoUnsavedScenario : List Action :=
  [.create 10, .switch 1 9, .switch 0 8, .create 20, .switch 2 19, .switch 1 15]

/-- The thread after `twoUnsavedScenario`. -/
def twoUnsavedSched : Sched :=
  (Sched.run neverFails false twoUnsavedScenario (Sched.init (fun _ => 0))).getD
    (Sched.init (fun _ => 0))

/-- The greenlet at handle `g` is not running, its state has `_stack_start = start`
(non-null) and `stack_stop = stop`, and the bytes of `[start, stop)` it will find
when it runs again are those of `snap`. -/
def Suspended (s : Sched) (g start stop : Nat) (snap : Nat → Nat) : Prop :=
  g ≠ s.current ∧ start ≠ 0 ∧
  ∃ st, s.w.states[g]? = some st ∧ st._stack_start = start ∧ st.stack_stop = stop ∧
    Held s.w.stack st snap

/-- The thread in which the main greenlet has created a greenlet with mark 10. -/
def tripStart : Sched :=
  (Sched.run neverFails false [.create 10] (Sched.init (fun a => a % 10))).getD
    (Sched.init (fun a => a % 10))

/-- The thread `tripStart` after the main greenlet has switched to the new one with
its stack pointer at 9. -/
def tripAway : Sched :=
  (tripStart.step neverFails false (.switch 1 9)).getD tripStart

/-- What the new greenlet does while the main one is suspended: it writes at
addresses 8 and 9, the second of which held a byte of the main greenlet. -/
def tripMiddle : List Action := [.write 8 77, .write 9 5]

/-- The thread `tripAway` after `tripMiddle`. -/
def tripBefore : Sched :=
  (Sched.run neverFails false tripMiddle tripAway).getD tripAway

/-- The thread `tripBefore` after the switch back to the main greenlet. -/
def tripBack : Sched :=
  (tripBefore.step neverFails false (.switch 0 7)).getD tripBefore

/-- A thread whose C stack lies at the top of the address space. -/
def highStart : Sched :=
  { Sched.init (fun a => a % 10) with stack_lo := 2 ^ 64 - 2 ^ 20 }

/-- The main greenlet creates a greenlet with its mark at `2^64 - 101` and switches
to it with its stack pointer at `2^64 - 201`; the new greenlet overwrites a byte of
the main one and switches back. -/
def highScenario : List Action :=
  [.create (2 ^ 64 - 101), .switch 1 (2 ^ 64 - 201), .write (2 ^ 64 - 150) 77,
   .switch 0 (2 ^ 64 - 301)]

/-- The thread `highStart` after `highScenario`. -/
def highBack : Sched := (Sched.run neverFails false highScenario highStart).getD highStart

/-- No `stack_stop` exceeds `(char*)-1`, and the chain of the running greenlet holds
a state whose `stack_stop` is `(char*)-1`, the main one. -/
def Rooted (s : Sched) : Prop :=
  (∀ (h : Nat) (st : StackState), s.w.states[h]? = some st →
    st.stack_stop ≤ CHAR_PTR_MINUS_ONE) ∧
  ∀ l, Guarded s.w.states 0 (some s.current) l →
    ∃ h ∈ l, ∃ st, s.w.states[h]? = some st ∧ st.stack_stop = CHAR_PTR_MINUS_ONE

/-- After the failed switch the greenlet at handle 2 tries again with its stack
pointer at 4, and is switched back to. -/
def oomRetry : List Action := [.switch 1 4, .switch 2 17]

/-! ### Sequences of calls on the `StackState`s of a thread -/

/-- One call of `copy_stack_to_heap`, `copy_heap_to_stack`, `set_active` or
`set_inactive`, made on the object at handle `this`. -/
inductive StackCall where
  | copy_stack_to_heap (this stackref current : Nat)
  | copy_heap_to_stack (this current : Nat)
  | set_active (this : Nat)
  | set_inactive (this : Nat)

/-- The thread after the call; the `int` that `copy_stack_to_heap` returns is
dropped, the thread going on after a `-1` as after a `0`. -/
def StackCall.apply (A : Allocator) (ndebug : Bool) (w : Thread) : StackCall → Except Fault Thread
  | .copy_stack_to_heap this stackref current =>
    match StackState.copy_stack_to_heap A ndebug w this stackref current with
    | .error e => .error e
    | .ok (_, w1) => .ok w1
  | .copy_heap_to_stack this current => StackState.copy_heap_to_stack w this current
  | .set_active this =>
    match w.states[this]? with
    | none => .error .null_deref
    | some s =>
      match s.set_active ndebug with
      | .error e => .error e
      | .ok s1 => .ok { w with states := w.states.set this s1 }
  | .set_inactive this =>
    match w.states[this]? with
    | none => .error .null_deref
    | some s =>
      .ok { w with
              states := w.states.set this s.set_inactive
              freed := PyMem_Free w.freed (s.given_up s.set_inactive) }

/-- The calls of the list made one after the other. -/
def StackCall.run (A : Allocator) (ndebug : Bool) : List StackCall → Thread → Except Fault Thread
  | [], w => .ok w
  | c :: cs, w =>
    match c.apply A ndebug w with
    | .error e => .error e
    | .ok w1 => StackCall.run A ndebug cs w1

/-- A thread of the main greenlet (handle 0, running with its stack pointer at 12)
and a greenlet that has not run yet (handle 1, mark 8). -/
def callsThread : Thread :=
  { stack := fun a => a % 10
    states := [{ StackState.make_main with _stack_start := 12 },
               StackState.init_mark 8 0 { StackState.make_main with _stack_start := 12 }]
    nrealloc := 0
    err_no_memory := false }

/-- A switch to the new greenlet and back, as calls: the main greenlet is saved and
the new one entered, which then ends and gives the stack back. -/
def callsExample : List StackCall :=
  [.copy_stack_to_heap 1 6 0, .copy_heap_to_stack 1 0, .set_active 1,
   .set_inactive 1, .copy_stack_to_heap 0 5 1, .copy_heap_to_stack 0 1]

/-- The thread after `callsExample`. -/
def callsThreadAfter : Thread :=
  match StackCall.run neverFails false callsExample callsThread with
  | .ok w => w
  | .error _ => callsThread

/-- The two arenas agree on the `stack_stop` of every object. -/
def SameStops (S S2 : List StackState) : Prop :=
  ∀ k : Nat, (S2[k]?).map (fun s => s.stack_stop) = (S[k]?).map (fun s => s.stack_stop)

/-! ### The interpreter state that travels with a greenlet

`ExceptionState`, `PythonState` and `SwitchingArgs` are embedded as they compile
for CPython 3.10: `PY_VERSION_HEX >= 0x030700A3`, `GREENLET_PY37` and
`GREENLET_USE_CFRAME` all hold.

* A `PyObject*`, a frame pointer and a `_PyErr_StackItem*` are natural numbers,
  `0` being `nullptr`; the code copies and compares them and follows none.
* The `CFrame` objects of the interpreter live in an arena (a list), which changes
  with the C stack; a `CFrame*` is `Option Nat`, as a `StackState*` is.
* `int` members are only copied, so they are integers; `context_ver` is a
  `uint64_t` that is incremented, so it is taken modulo `2 ^ 64`.
* Reference counts belong to the object model, which the header only uses.
-/

/-- Modelled from the spec: `refs::OwnedReference<T>` (`OwnedObject`, `OwnedFrame`,
`OwnedContext`) of `greenlet_refs.hpp`, which is not among the sources. The object
model and its reference counting being outside the core, an owned reference is the
nullable pointer it holds. -/
structure OwnedReference where
  p : Nat
  deriving DecidableEq

/-- Modelled from the spec: the default constructor of `OwnedReference`, an empty
reference. -/
def OwnedReference.init : OwnedReference := { p := 0 }

/-- Modelled from the spec: `OwnedReference::operator bool`, whether the reference
holds an object. -/
def OwnedReference.operator_bool (r : OwnedReference) : Bool := r.p != 0

/-- Modelled from the spec: `OwnedReference::CLEAR()`, after which the reference is
empty. -/
def OwnedReference.CLEAR (_r : OwnedReference) : OwnedReference := { p := 0 }

/-- Modelled from the spec: `OwnedReference::operator=`, after which the reference
holds the object the right-hand side holds. -/
def OwnedReference.assign (_r other : OwnedReference) : OwnedReference := { p := other.p }

/-- Modelled from the spec: `OwnedReference::consuming(p)`, a reference that takes
over the caller's reference to `p`. -/
def OwnedReference.consuming (p : Nat) : OwnedReference := { p := p }

/-- Modelled from the spec: `OwnedReference::steal(p)`, after which the reference
holds `p`, whose reference the caller gives up. -/
def OwnedReference.steal (_r : OwnedReference) (p : Nat) : OwnedReference := { p := p }

/-- Modelled from the spec: `OwnedReference::relinquish_ownership()`, which hands
the pointer to the caller and leaves the reference empty. -/
def OwnedReference.relinquish_ownership (r : OwnedReference) : Nat × OwnedReference :=
  (r.p, { p := 0 })

/-- CPython's `_PyErr_StackItem`. -/
structure _PyErr_StackItem where
  exc_type : Nat
  exc_value : Nat
  exc_traceback : Nat
  previous_item : Nat
  deriving DecidableEq

/-- CPython's `CFrame`. -/
structure CFrame where
  use_tracing : Int
  previous : Option Nat
  deriving DecidableEq

/-- The members of CPython's `PyThreadState` that the header reads or writes.
`exc_state_addr` is the address `&tstate->exc_state` of the member `exc_state`,
which the object keeps for its lifetime. -/
structure PyThreadState where
  recursion_depth : Int
  frame : Nat
  context : Nat
  context_ver : Nat
  cframe : Option Nat
  exc_info : Nat
  exc_state : _PyErr_StackItem
  exc_state_addr : Nat
  deriving DecidableEq

/-- The data members of `class ExceptionState`. -/
structure ExceptionState where
  exc_info : Nat
  exc_state : _PyErr_StackItem
  deriving DecidableEq

/-- The data members of `class PythonState`, `_context` being the one of its base
`PythonStateContext`. -/
structure PythonState where
  _context : OwnedReference
  _top_frame : OwnedReference
  cframe : Option Nat
  use_tracing : Int
  recursion_depth : Int
  deriving DecidableEq

/-- `ExceptionState::clear()`. -/
def ExceptionState.clear (e : ExceptionState) : ExceptionState :=
  let e1 := { e with exc_info := 0 }
  let e2 := { e1 with exc_state := { e1.exc_state with exc_type := 0 } }
  let e3 := { e2 with exc_state := { e2.exc_state with exc_value := 0 } }
  let e4 := { e3 with exc_state := { e3.exc_state with exc_traceback := 0 } }
  { e4 with exc_state := { e4.exc_state with previous_item := 0 } }

/-- `ExceptionState::ExceptionState()`, which calls `clear()` on the new object,
`e` being what its members held before. -/
def ExceptionState.init (e : ExceptionState) : ExceptionState := e.clear

/-- `ExceptionState::operator<<(tstate)`. The thread state is pointed to as
`const`: it is returned as it came. -/
def ExceptionState.operator_shl (e : ExceptionState) (tstate : PyThreadState) :
    ExceptionState × PyThreadState :=
  let e1 := { e with exc_info := tstate.exc_info }
  let e2 := { e1 with exc_state := tstate.exc_state }
  (e2, tstate)

/-- `ExceptionState::operator>>(tstate)`. -/
def ExceptionState.operator_shr (e : ExceptionState) (tstate : PyThreadState) :
    ExceptionState × PyThreadState :=
  let ts1 := { tstate with exc_state := e.exc_state }
  let ts2 := { ts1 with exc_info := if e.exc_info ≠ 0 then e.exc_info else ts1.exc_state_addr }
  (e.clear, ts2)

/-- The two-argument `PythonStateContext<GREENLET_WHEN_PY37>::context(tstate,
new_context)`. -/
def PythonStateContext.context (tstate : PyThreadState) (new_context : Nat) : PyThreadState :=
  let ts1 := { tstate with context := new_context }
  { ts1 with context_ver := (ts1.context_ver + 1) % 2 ^ 64 }

/-- `PythonState::top_frame()`. -/
def PythonState.top_frame (p : PythonState) : OwnedReference := p._top_frame

/-- `PythonState::operator<<(tstate)`, `cframes` being the `CFrame` objects at the
time of the call. The thread state is pointed to as `const`: it is returned as it
came. -/
def PythonState.operator_shl (p : PythonState) (cframes : List CFrame) (tstate : PyThreadState) :
    Except Fault (PythonState × PyThreadState) :=
  let p1 := { p with recursion_depth := tstate.recursion_depth }
  let p2 := { p1 with _top_frame := p1._top_frame.steal tstate.frame }
  let p3 := { p2 with _context := p2._context.steal tstate.context }
  let p4 := { p3 with cframe := tstate.cframe }
  match tstate.cframe with
  | none => .error .null_deref
  | some i =>
    match cframes[i]? with
    | none => .error .null_deref
    | some f => .ok ({ p4 with use_tracing := f.use_tracing }, tstate)

/-- `PythonState::operator>>(tstate)`, `cframes` being the `CFrame` objects at the
time of the call. -/
def PythonState.operator_shr (p : PythonState) (cframes : List CFrame) (tstate : PyThreadState) :
    Except Fault (PythonState × List CFrame × PyThreadState) :=
  let ts1 := { tstate with recursion_depth := p.recursion_depth }
  let p1 := { p with _top_frame := p._top_frame.relinquish_ownership.2 }
  let ts2 := { ts1 with frame := p._top_frame.relinquish_ownership.1 }
  let p2 := { p1 with _context := p1._context.relinquish_ownership.2 }
  let ts3 := { ts2 with context := p1._context.relinquish_ownership.1 }
  let ts4 := { ts3 with context_ver := (ts3.context_ver + 1) % 2 ^ 64 }
  let ts5 := { ts4 with cframe := p2.cframe }
  match ts5.cframe with
  | none => .error .null_deref
  | some i =>
    match cframes[i]? with
    | none => .error .null_deref
    | some f => .ok (p2, cframes.set i { f with use_tracing := p2.use_tracing }, ts5)

/-- `PythonState::will_switch_from(origin_tstate)`, `cframes` being the `CFrame`
objects at the time of the call. -/
def PythonState.will_switch_from (p : PythonState) (cframes : List CFrame)
    (origin_tstate : PyThreadState) : Except Fault PythonState :=
  match origin_tstate.cframe with
  | none => .error .null_deref
  | some i =>
    match cframes[i]? with
    | none => .error .null_deref
    | some f => .ok { p with use_tracing := f.use_tracing }

/-- A thread state in the middle of a call: three frames deep, frame `7`, context
`9`, `exc_info` pointing at an item at address `100`, and a version counter at
its largest value. -/
def tstateExample : PyThreadState :=
  { recursion_depth := 3, frame := 7, context := 9, context_ver := 2 ^ 64 - 1,
    cframe := some 0, exc_info := 100,
    exc_state := { exc_type := 1, exc_value := 2, exc_traceback := 3, previous_item := 4 },
    exc_state_addr := 500 }

/-- The `CFrame` objects when `tstateExample` is saved: one, with tracing on. -/
def cframesExample : List CFrame := [{ use_tracing := 1, previous := none }]

/-- The same thread later, while another greenlet runs. -/
def tstateLater : PyThreadState :=
  { recursion_depth := 8, frame := 70, context := 0, context_ver := 5,
    cframe := some 1, exc_info := 500,
    exc_state := { exc_type := 0, exc_value := 0, exc_traceback := 0, previous_item := 0 },
    exc_state_addr := 500 }

/-- The `CFrame` objects when `tstateLater` is current: the second one, with
tracing off, is the running greenlet's. -/
def cframesLater : List CFrame :=
  [{ use_tracing := 1, previous := none }, { use_tracing := 0, previous := some 0 }]

/-- A `PythonState` that holds nothing and refers to the first `CFrame`. -/
def pythonExample : PythonState :=
  { _context := OwnedReference.init, _top_frame := OwnedReference.init, cframe := some 0,
    use_tracing := 0, recursion_depth := 0 }

/-- An `ExceptionState` as its constructor leaves it. -/
def exceptionExample : ExceptionState :=
  ExceptionState.init
    { exc_info := 0,
      exc_state := { exc_type := 0, exc_value := 0, exc_traceback := 0, previous_item := 0 } }

/-- The `PythonState` that `pythonExample << tstateExample` leaves. -/
def pythonSaved : PythonState :=
  match pythonExample.operator_shl cframesExample tstateExample with
  | .ok (p1, _) => p1
  | .error _ => pythonExample

/-! ### `SwitchingArgs` and `Greenlet` -/

/-- The data members of `class SwitchingArgs`. -/
structure SwitchingArgs where
  _args : OwnedReference
  _kwargs : OwnedReference
  deriving DecidableEq

/-- `SwitchingArgs::SwitchingArgs()`: both members are default-constructed. -/
def SwitchingArgs.init : SwitchingArgs :=
  { _args := OwnedReference.init, _kwargs := OwnedReference.init }

/-- `SwitchingArgs::operator bool`. -/
def SwitchingArgs.operator_bool (s : SwitchingArgs) : Bool :=
  s._args.operator_bool || s._kwargs.operator_bool

/-- The objects that the `operator<<=` overloads take by reference: the
`SwitchingArgs` at each address, and the `OwnedObject`s that are members of no
`SwitchingArgs`. -/
structure Objects where
  switching : Nat → SwitchingArgs
  owned : Nat → OwnedReference

/-- What an `OwnedObject&` refers to: the member `_args` or `_kwargs` of the
`SwitchingArgs` at address `o`, or an `OwnedObject` of its own at address `k`. -/
inductive OwnedObjectRef where
  | args_of (o : Nat)
  | kwargs_of (o : Nat)
  | other (k : Nat)
  deriving DecidableEq

/-- The value of the `OwnedObject` referred to. -/
def Objects.get (m : Objects) : OwnedObjectRef → OwnedReference
  | .args_of o => (m.switching o)._args
  | .kwargs_of o => (m.switching o)._kwargs
  | .other k => m.owned k

/-- A store into the `OwnedObject` referred to. -/
def Objects.put (m : Objects) (r : OwnedObjectRef) (v : OwnedReference) : Objects :=
  match r with
  | .args_of o =>
    { m with switching := fun a => if a = o then { m.switching o with _args := v } else m.switching a }
  | .kwargs_of o =>
    { m with switching := fun a => if a = o then { m.switching o with _kwargs := v } else m.switching a }
  | .other k => { m with owned := fun a => if a = k then v else m.owned a }

/-- `SwitchingArgs::CLEAR()` on the object at address `this`. -/
def SwitchingArgs.CLEAR (m : Objects) (this : Nat) : Objects :=
  let m1 := m.put (.args_of this) (m.get (.args_of this)).CLEAR
  m1.put (.kwargs_of this) (m1.get (.kwargs_of this)).CLEAR

/-- `SwitchingArgs::operator<<=(SwitchingArgs& other)` on the object at address
`this`, `other` being the object at address `other`. -/
def SwitchingArgs.operator_shl_assign (m : Objects) (this other : Nat) : Objects :=
  if this ≠ other then
    let m1 := m.put (.args_of this) ((m.get (.args_of this)).assign (m.get (.args_of other)))
    let m2 := m1.put (.kwargs_of this) ((m1.get (.kwargs_of this)).assign (m1.get (.kwargs_of other)))
    SwitchingArgs.CLEAR m2 other
  else m

/-- `SwitchingArgs::operator<<=(PyObject* args)` on the object at address `this`. -/
def SwitchingArgs.operator_shl_assign_ptr (m : Objects) (this : Nat) (args : Nat) : Objects :=
  let m1 := m.put (.args_of this) ((m.get (.args_of this)).assign (OwnedReference.consuming args))
  m1.put (.kwargs_of this) (m1.get (.kwargs_of this)).CLEAR

/-- `SwitchingArgs::operator<<=(OwnedObject& args)` on the object at address
`this`. -/
def SwitchingArgs.operator_shl_assign_owned (ndebug : Bool) (m : Objects) (this : Nat)
    (args : OwnedObjectRef) : Except Fault Objects :=
  if ndebug = false ∧ args = .args_of this then .error .assertion
  else
    let m1 := m.put (.args_of this) ((m.get (.args_of this)).assign (m.get args))
    let m2 := m1.put (.kwargs_of this) (m1.get (.kwargs_of this)).CLEAR
    .ok (m2.put args (m2.get args).CLEAR)

/-- The data members of `class Greenlet`. -/
structure Greenlet where
  exception_state : ExceptionState
  switch_args : SwitchingArgs
  stack_state : StackState
  python_state : PythonState

/-- `Greenlet::is_currently_running_in_some_thread()`. -/
def Greenlet.is_currently_running_in_some_thread (g : Greenlet) : Bool :=
  g.stack_state.active && !g.python_state.top_frame.operator_bool

/-- Two `SwitchingArgs`, at addresses 1 and 2, among empty ones, and an
`OwnedObject` at address 5 among empty ones. -/
def argsExample : Objects :=
  { switching := fun a =>
      if a = 1 then { _args := { p := 11 }, _kwargs := { p := 12 } }
      else if a = 2 then { _args := { p := 21 }, _kwargs := { p := 22 } }
      else SwitchingArgs.init
    owned := fun k => if k = 5 then { p := 50 } else OwnedReference.init }

/-- The main greenlet of a thread, suspended with the state `pythonSaved`. -/
def greenletExample : Greenlet :=
  { exception_state := exceptionExample, switch_args := SwitchingArgs.init,
    stack_state := StackState.make_main, python_state := pythonSaved }

/-! ### Assignment, destruction and `UserGreenlet::run`

A function that can throw returns the exception as a value: `operator=` and the
copy constructor return the exception thrown, if any, with the thread as the call
left it; `run()`, which is `const`, returns the exception or the value.
-/

/-- The C++ exceptions that the header throws. -/
inductive Exception where
  | runtime_error (what : String)
  | AttributeError (what : String)
  deriving DecidableEq

/-- `StackState::operator=(other)` on the object at handle `this`, `other` being the
object at handle `other`. The result names the exception thrown, if one was, and
the thread as the call left it, the block that `free_stack_copy()` freed being
recorded in it. -/
def StackState.operator_assign (w : Thread) (this other : Nat) :
    Except Fault (Option Exception × Thread) :=
  match w.states[this]?, w.states[other]? with
  | some t, some o =>
    if other = this then .ok (none, w)
    else if o._stack_saved ≠ 0 then
      .ok (some (.runtime_error "Refusing to steal memory."), w)
    else
      let t1 := t.free_stack_copy
      let t2 := { t1 with _stack_start := o._stack_start }
      let t3 := { t2 with stack_stop := o.stack_stop }
      let t4 := { t3 with stack_copy := o.stack_copy }
      let t5 := { t4 with _stack_saved := o._stack_saved }
      let t6 := { t5 with stack_prev := o.stack_prev }
      .ok (none, { w with
                     states := w.states.set this t6
                     freed := PyMem_Free w.freed (t.given_up t1) })
  | _, _ => .error .null_deref

/-- `StackState::StackState(const StackState& other)`: the new object takes the next
free handle, is initialised with null members and then assigned from `other`; when
the assignment throws, no object has been made. -/
def StackState.init_copy (w : Thread) (other : Nat) : Except Fault (Option Exception × Thread) :=
  match StackState.operator_assign { w with states := w.states ++ [StackState.init] }
      w.states.length other with
  | .error e => .error e
  | .ok (none, w1) => .ok (none, w1)
  | .ok (some e, _) => .ok (some e, w)

/-- `StackState::~StackState()`, the object as the destructor leaves it. -/
def StackState.destructor (s : StackState) : StackState :=
  if s._stack_saved ≠ 0 then s.free_stack_copy else s

/-- `Greenlet::started()`. -/
def Greenlet.started (g : Greenlet) : Bool := g.stack_state.started

/-- The data members of `class UserGreenlet`, after those of its base `Greenlet`;
`_self` is a borrowed pointer. -/
structure UserGreenlet extends Greenlet where
  _self : Nat
  _main_greenlet : OwnedReference
  _run_callable : OwnedReference
  _parent : OwnedReference

/-- `UserGreenlet::run() const`. -/
def UserGreenlet.run (g : UserGreenlet) : Except Exception OwnedReference :=
  if g.toGreenlet.started || !g._run_callable.operator_bool then
    .error (.AttributeError "run")
  else .ok g._run_callable

/-- A thread of the running main greenlet (handle 0) and a suspended greenlet
(handle 1) with two bytes saved. -/
def assignThread : Thread :=
  { stack := fun a => a % 10
    states :=
      [{ StackState.make_main with _stack_start := 12 },
       { _stack_start := 5, stack_stop := 7, stack_copy := some [5, 6], _stack_saved := 2,
         stack_prev := some 0 }]
    nrealloc := 1
    err_no_memory := false }

/-- A greenlet that has not run yet and holds the callable `40`. -/
def userExample : UserGreenlet :=
  { exception_state := exceptionExample, switch_args := SwitchingArgs.init,
    stack_state := StackState.init, python_state := pythonExample,
    _self := 30, _main_greenlet := { p := 31 }, _run_callable := { p := 40 },
    _parent := { p := 31 } }

/-- The invariant of claim C27: `_stack_saved` is not negative, and it is zero
exactly when `stack_copy` is null. -/
def SavedIffCopy (s : StackState) : Prop :=
  0 ≤ s._stack_saved ∧ (s._stack_saved = 0 ↔ s.stack_copy = none)

/-- Every object of the arena satisfies `SavedIffCopy`. -/
def AllSavedIffCopy (S : List StackState) : Prop :=
  ∀ (k : Nat) (s : StackState), S[k]? = some s → SavedIffCopy s

/-- The thread `assignThread` after the suspended greenlet asked for the stack down
to its `stack_stop`, the main greenlet running with its stack pointer at 3. -/
def assignSwitched : Thread :=
  match StackState.copy_stack_to_heap neverFails false assignThread 1 3 0 with
  | .ok (_, w) => w
  | .error _ => assignThread

/-- The walk along `stack_prev` links that starts at `o` and passes every object for
which `skip` holds: `pre` lists the objects passed, in order, and `r` is where the
walk ends, the first object for which `skip` fails, or null when the links end
before there is one. -/
def Walk (S : List StackState) (skip : StackState → Bool) :
    Option Nat → List Nat → Option Nat → Prop
  | none, [], r => r = none
  | none, _ :: _, _ => False
  | some h, [], r => r = some h ∧ ∃ s, S[h]? = some s ∧ skip s = false
  | some h, k :: l, r =>
    h = k ∧ ∃ s, S[h]? = some s ∧ skip s = true ∧ Walk S skip s.stack_prev l r

/-- A thread of four greenlets: the main one (handle 0), one suspended between 40
and 50 (handle 1), the running one between 20 and 30 (handle 2), and one whose
stack ends at 60 (handle 3), not linked yet. -/
def walkThread : Thread :=
  { stack := fun a => a % 10
    states :=
      [{ StackState.make_main with _stack_start := 55 },
       { _stack_start := 40, stack_stop := 50, stack_copy := none, _stack_saved := 0,
         stack_prev := some 0 },
       { _stack_start := 20, stack_stop := 30, stack_copy := none, _stack_saved := 0,
         stack_prev := some 1 },
       { _stack_start := 35, stack_stop := 60, stack_copy := none, _stack_saved := 0,
         stack_prev := none }]
    nrealloc := 0
    err_no_memory := false }

/-- The thread `walkThread` after `copy_heap_to_stack` on handle 3 with handle 2
running. -/
def walkRestored : Thread :=
  match StackState.copy_heap_to_stack walkThread 3 2 with
  | .ok w => w
  | .error _ => walkThread

/-- The arena `S1` is the arena `S` with more saved: every object keeps its
`_stack_start`, `stack_stop` and `stack_prev`, and its `_stack_saved` has not
decreased. -/
def MoreSaved (S S1 : List StackState) : Prop :=
  S1.length = S.length ∧
  ∀ (k : Nat) (s : StackState), S[k]? = some s →
    ∃ s1, S1[k]? = some s1 ∧ s1._stack_start = s._stack_start ∧
      s1.stack_stop = s.stack_stop ∧ s1.stack_prev = s.stack_prev ∧
      s._stack_saved ≤ s1._stack_saved

/-- The address up to which `copy_stack_to_heap` evacuates the object `s` for a target
with `stack_stop = target`, the smaller of the two `stack_stop`s, lies less than
`2^63` below `_stack_start`, if it lies below it: the pointer difference that the
code computes is then not negative enough to come out positive in an `intptr_t`. -/
def FitsBelow (target : Nat) (s : StackState) : Prop :=
  -(2 ^ 63) ≤ ((min s.stack_stop target : Nat) : Int) - (s._stack_start : Int)

instance FitsBelow.decidable (target : Nat) (s : StackState) : Decidable (FitsBelow target s) := by
  unfold FitsBelow
  infer_instance

/-- The object at handle 1 of `walkThread`. -/
def walkOne : StackState :=
  { _stack_start := 40, stack_stop := 50, stack_copy := none, _stack_saved := 0,
    stack_prev := some 0 }

/-- The object at handle 2 of `walkThread`, the running one. -/
def walkTwo : StackState :=
  { _stack_start := 20, stack_stop := 30, stack_copy := none, _stack_saved := 0,
    stack_prev := some 1 }

/-- Claim C29 as the specification words it, for one call: when the chain of
`stack_prev` links from `current` is finite and holds a main state, and `current`
has a non-null `_stack_start` or a non-null `stack_prev`, the walk of
`copy_stack_to_heap` ends without following a null link. -/
def WalkEndsAtRoot (A : Allocator) (ndebug : Bool) (w : Thread) (t stackref current : Nat) :
    Prop :=
  ∀ (cs : StackState) (l : List Nat), w.states[current]? = some cs →
    IsChain w.states (some current) l →
    (∃ m ∈ l, ∃ sm, w.states[m]? = some sm ∧ sm.main = true) →
    (cs._stack_start ≠ 0 ∨ cs.stack_prev ≠ none) →
    StackState.copy_stack_to_heap A ndebug w t stackref current ≠ .error .no_return ∧
    StackState.copy_stack_to_heap A ndebug w t stackref current ≠ .error .null_deref

/-- A thread on which the running object (handle 2) was made by
`StackState((void*)-1, o)` from the active object `o` at handle 1: it is main, its
`_stack_start` is null and its `stack_prev` is `o`, whose own `stack_prev` is null.
Handle 0 is the target of a switch. -/
def dyingMainThread : Thread :=
  { stack := fun a => a % 10
    states :=
      [{ _stack_start := 0, stack_stop := 200, stack_copy := none, _stack_saved := 0,
         stack_prev := none },
       { _stack_start := 50, stack_stop := 100, stack_copy := none, _stack_saved := 0,
         stack_prev := none },
       StackState.init_mark CHAR_PTR_MINUS_ONE 1
         { _stack_start := 50, stack_stop := 100, stack_copy := none, _stack_saved := 0,
           stack_prev := none }]
    nrealloc := 0
    err_no_memory := false }

/-- The object at handle 3 of `walkThread`. -/
def walkThree : StackState :=
  { _stack_start := 35, stack_stop := 60, stack_copy := none, _stack_saved := 0,
    stack_prev := none }

/-- A thread on which two objects have the `stack_stop` of a main greenlet,
`(char*)-1`: the one at handle 1 runs, the one at handle 0 is the target. -/
def twoMains : Thread :=
  { stack := fun a => a % 10
    states :=
      [{ StackState.make_main with _stack_start := 40 },
       { StackState.make_main with _stack_start := 50 }]
    nrealloc := 0
    err_no_memory := false }


theorem lt_length_of_getElem? {α : Type} {l : List α} {i : Nat} {a : α} (h : l[i]? = some a) :
    i < l.length := by
  rcases List.getElem?_eq_some.mp h with ⟨h1, _⟩
  exact h1

theorem intptr_t_eq {x : Int} (h1 : -(2 ^ 63) ≤ x) (h2 : x < 2 ^ 63) : intptr_t x = x := by
  unfold intptr_t
  omega

theorem intptr_t_range (x : Int) : -(2 ^ 63) ≤ intptr_t x ∧ intptr_t x < 2 ^ 63 := by
  unfold intptr_t
  omega

/-- A difference of `2^63` or more, up to `(char*)-1`, is negative as an `intptr_t`. -/
theorem intptr_t_neg {x : Int} (h1 : 2 ^ 63 ≤ x) (h2 : x < 2 ^ 64) : intptr_t x < 0 := by
  unfold intptr_t
  omega

/-- Two addresses of one stack have the difference the code computes. -/
theorem intptr_t_stack {lo stop start : Nat} (h1 : StackAddress lo stop)
    (h2 : StackAddress lo start) :
    intptr_t ((stop : Int) - (start : Int)) = (stop : Int) - (start : Int) := by
  unfold StackAddress PTRDIFF_MAX at h1 h2
  refine intptr_t_eq ?_ ?_ <;> omega

theorem copy_stack_to_heap_up_to_cases {A : Allocator} {ndebug : Bool} {w : Thread} {this stop : Nat}
    {r : Int} {w1 : Thread}
    (h : StackState.copy_stack_to_heap_up_to A ndebug w this stop = .ok (r, w1)) :
    ∃ s, w.states[this]? = some s ∧ ¬ (ndebug = false ∧ s._stack_start = 0) ∧
      ((¬ (intptr_t ((stop : Int) - (s._stack_start : Int)) > s._stack_saved) ∧ r = 0 ∧ w1 = w) ∨
       (intptr_t ((stop : Int) - (s._stack_start : Int)) > s._stack_saved ∧
          PyMem_Realloc A w.nrealloc s.stack_copy (intptr_t ((stop : Int) - (s._stack_start : Int))) = none ∧
          r = -1 ∧ w1 = { w with nrealloc := w.nrealloc + 1, err_no_memory := true }) ∨
       (intptr_t ((stop : Int) - (s._stack_start : Int)) > s._stack_saved ∧ 0 ≤ s._stack_saved ∧
          ∃ c, PyMem_Realloc A w.nrealloc s.stack_copy (intptr_t ((stop : Int) - (s._stack_start : Int))) = some c ∧
          r = 0 ∧ w1 = { w with nrealloc := w.nrealloc + 1,
                                states := w.states.set this (evacuated w.stack s stop c) })) := by
  unfold StackState.copy_stack_to_heap_up_to at h
  cases hs : w.states[this]? with
  | none => simp [hs] at h
  | some s =>
    simp only [hs] at h
    refine ⟨s, rfl, ?_⟩
    by_cases ha : ndebug = false ∧ s._stack_start = 0
    · simp [ha] at h
    · simp only [ha, if_false] at h
      refine ⟨ha, ?_⟩
      by_cases hgt : intptr_t ((stop : Int) - (s._stack_start : Int)) > s._stack_saved
      · simp only [hgt, if_true] at h
        cases hc : PyMem_Realloc A w.nrealloc s.stack_copy (intptr_t ((stop : Int) - (s._stack_start : Int))) with
        | none =>
          simp only [hc] at h
          simp only [Except.ok.injEq, Prod.mk.injEq] at h
          exact Or.inr (Or.inl ⟨hgt, rfl, h.1.symm, h.2.symm⟩)
        | some c =>
          simp only [hc] at h
          by_cases hneg : s._stack_saved < 0
          · simp [hneg] at h
          · simp only [hneg, if_false, Except.ok.injEq, Prod.mk.injEq] at h
            exact Or.inr (Or.inr ⟨hgt, not_lt.mp hneg, c, rfl, h.1.symm, h.2.symm⟩)
      · simp only [hgt, if_false, Except.ok.injEq, Prod.mk.injEq] at h
        exact Or.inl ⟨hgt, h.1.symm, h.2.symm⟩

theorem PyMem_Realloc_some {A : Allocator} {k : Nat} {p : Option (List Nat)} {n : Int} {c : List Nat}
    (h : PyMem_Realloc A k p n = some c) :
    0 ≤ n ∧ A.fails k = false ∧ c.length = n.toNat ∧
      ∀ i, i < n.toNat → (c)[i]? = some (if i < (p.getD []).length then (p.getD []).getD i 0 else A.junk k i) := by
  unfold PyMem_Realloc at h
  by_cases hc : n < 0 ∨ A.fails k = true
  · simp [hc] at h
  · simp only [hc, if_false, Option.some.injEq] at h
    push_neg at hc
    refine ⟨hc.1, by simpa using hc.2, by simp [← h], ?_⟩
    intro i hi
    simp [← h, List.getElem?_map, List.getElem?_range hi]

theorem memcpy_to_heap_length (c : List Nat) (off : Nat) (stack : Nat → Nat) (src n : Nat) :
    (memcpy_to_heap c off stack src n).length = c.length := by
  simp [memcpy_to_heap]

theorem memcpy_to_heap_getElem? (c : List Nat) (off : Nat) (stack : Nat → Nat) (src n i : Nat)
    (hi : i < c.length) :
    (memcpy_to_heap c off stack src n)[i]? =
      if off ≤ i ∧ i < off + n then some (stack (src + (i - off))) else (c)[i]? := by
  simp only [memcpy_to_heap, List.getElem?_map, List.getElem?_range hi, Option.map_some']
  split
  · rfl
  · simp [List.getD_eq_getElem?_getD, List.getElem?_eq_getElem hi]

/-- C3: evacuation is idempotent. If `copy_stack_to_heap_up_to(stop)` returned 0,
the same call made again with no restore in between returns 0 and leaves the
whole thread as the first call left it: no reallocation is made (the call counter
stands), nothing is copied, `_stack_saved` and the heap block are the same. -/
theorem evacuation_idempotent (A : Allocator) (ndebug : Bool) (w w1 : Thread) (this stop : Nat)
    (h : StackState.copy_stack_to_heap_up_to A ndebug w this stop = .ok (0, w1)) :
    StackState.copy_stack_to_heap_up_to A ndebug w1 this stop = .ok (0, w1) := by
  rcases copy_stack_to_heap_up_to_cases h with ⟨s, hs, ha, h1 | h1 | h1⟩
  · rcases h1 with ⟨hgt, -, rfl⟩
    unfold StackState.copy_stack_to_heap_up_to
    simp only [hs, ha, hgt, if_false]
  · rcases h1 with ⟨-, -, h0, -⟩
    exact absurd h0 (by decide)
  · rcases h1 with ⟨hgt, hnn, c, hc, -, rfl⟩
    have hlt := lt_length_of_getElem? hs
    unfold StackState.copy_stack_to_heap_up_to
    simp only [List.getElem?_set_self hlt, evacuated]
    simp only [ha, if_false, gt_iff_lt, lt_self_iff_false]

/-- C3 at the thread `smallThread`: the second evacuation up to 16 changes nothing. -/
theorem evacuation_idempotent_witness :
    StackState.copy_stack_to_heap_up_to neverFails false smallThread 0 16 = .ok (0, smallEvacuated) ∧
    StackState.copy_stack_to_heap_up_to neverFails false smallEvacuated 0 16 =
      .ok (0, smallEvacuated) :=
  ⟨rfl, evacuation_idempotent neverFails false smallThread smallEvacuated 0 16 rfl⟩

theorem restore_heap_copy_cases {w w1 : Thread} {this : Nat}
    (h : StackState.restore_heap_copy w this = .ok w1) :
    ∃ s, w.states[this]? = some s ∧
      ((s._stack_saved = 0 ∧ w1 = w) ∨
       (s._stack_saved ≠ 0 ∧ ∃ c, s.stack_copy = some c ∧ s._stack_start ≠ 0 ∧
          0 ≤ s._stack_saved ∧ s._stack_saved ≤ (c.length : Int) ∧
          w1 = { w with
                  stack := memcpy_to_stack w.stack s._stack_start c s._stack_saved.toNat
                  states := w.states.set this s.free_stack_copy
                  freed := w.freed ++ [c] })) := by
  unfold StackState.restore_heap_copy at h
  cases hs : w.states[this]? with
  | none => simp [hs] at h
  | some s =>
    simp only [hs] at h
    refine ⟨s, rfl, ?_⟩
    by_cases h0 : s._stack_saved = 0
    · simp only [h0, ne_eq, not_true_eq_false, if_false, Except.ok.injEq] at h
      exact Or.inl ⟨h0, h.symm⟩
    · simp only [ne_eq, h0, not_false_eq_true, if_true] at h
      cases hc : s.stack_copy with
      | none => simp [hc] at h
      | some c =>
        simp only [hc] at h
        by_cases hst : s._stack_start = 0
        · simp [hst] at h
        · simp only [hst, if_false] at h
          by_cases hb : s._stack_saved < 0 ∨ (c.length : Int) < s._stack_saved
          · simp [hb] at h
          · simp only [hb, if_false, Except.ok.injEq] at h
            push_neg at hb
            have hfreed : PyMem_Free w.freed (s.given_up s.free_stack_copy) = w.freed ++ [c] := by
              simp [PyMem_Free, StackState.given_up, StackState.free_stack_copy, hc]
            rw [hfreed] at h
            exact Or.inr ⟨h0, c, rfl, hst, hb.1, hb.2, h.symm⟩

theorem copy_heap_to_stack_cases {w w2 : Thread} {this current : Nat}
    (h : StackState.copy_heap_to_stack w this current = .ok w2) :
    ∃ w1 t c owner1, StackState.restore_heap_copy w this = .ok w1 ∧
      w1.states[this]? = some t ∧ w1.states[current]? = some c ∧
      StackState.find_more_stack w1.states t.stack_stop (w1.states.length + 1)
        (if c._stack_start = 0 then c.stack_prev else some current) = .ok owner1 ∧
      w2 = { w1 with states := w1.states.set this { t with stack_prev := owner1 } } := by
  unfold StackState.copy_heap_to_stack at h
  cases hr : StackState.restore_heap_copy w this with
  | error e => simp [hr] at h
  | ok w1 =>
    simp only [hr] at h
    cases ht : w1.states[this]? with
    | none => simp [ht] at h
    | some t =>
      cases hc : w1.states[current]? with
      | none => simp [ht, hc] at h
      | some c =>
        simp only [ht, hc] at h
        cases hf : StackState.find_more_stack w1.states t.stack_stop (w1.states.length + 1)
            (if c._stack_start = 0 then c.stack_prev else some current) with
        | error e => simp [hf] at h
        | ok owner1 =>
          simp only [hf, Except.ok.injEq] at h
          exact ⟨w1, t, c, owner1, rfl, ht, hc, hf, h.symm⟩

theorem memcpy_to_stack_inside (stack : Nat → Nat) (dst : Nat) (c : List Nat) (n a : Nat)
    (h1 : dst ≤ a) (h2 : a < dst + n) (h3 : n ≤ c.length) :
    (c)[a - dst]? = some (memcpy_to_stack stack dst c n a) := by
  have : a - dst < c.length := by omega
  simp [memcpy_to_stack, h1, h2, List.getD_eq_getElem?_getD, List.getElem?_eq_getElem this]

theorem memcpy_to_stack_outside (stack : Nat → Nat) (dst : Nat) (c : List Nat) (n a : Nat)
    (h : ¬ (dst ≤ a ∧ a < dst + n)) :
    memcpy_to_stack stack dst c n a = stack a := by
  simp only [memcpy_to_stack, h, if_false]

/-! ### Chains of `stack_prev` links -/

theorem IsChain_none {S : List StackState} {l : List Nat} : IsChain S none l ↔ l = [] := by
  cases l <;> simp [IsChain]

theorem IsChain_some {S : List StackState} {h : Nat} {l : List Nat} :
    IsChain S (some h) l ↔ ∃ s l1, l = h :: l1 ∧ S[h]? = some s ∧ IsChain S s.stack_prev l1 := by
  cases l with
  | nil => simp [IsChain]
  | cons k l1 =>
    simp only [IsChain, List.cons.injEq]
    constructor
    · rintro ⟨rfl, s, hs, hc⟩
      exact ⟨s, l1, ⟨rfl, rfl⟩, hs, hc⟩
    · rintro ⟨s, l2, ⟨rfl, rfl⟩, hs, hc⟩
      exact ⟨rfl, s, hs, hc⟩

theorem IsChain_functional {S : List StackState} {o : Option Nat} {l1 l2 : List Nat}
    (h1 : IsChain S o l1) (h2 : IsChain S o l2) : l1 = l2 := by
  induction l1 generalizing o l2 with
  | nil =>
    cases o with
    | none => exact (IsChain_none.mp h2).symm
    | some h => simp [IsChain] at h1
  | cons k l ih =>
    cases o with
    | none => simp [IsChain] at h1
    | some h =>
      rcases IsChain_some.mp h1 with ⟨s, la, hla, hs, hca⟩
      rcases IsChain_some.mp h2 with ⟨s2, lb, hlb, hs2, hcb⟩
      rw [hs] at hs2; cases hs2
      cases hla
      rw [hlb, ih hca hcb]

theorem IsChain_suffix {S : List StackState} {o : Option Nat} {l : List Nat} {h : Nat}
    (hc : IsChain S o l) (hm : h ∈ l) : ∃ l2, IsChain S (some h) l2 ∧ l2.length ≤ l.length := by
  induction l generalizing o with
  | nil => cases hm
  | cons k l ih =>
    cases o with
    | none => simp [IsChain] at hc
    | some h0 =>
      rcases IsChain_some.mp hc with ⟨s, la, hla, hs, hca⟩
      cases hla
      rcases List.mem_cons.mp hm with rfl | hm1
      · exact ⟨_, hc, le_refl _⟩
      · rcases ih hca hm1 with ⟨l2, hl2, hlen⟩
        exact ⟨l2, hl2, by simp; omega⟩

theorem IsChain_nodup {S : List StackState} {o : Option Nat} {l : List Nat}
    (hc : IsChain S o l) : l.Nodup := by
  induction l generalizing o with
  | nil => exact List.nodup_nil
  | cons k l ih =>
    cases o with
    | none => simp [IsChain] at hc
    | some h0 =>
      rcases IsChain_some.mp hc with ⟨s, la, hla, hs, hca⟩
      cases hla
      refine List.nodup_cons.mpr ⟨?_, ih hca⟩
      intro hm
      rcases IsChain_suffix hca hm with ⟨l2, hl2, hlen⟩
      have := IsChain_functional hc hl2
      rw [← this] at hlen
      simp at hlen

theorem IsChain_lt_length {S : List StackState} {o : Option Nat} {l : List Nat}
    (hc : IsChain S o l) : ∀ h ∈ l, h < S.length := by
  induction l generalizing o with
  | nil => intro h hm; cases hm
  | cons k l ih =>
    cases o with
    | none => simp [IsChain] at hc
    | some h0 =>
      rcases IsChain_some.mp hc with ⟨s, la, hla, hs, hca⟩
      cases hla
      intro h hm
      rcases List.mem_cons.mp hm with rfl | hm1
      · exact lt_length_of_getElem? hs
      · exact ih hca h hm1

theorem IsChain_length_le {S : List StackState} {o : Option Nat} {l : List Nat}
    (hc : IsChain S o l) : l.length ≤ S.length := by
  have hsub : l ⊆ List.range S.length := by
    intro h hm
    exact List.mem_range.mpr (IsChain_lt_length hc h hm)
  have := (List.subperm_of_subset (IsChain_nodup hc) hsub).length_le
  simpa using this

/-- A chain depends on the `stack_prev` members only. -/
theorem IsChain_congr {S S1 : List StackState} {o : Option Nat} {l : List Nat}
    (hS : ∀ h : Nat, (S1[h]?).map StackState.stack_prev = (S[h]?).map StackState.stack_prev)
    (hc : IsChain S o l) : IsChain S1 o l := by
  induction l generalizing o with
  | nil =>
    cases o with
    | none => simp [IsChain]
    | some h => simp [IsChain] at hc
  | cons k l ih =>
    cases o with
    | none => simp [IsChain] at hc
    | some h0 =>
      rcases IsChain_some.mp hc with ⟨s, la, hla, hs, hca⟩
      cases hla
      have := hS k
      rw [hs] at this
      cases hs1 : S1[k]? with
      | none => simp [hs1] at this
      | some s1 =>
        simp only [hs1, Option.map_some', Option.some.injEq] at this
        refine IsChain_some.mpr ⟨s1, l, rfl, hs1, ?_⟩
        rw [this]
        exact ih hca

theorem find_more_stack_returns {S : List StackState} {o : Option Nat} {l : List Nat} (stop : Nat)
    (hc : IsChain S o l) (fuel : Nat) (hf : l.length < fuel) :
    ∃ r, StackState.find_more_stack S stop fuel o = .ok r := by
  induction l generalizing o fuel with
  | nil =>
    cases o with
    | none =>
      cases fuel with
      | zero => simp at hf
      | succ n => exact ⟨none, rfl⟩
    | some h => simp [IsChain] at hc
  | cons k l ih =>
    cases o with
    | none => simp [IsChain] at hc
    | some h0 =>
      rcases IsChain_some.mp hc with ⟨s, la, hla, hs, hca⟩
      cases hla
      cases fuel with
      | zero => simp at hf
      | succ n =>
        simp only [StackState.find_more_stack, hs]
        by_cases hle : s.stack_stop ≤ stop
        · simp only [hle, if_true]
          exact ih hca n (by simp at hf; omega)
        · simp only [hle, if_false]
          exact ⟨_, rfl⟩

theorem restore_heap_copy_frame {w w1 : Thread} {this : Nat}
    (h : StackState.restore_heap_copy w this = .ok w1) :
    w1.states.length = w.states.length ∧ w1.nrealloc = w.nrealloc ∧
    w1.err_no_memory = w.err_no_memory ∧
    ∀ (h : Nat) (s : StackState), w.states[h]? = some s →
      ∃ s1, w1.states[h]? = some s1 ∧ s1._stack_start = s._stack_start ∧
        s1.stack_stop = s.stack_stop ∧ s1.stack_prev = s.stack_prev ∧
        (h ≠ this → s1 = s) ∧ (h = this → s1 = if s._stack_saved = 0 then s else s.free_stack_copy) := by
  rcases restore_heap_copy_cases h with ⟨s0, hs0, h1 | h1⟩
  · rcases h1 with ⟨h0, rfl⟩
    refine ⟨rfl, rfl, rfl, ?_⟩
    intro k s hk
    refine ⟨s, hk, rfl, rfl, rfl, fun _ => rfl, ?_⟩
    rintro rfl
    rw [hs0] at hk; cases hk
    simp [h0]
  · rcases h1 with ⟨h0, c, hc, hst, -, -, rfl⟩
    refine ⟨by simp, rfl, rfl, ?_⟩
    intro k s hk
    by_cases hkt : k = this
    · subst hkt
      rw [hs0] at hk; cases hk
      refine ⟨_, List.getElem?_set_self (lt_length_of_getElem? hs0), rfl, rfl, rfl,
        fun hne => absurd rfl hne, ?_⟩
      intro _
      simp [h0]
    · refine ⟨s, ?_, rfl, rfl, rfl, fun _ => rfl, fun he => absurd he hkt⟩
      simp only
      rw [List.getElem?_set_ne (Ne.symm hkt)]
      exact hk

theorem copy_heap_to_stack_returns {w w1 : Thread} {this current : Nat} {cs : StackState}
    {l : List Nat} (hr : StackState.restore_heap_copy w this = .ok w1)
    (hcur : w.states[current]? = some cs) (hch : IsChain w.states (some current) l) :
    ∃ w2, StackState.copy_heap_to_stack w this current = .ok w2 := by
  rcases restore_heap_copy_frame hr with ⟨hlen, -, -, hfr⟩
  rcases restore_heap_copy_cases hr with ⟨s0, hs0, -⟩
  rcases hfr this s0 hs0 with ⟨t1, ht1, -⟩
  rcases hfr current cs hcur with ⟨c1, hc1, hc1s, -, hc1p, -⟩
  have hch1 : IsChain w1.states (some current) l := by
    refine IsChain_congr ?_ hch
    intro k
    cases hk : w.states[k]? with
    | none =>
      have : w1.states[k]? = none := by
        apply List.getElem?_eq_none
        rw [hlen]
        by_contra hcon
        push_neg at hcon
        rw [List.getElem?_eq_getElem hcon] at hk
        cases hk
      simp [this]
    | some s =>
      rcases hfr k s hk with ⟨s1, hs1, -, -, hp, -⟩
      simp [hs1, hp]
  have hl := IsChain_length_le hch1
  rcases IsChain_some.mp hch1 with ⟨c2, l1, hl1, hc2, hch2⟩
  rw [hc1] at hc2; cases hc2
  have hown : ∃ l2, IsChain w1.states (if c1._stack_start = 0 then c1.stack_prev else some current) l2 ∧
      l2.length ≤ l.length := by
    by_cases hz : c1._stack_start = 0
    · simp only [hz, if_true]
      exact ⟨l1, hch2, by simp [hl1]⟩
    · simp only [hz, if_false]
      exact ⟨l, hch1, le_refl _⟩
  rcases hown with ⟨l2, hl2, hlen2⟩
  rcases find_more_stack_returns t1.stack_stop hl2 (w1.states.length + 1) (by omega) with ⟨r, hr2⟩
  unfold StackState.copy_heap_to_stack
  simp only [hr, ht1, hc1, hr2]
  exact ⟨_, rfl⟩

/-- C5: restore of a saved state. When `_stack_saved = n > 0`, every call of
`copy_heap_to_stack(current)` that returns has put the first `n` bytes of the former
heap block on the live stack at `_stack_start`, has freed the block (`stack_copy`
null, `_stack_saved` 0) and has kept `_stack_start` and `stack_stop`; and the call
does return when the block holds `n` bytes, `_stack_start` is not null and the
`stack_prev` links from `current` end. -/
theorem restore_copies_back_and_frees (w : Thread) (t current : Nat) (s : StackState) (n : Int)
    (hs : w.states[t]? = some s) (hn : s._stack_saved = n) (hpos : 0 < n) :
    (∀ w2, StackState.copy_heap_to_stack w t current = .ok w2 →
      ∃ c s2, s.stack_copy = some c ∧
        (∀ i : Nat, (i : Int) < n → (c)[i]? = some (w2.stack (s._stack_start + i))) ∧
        w2.states[t]? = some s2 ∧ s2.stack_copy = none ∧ s2._stack_saved = 0 ∧
        s2._stack_start = s._stack_start ∧ s2.stack_stop = s.stack_stop) ∧
    (∀ (c : List Nat) (cs : StackState) (l : List Nat), s.stack_copy = some c →
      n ≤ (c.length : Int) → s._stack_start ≠ 0 →
      w.states[current]? = some cs → IsChain w.states (some current) l →
      ∃ w2, StackState.copy_heap_to_stack w t current = .ok w2) := by
  constructor
  · intro w2 h
    rcases copy_heap_to_stack_cases h with ⟨w1, t1, c1, owner1, hr, ht1, hc1, hf, rfl⟩
    rcases restore_heap_copy_cases hr with ⟨s0, hs0, h1 | h1⟩
    · rw [hs] at hs0; cases hs0
      omega
    · rw [hs] at hs0; cases hs0
      rcases h1 with ⟨h0, c, hc, hst, hnn, hle, rfl⟩
      have hlt := lt_length_of_getElem? hs
      simp only [List.getElem?_set_self hlt, Option.some.injEq] at ht1
      subst ht1
      refine ⟨c, _, hc, ?_, List.getElem?_set_self (by simpa using hlt), rfl, rfl, rfl, rfl⟩
      intro i hi
      have := memcpy_to_stack_inside w.stack s._stack_start c s._stack_saved.toNat
        (s._stack_start + i) (by omega) (by omega) (by omega)
      simpa using this
  · intro c cs l hc hle hst hcur hch
    have hr : ∃ w1, StackState.restore_heap_copy w t = .ok w1 := by
      unfold StackState.restore_heap_copy
      have h0 : s._stack_saved ≠ 0 := by omega
      have hb : ¬ (s._stack_saved < 0 ∨ (c.length : Int) < s._stack_saved) := by omega
      simp only [hs, hc, ne_eq, h0, not_false_eq_true, if_true, hst, if_false, hb]
      exact ⟨_, rfl⟩
    rcases hr with ⟨w1, hr⟩
    exact copy_heap_to_stack_returns hr hcur hch

/-- C5 at the thread `smallEvacuated`, whose one state holds four saved bytes. -/
theorem restore_copies_back_and_frees_witness :
    smallEvacuated.states[0]? = some { StackState.make_main with
      _stack_start := 12, stack_copy := some [2, 3, 4, 5], _stack_saved := 4 } ∧
    (∀ w2, StackState.copy_heap_to_stack smallEvacuated 0 0 = .ok w2 →
      ∃ c s2, some [2, 3, 4, 5] = some c ∧
        (∀ i : Nat, (i : Int) < 4 → (c)[i]? = some (w2.stack (12 + i))) ∧
        w2.states[0]? = some s2 ∧ s2.stack_copy = none ∧ s2._stack_saved = 0 ∧
        s2._stack_start = 12 ∧ s2.stack_stop = CHAR_PTR_MINUS_ONE) ∧
    (∃ w2, StackState.copy_heap_to_stack smallEvacuated 0 0 = .ok w2) :=
  ⟨by decide,
    (restore_copies_back_and_frees smallEvacuated 0 0 { StackState.make_main with
      _stack_start := 12, stack_copy := some [2, 3, 4, 5], _stack_saved := 4 } 4
      (by decide) rfl (by decide)).1,
    (restore_copies_back_and_frees smallEvacuated 0 0 { StackState.make_main with
      _stack_start := 12, stack_copy := some [2, 3, 4, 5], _stack_saved := 4 } 4
      (by decide) rfl (by decide)).2 [2, 3, 4, 5] { StackState.make_main with
      _stack_start := 12, stack_copy := some [2, 3, 4, 5], _stack_saved := 4 } [0] rfl
      (by decide) (by decide) (by decide)
      ⟨rfl, { StackState.make_main with
        _stack_start := 12, stack_copy := some [2, 3, 4, 5], _stack_saved := 4 },
        by decide, trivial⟩⟩

theorem evacuated_spec {A : Allocator} {k : Nat} (stack : Nat → Nat) {s : StackState} {stop : Nat}
    {c : List Nat}
    (hc : PyMem_Realloc A k s.stack_copy (intptr_t ((stop : Int) - (s._stack_start : Int))) = some c)
    (hnn : 0 ≤ s._stack_saved) :
    ∃ c1, (evacuated stack s stop c).stack_copy = some c1 ∧
      c1.length = (intptr_t ((stop : Int) - (s._stack_start : Int))).toNat ∧
      (∀ i : Nat, s._stack_saved ≤ (i : Int) → (i : Int) < intptr_t ((stop : Int) - (s._stack_start : Int)) →
        (c1)[i]? = some (stack (s._stack_start + i))) ∧
      (∀ (c0 : List Nat) (i : Nat), s.stack_copy = some c0 → (i : Int) < s._stack_saved →
        (i : Int) < intptr_t ((stop : Int) - (s._stack_start : Int)) → i < c0.length → (c1)[i]? = (c0)[i]?) := by
  rcases PyMem_Realloc_some hc with ⟨hn0, -, hlen, hget⟩
  refine ⟨_, rfl, by rw [memcpy_to_heap_length, hlen], ?_, ?_⟩
  · intro i hi1 hi2
    have hi3 : i < (intptr_t ((stop : Int) - (s._stack_start : Int))).toNat := by omega
    rw [memcpy_to_heap_getElem? _ _ _ _ _ _ (by omega)]
    have : (s._stack_saved.toNat ≤ i ∧ i < s._stack_saved.toNat +
        (intptr_t ((stop : Int) - (s._stack_start : Int)) - s._stack_saved).toNat) := by omega
    rw [if_pos this]
    congr 2
    omega
  · intro c0 i hc0 hi1 hi4 hi2
    have hi3 : i < (intptr_t ((stop : Int) - (s._stack_start : Int))).toNat := by omega
    rw [memcpy_to_heap_getElem? _ _ _ _ _ _ (by omega)]
    have : ¬ (s._stack_saved.toNat ≤ i ∧ i < s._stack_saved.toNat +
        (intptr_t ((stop : Int) - (s._stack_start : Int)) - s._stack_saved).toNat) := by omega
    rw [if_neg this, hget i hi3, hc0]
    simp [hi2, List.getD_eq_getElem?_getD, List.getElem?_eq_getElem hi2]

/-- C2 fails as stated, where `stop - _stack_start` does not fit the `intptr_t` it is
kept in. The state of `make_main()` has `_stack_start` `(char*)1`, not null,
`_stack_saved = 0`, and `stop = (char*)-1` lies above `_stack_start`; the difference
of the two, `2^64 - 2`, is `-2` as an `intptr_t`, so `copy_stack_to_heap_up_to(stop)`
returns 0 and saves nothing; once the live stack is overwritten (with zeros),
`copy_heap_to_stack` has nothing to put back, and the byte at address 5, which was
5, is 0. -/
theorem sentinel_stop_is_not_saved :
    mainThread.states[0]? = some StackState.make_main ∧
    StackState.make_main._stack_start ≠ 0 ∧ StackState.make_main._stack_saved = 0 ∧
    StackState.make_main._stack_start < CHAR_PTR_MINUS_ONE ∧
    intptr_t ((CHAR_PTR_MINUS_ONE : Int) - (StackState.make_main._stack_start : Int)) = -2 ∧
    StackState.copy_stack_to_heap_up_to neverFails false mainThread 0 CHAR_PTR_MINUS_ONE =
      .ok (0, mainThread) ∧
    StackState.copy_heap_to_stack { mainThread with stack := fun _ => 0 } 0 0 =
      .ok { mainThread with stack := fun _ => 0 } ∧
    mainThread.stack 5 = 5 ∧
    ¬ ∀ w2, StackState.copy_heap_to_stack { mainThread with stack := fun _ => 0 } 0 0 = .ok w2 →
      ∀ a, StackState.make_main._stack_start ≤ a → a < CHAR_PTR_MINUS_ONE →
        w2.stack a = mainThread.stack a := by
  refine ⟨rfl, by decide, rfl, by decide, by decide, rfl, rfl, rfl, ?_⟩
  intro h
  have h5 := h _ rfl 5 (by decide) (by decide)
  revert h5
  decide

/-- C2, amended: evacuate, overwrite, restore, where `stop - _stack_start` fits an
`intptr_t`. For a state with non-null `_stack_start`, `_stack_saved = 0` and
`stop > _stack_start` with `stop - _stack_start <= PTRDIFF_MAX`: when
`copy_stack_to_heap_up_to(stop)` returned 0 and the live stack has then been
overwritten at will (`stack1`), every call of `copy_heap_to_stack(current)` that
returns has made the live bytes of `[_stack_start, stop)` equal to what they were
at the evacuation; and the call does return when the `stack_prev` links from
`current` end. -/
theorem evacuate_restore_round_trip (A : Allocator) (ndebug : Bool) (w w1 : Thread)
    (this stop current : Nat) (s : StackState) (stack1 : Nat → Nat)
    (hs : w.states[this]? = some s) (hstart : s._stack_start ≠ 0) (hsaved : s._stack_saved = 0)
    (hstop : s._stack_start < stop)
    (hfit : (stop : Int) - (s._stack_start : Int) ≤ (PTRDIFF_MAX : Int))
    (h : StackState.copy_stack_to_heap_up_to A ndebug w this stop = .ok (0, w1)) :
    (∀ w2, StackState.copy_heap_to_stack { w1 with stack := stack1 } this current = .ok w2 →
      ∀ a, s._stack_start ≤ a → a < stop → w2.stack a = w.stack a) ∧
    (∀ (cs : StackState) (l : List Nat), w.states[current]? = some cs →
      IsChain w.states (some current) l →
      ∃ w2, StackState.copy_heap_to_stack { w1 with stack := stack1 } this current = .ok w2) := by
  have hlt := lt_length_of_getElem? hs
  have hwrap : intptr_t ((stop : Int) - (s._stack_start : Int)) =
      (stop : Int) - (s._stack_start : Int) := by
    unfold PTRDIFF_MAX at hfit
    refine intptr_t_eq ?_ ?_ <;> omega
  rcases copy_stack_to_heap_up_to_cases h with ⟨s0, hs0, ha, h1 | h1 | h1⟩
  · rw [hs] at hs0; cases hs0
    rw [hwrap] at h1
    exact absurd (show (stop : Int) - (s._stack_start : Int) > s._stack_saved by omega) h1.1
  · exact absurd h1.2.2.1 (by decide)
  rw [hs] at hs0; cases hs0
  rcases h1 with ⟨hgt, hnn, c, hc, -, rfl⟩
  rcases evacuated_spec w.stack hc hnn with ⟨c1, hc1, hc1len, hc1new, -⟩
  rw [hwrap] at hgt hc1len hc1new
  have hev : (evacuated w.stack s stop c)._stack_saved = (stop : Int) - (s._stack_start : Int) :=
    hwrap
  have hevs : (evacuated w.stack s stop c)._stack_start = s._stack_start := rfl
  have hres : StackState.restore_heap_copy
      { stack := stack1, states := w.states.set this (evacuated w.stack s stop c),
        nrealloc := w.nrealloc + 1, err_no_memory := w.err_no_memory, freed := w.freed } this =
      .ok { stack := memcpy_to_stack stack1 s._stack_start c1 ((stop : Int) - (s._stack_start : Int)).toNat,
            states := (w.states.set this (evacuated w.stack s stop c)).set this
              (evacuated w.stack s stop c).free_stack_copy,
            nrealloc := w.nrealloc + 1, err_no_memory := w.err_no_memory,
            freed := w.freed ++ [c1] } := by
    unfold StackState.restore_heap_copy
    have h0 : (stop : Int) - (s._stack_start : Int) ≠ 0 := by omega
    have hb : ¬ ((stop : Int) - (s._stack_start : Int) < 0 ∨
        (c1.length : Int) < (stop : Int) - (s._stack_start : Int)) := by omega
    have hfreed : PyMem_Free w.freed ((evacuated w.stack s stop c).given_up
        (evacuated w.stack s stop c).free_stack_copy) = w.freed ++ [c1] := by
      simp [PyMem_Free, StackState.given_up, StackState.free_stack_copy, hc1]
    simp only [List.getElem?_set_self hlt, hev, hevs, hc1, ne_eq, h0, not_false_eq_true, if_true,
      hstart, if_false, hb, hfreed]
  constructor
  · intro w2 h2
    rcases copy_heap_to_stack_cases h2 with ⟨w1a, t1, cc, owner1, hr, -, -, -, rfl⟩
    rw [hres] at hr
    cases hr
    intro a ha1 ha2
    simp only
    have hin := memcpy_to_stack_inside stack1 s._stack_start c1
      ((stop : Int) - (s._stack_start : Int)).toNat a ha1 (by omega) (by omega)
    have hnew := hc1new (a - s._stack_start) (by omega) (by omega)
    rw [hin] at hnew
    simp only [Option.some.injEq] at hnew
    rw [hnew]
    congr 1
    omega
  · intro cs l hcur hch
    have hcur1 : ∃ cs1, (w.states.set this (evacuated w.stack s stop c))[current]? = some cs1 := by
      by_cases hct : current = this
      · subst hct
        exact ⟨_, List.getElem?_set_self hlt⟩
      · exact ⟨cs, by rw [List.getElem?_set_ne (Ne.symm hct)]; exact hcur⟩
    rcases hcur1 with ⟨cs1, hcs1⟩
    refine copy_heap_to_stack_returns hres hcs1 (l := l) ?_
    refine IsChain_congr ?_ hch
    intro k
    simp only
    by_cases hkt : k = this
    · subst hkt
      rw [List.getElem?_set_self hlt, hs]
      rfl
    · rw [List.getElem?_set_ne (Ne.symm hkt)]

/-- The amended C2 at the thread `smallThread`: bytes 12 to 15, evacuated, zeroed and
restored. -/
theorem evacuate_restore_round_trip_witness :
    smallThread.states[0]? = some { StackState.make_main with _stack_start := 12 } ∧
    ((16 : Nat) : Int) - ((12 : Nat) : Int) ≤ (PTRDIFF_MAX : Int) ∧
    StackState.copy_stack_to_heap_up_to neverFails false smallThread 0 16 = .ok (0, smallEvacuated) ∧
    (∀ w2, StackState.copy_heap_to_stack { smallEvacuated with stack := fun _ => 0 } 0 0 = .ok w2 →
      ∀ a, 12 ≤ a → a < 16 → w2.stack a = smallThread.stack a) ∧
    (∃ w2, StackState.copy_heap_to_stack { smallEvacuated with stack := fun _ => 0 } 0 0 = .ok w2) :=
  ⟨rfl, by decide, rfl,
    (evacuate_restore_round_trip neverFails false smallThread smallEvacuated 0 16 0
      { StackState.make_main with _stack_start := 12 } (fun _ => 0) rfl (by decide) rfl
      (by decide) (by decide) rfl).1,
    (evacuate_restore_round_trip neverFails false smallThread smallEvacuated 0 16 0
      { StackState.make_main with _stack_start := 12 } (fun _ => 0) rfl (by decide) rfl
      (by decide) (by decide) rfl).2 { StackState.make_main with _stack_start := 12 } [0] rfl
      ⟨rfl, _, rfl, trivial⟩⟩

theorem copy_stack_to_heap_up_to_frame {A : Allocator} {ndebug : Bool} {w w1 : Thread}
    {this stop : Nat} {r : Int}
    (h : StackState.copy_stack_to_heap_up_to A ndebug w this stop = .ok (r, w1)) :
    (r = 0 ∨ r = -1) ∧ w1.stack = w.stack ∧ w1.states.length = w.states.length ∧
    (r = 0 → w1.err_no_memory = w.err_no_memory) ∧ (r = -1 → w1.err_no_memory = true) ∧
    (r = -1 → w1.states = w.states) ∧
    ∀ (k : Nat) (s : StackState), w.states[k]? = some s →
      ∃ s1, w1.states[k]? = some s1 ∧ s1._stack_start = s._stack_start ∧
        s1.stack_stop = s.stack_stop ∧ s1.stack_prev = s.stack_prev ∧
        (k ≠ this → s1 = s) ∧
        (s1 = s ∨ (s1._stack_saved = intptr_t ((stop : Int) - (s._stack_start : Int)) ∧ r = 0 ∧ k = this)) := by
  rcases copy_stack_to_heap_up_to_cases h with ⟨s0, hs0, ha, h1 | h1 | h1⟩
  · rcases h1 with ⟨-, rfl, rfl⟩
    refine ⟨Or.inl rfl, rfl, rfl, fun _ => rfl, fun h => absurd h (by decide), fun _ => rfl, ?_⟩
    intro k s hk
    exact ⟨s, hk, rfl, rfl, rfl, fun _ => rfl, Or.inl rfl⟩
  · rcases h1 with ⟨-, -, rfl, rfl⟩
    refine ⟨Or.inr rfl, rfl, rfl, fun h => absurd h (by decide), fun _ => rfl, fun _ => rfl, ?_⟩
    intro k s hk
    exact ⟨s, hk, rfl, rfl, rfl, fun _ => rfl, Or.inl rfl⟩
  · rcases h1 with ⟨-, -, c, -, rfl, rfl⟩
    refine ⟨Or.inl rfl, rfl, by simp, fun _ => rfl, fun h => absurd h (by decide),
      fun h => absurd h (by decide), ?_⟩
    intro k s hk
    by_cases hkt : k = this
    · subst hkt
      rw [hs0] at hk; cases hk
      exact ⟨_, List.getElem?_set_self (lt_length_of_getElem? hs0), rfl, rfl, rfl,
        fun hne => absurd rfl hne, Or.inr ⟨rfl, rfl, rfl⟩⟩
    · refine ⟨s, ?_, rfl, rfl, rfl, fun _ => rfl, Or.inl rfl⟩
      simp only
      rw [List.getElem?_set_ne (Ne.symm hkt)]
      exact hk

theorem save_loop_failure {A : Allocator} {ndebug : Bool} {this target_stop : Nat} (w0 : Thread)
    (fuel : Nat) (wm : Thread) (owner : Option Nat) (r : Int) (w2 : Thread)
    (hI : ∀ (k : Nat) (s0 : StackState), w0.states[k]? = some s0 →
      ∃ sm, wm.states[k]? = some sm ∧
        (sm = s0 ∨ (sm._stack_saved = intptr_t ((sm.stack_stop : Int) - (sm._stack_start : Int)) ∧
          sm.stack_stop < target_stop)))
    (hlen : wm.states.length = w0.states.length)
    (h : StackState.save_loop A ndebug this target_stop fuel wm owner = .ok (r, w2)) :
    (r = 0 ∨ r = -1) ∧ (r = 0 → w2.err_no_memory = wm.err_no_memory) ∧
    (r = -1 → w2.err_no_memory = true) ∧
    (r = -1 → ∃ (o : Nat) (wf : Thread) (stop_o : Nat) (so : StackState),
      StackState.copy_stack_to_heap_up_to A ndebug wf o stop_o = .ok (-1, w2) ∧
      w0.states[o]? = some so ∧ wf.states[o]? = some so ∧
      PyMem_Realloc A wf.nrealloc so.stack_copy (intptr_t ((stop_o : Int) - (so._stack_start : Int))) = none ∧
      w2.states = wf.states ∧ w2.stack = wf.stack) := by
  induction fuel generalizing wm owner with
  | zero => simp [StackState.save_loop] at h
  | succ n ih =>
    cases owner with
    | none => simp [StackState.save_loop] at h
    | some o =>
      simp only [StackState.save_loop] at h
      cases hos : wm.states[o]? with
      | none => simp [hos] at h
      | some os =>
        simp only [hos] at h
        have ho0 : ∃ s0, w0.states[o]? = some s0 := by
          have := lt_length_of_getElem? hos
          rw [hlen] at this
          exact ⟨_, List.getElem?_eq_getElem this⟩
        rcases ho0 with ⟨s0, hs0⟩
        rcases hI o s0 hs0 with ⟨sm, hsm, hsm2⟩
        rw [hos] at hsm; cases hsm
        by_cases hlt : os.stack_stop < target_stop
        · simp only [hlt, if_true] at h
          cases hcall : StackState.copy_stack_to_heap_up_to A ndebug wm o os.stack_stop with
          | error e => simp [hcall] at h
          | ok p =>
            obtain ⟨r1, w1⟩ := p
            simp only [hcall] at h
            rcases copy_stack_to_heap_up_to_frame hcall with ⟨hr1, -, hlen1, herr0, herr1, hst1, hfr⟩
            by_cases hr0 : r1 = 0
            · subst hr0
              simp only [ne_eq, not_true_eq_false, if_false] at h
              cases hos1 : w1.states[o]? with
              | none => simp [hos1] at h
              | some os1 =>
                simp only [hos1] at h
                have := ih w1 os1.stack_prev ?_ (by rw [hlen1, hlen]) h
                · rw [herr0 rfl] at this
                  exact this
                · intro k sk hk
                  rcases hI k sk hk with ⟨skm, hskm, hskm2⟩
                  rcases hfr k skm hskm with ⟨sk1, hsk1, e1, e2, e3, -, e5⟩
                  refine ⟨sk1, hsk1, ?_⟩
                  rcases e5 with rfl | ⟨e5, -, rfl⟩
                  · exact hskm2
                  · rw [hos] at hskm; cases hskm
                    right
                    rw [e5, e2, e1]
                    exact ⟨rfl, hlt⟩
            · have hrm : r1 = -1 := by
                rcases hr1 with h0 | h0
                · exact absurd h0 hr0
                · exact h0
              subst hrm
              simp only [ne_eq, hr0, not_false_eq_true, if_true, Except.ok.injEq,
                Prod.mk.injEq] at h
              rcases h with ⟨rfl, rfl⟩
              refine ⟨Or.inr rfl, fun h => absurd h (by decide), fun _ => herr1 rfl, ?_⟩
              intro _
              rcases copy_stack_to_heap_up_to_cases hcall with ⟨sx, hsx, -, hx | hx | hx⟩
              · exact absurd hx.2.1 (by decide)
              · rw [hos] at hsx; cases hsx
                rcases hx with ⟨hgt, hre, -, hw⟩
                have hsame : os = s0 := by
                  rcases hsm2 with rfl | ⟨e, -⟩
                  · rfl
                  · omega
                subst hsame
                exact ⟨o, wm, os.stack_stop, os, hcall, hs0, hos, hre, by rw [hw], by rw [hw]⟩
              · rcases hx with ⟨-, -, cx, -, hx0, -⟩
                exact absurd hx0 (by decide)
        · simp only [hlt, if_false] at h
          by_cases hot : o = this
          · simp only [hot, ne_eq, not_true_eq_false, if_false, Except.ok.injEq,
              Prod.mk.injEq] at h
            rcases h with ⟨rfl, rfl⟩
            exact ⟨Or.inl rfl, fun _ => rfl, fun h => absurd h (by decide),
              fun h => absurd h (by decide)⟩
          · simp only [ne_eq, hot, not_false_eq_true, if_true] at h
            cases hcall : StackState.copy_stack_to_heap_up_to A ndebug wm o target_stop with
            | error e => simp [hcall] at h
            | ok p =>
              obtain ⟨r1, w1⟩ := p
              simp only [hcall] at h
              rcases copy_stack_to_heap_up_to_frame hcall with ⟨hr1, -, hlen1, herr0, herr1, hst1, hfr⟩
              by_cases hr0 : r1 = 0
              · subst hr0
                simp only [ne_eq, not_true_eq_false, if_false, Except.ok.injEq,
                  Prod.mk.injEq] at h
                rcases h with ⟨rfl, rfl⟩
                exact ⟨Or.inl rfl, fun _ => herr0 rfl, fun h => absurd h (by decide),
                  fun h => absurd h (by decide)⟩
              · have hrm : r1 = -1 := by
                  rcases hr1 with h0 | h0
                  · exact absurd h0 hr0
                  · exact h0
                subst hrm
                simp only [ne_eq, hr0, not_false_eq_true, if_true, Except.ok.injEq,
                  Prod.mk.injEq] at h
                rcases h with ⟨rfl, rfl⟩
                refine ⟨Or.inr rfl, fun h => absurd h (by decide), fun _ => herr1 rfl, ?_⟩
                intro _
                rcases copy_stack_to_heap_up_to_cases hcall with ⟨sx, hsx, -, hx | hx | hx⟩
                · exact absurd hx.2.1 (by decide)
                · rw [hos] at hsx; cases hsx
                  rcases hx with ⟨hgt, hre, -, hw⟩
                  have hsame : os = s0 := by
                    rcases hsm2 with rfl | ⟨-, e⟩
                    · rfl
                    · exact absurd e hlt
                  subst hsame
                  exact ⟨o, wm, target_stop, os, hcall, hs0, hos, hre, by rw [hw], by rw [hw]⟩
                · rcases hx with ⟨-, -, cx, -, hx0, -⟩
                  exact absurd hx0 (by decide)

/-! ### The walk of `copy_heap_to_stack` -/

theorem Reach_congr {S S1 : List StackState}
    (hS : ∀ h : Nat, (S1[h]?).map StackState.stack_prev = (S[h]?).map StackState.stack_prev)
    {h k : Nat} (hr : Reach S h k) : Reach S1 h k := by
  induction hr with
  | refl => exact Relation.ReflTransGen.refl
  | @tail b c _ hl ih =>
    refine Relation.ReflTransGen.tail ih ?_
    rcases hl with ⟨s, hs, hp⟩
    have := hS b
    rw [hs] at this
    cases hs1 : S1[b]? with
    | none => simp [hs1] at this
    | some s1 =>
      simp only [hs1, Option.map_some', Option.some.injEq] at this
      exact ⟨s1, hs1, by rw [this, hp]⟩

theorem find_more_stack_some {S : List StackState} {stop : Nat} (fuel : Nat) (o : Option Nat)
    {p : Nat} (h : StackState.find_more_stack S stop fuel o = .ok (some p)) :
    ∃ h0 sp, o = some h0 ∧ Reach S h0 p ∧ S[p]? = some sp ∧ stop < sp.stack_stop := by
  induction fuel generalizing o with
  | zero => simp [StackState.find_more_stack] at h
  | succ n ih =>
    cases o with
    | none => simp [StackState.find_more_stack] at h
    | some o =>
      simp only [StackState.find_more_stack] at h
      cases hos : S[o]? with
      | none => simp [hos] at h
      | some os =>
        simp only [hos] at h
        by_cases hle : os.stack_stop ≤ stop
        · simp only [hle, if_true] at h
          rcases ih _ h with ⟨h0, sp, hprev, hreach, hsp, hlt⟩
          exact ⟨o, sp, rfl, Relation.ReflTransGen.head ⟨os, hos, hprev⟩ hreach, hsp, hlt⟩
        · simp only [hle, if_false, Except.ok.injEq, Option.some.injEq] at h
          subst h
          exact ⟨o, os, rfl, Relation.ReflTransGen.refl, hos, by omega⟩

theorem copy_heap_to_stack_spec {w w2 : Thread} {this current : Nat}
    (h : StackState.copy_heap_to_stack w this current = .ok w2) :
    ∃ t c t2, w.states[this]? = some t ∧ w.states[current]? = some c ∧
      w2.states[this]? = some t2 ∧ t2._stack_start = t._stack_start ∧
      t2.stack_stop = t.stack_stop ∧ w2.states.length = w.states.length ∧
      (∀ (k : Nat) (s : StackState), k ≠ this → w.states[k]? = some s → w2.states[k]? = some s) ∧
      (t2.stack_prev = none ∨
        ∃ p sp, t2.stack_prev = some p ∧ p ≠ this ∧ w.states[p]? = some sp ∧
          t.stack_stop < sp.stack_stop ∧
          ((c._stack_start ≠ 0 ∧ Reach w.states current p) ∨
           (c._stack_start = 0 ∧ ∃ h0, c.stack_prev = some h0 ∧ Reach w.states h0 p))) := by
  rcases copy_heap_to_stack_cases h with ⟨w1, t1, c1, owner1, hr, ht1, hc1, hf, rfl⟩
  rcases restore_heap_copy_frame hr with ⟨hlen, -, -, hfr⟩
  rcases restore_heap_copy_cases hr with ⟨t, ht, -⟩
  have hcur : ∃ c, w.states[current]? = some c := by
    have := lt_length_of_getElem? hc1
    rw [hlen] at this
    exact ⟨_, List.getElem?_eq_getElem this⟩
  rcases hcur with ⟨c, hc⟩
  rcases hfr this t ht with ⟨t1a, ht1a, e1, e2, -, -, -⟩
  rw [ht1] at ht1a; cases ht1a
  rcases hfr current c hc with ⟨c1a, hc1a, f1, -, f3, -, -⟩
  rw [hc1] at hc1a; cases hc1a
  have hlt1 := lt_length_of_getElem? ht1
  refine ⟨t, c, _, ht, hc, List.getElem?_set_self hlt1, e1, e2, by simp [hlen], ?_, ?_⟩
  · intro k s hk hs
    simp only
    rw [List.getElem?_set_ne (Ne.symm hk)]
    rcases hfr k s hs with ⟨s1, hs1, -, -, -, hne, -⟩
    rw [hs1, hne hk]
  · cases owner1 with
    | none => exact Or.inl rfl
    | some p =>
      right
      rcases find_more_stack_some _ _ hf with ⟨h0, sp, ho, hreach, hsp, hlt⟩
      have hcongr : ∀ k : Nat, (w.states[k]?).map StackState.stack_prev =
          (w1.states[k]?).map StackState.stack_prev := by
        intro k
        cases hk : w.states[k]? with
        | none =>
          have : w1.states[k]? = none := by
            rw [List.getElem?_eq_none_iff, hlen, ← List.getElem?_eq_none_iff]
            exact hk
          simp [this]
        | some s =>
          rcases hfr k s hk with ⟨s1, hs1, -, -, hp, -⟩
          simp [hs1, hp]
      have hreach0 : Reach w.states h0 p := Reach_congr hcongr hreach
      have hpt : p ≠ this := by
        rintro rfl
        rw [ht1] at hsp; cases hsp
        omega
      have hsp0 : ∃ sp0, w.states[p]? = some sp0 := by
        have := lt_length_of_getElem? hsp
        rw [hlen] at this
        exact ⟨_, List.getElem?_eq_getElem this⟩
      rcases hsp0 with ⟨sp0, hsp0⟩
      rcases hfr p sp0 hsp0 with ⟨sp1, hsp1, -, g2, -, -, -⟩
      rw [hsp] at hsp1; cases hsp1
      refine ⟨p, sp0, rfl, hpt, hsp0, by rw [← e2, ← g2]; exact hlt, ?_⟩
      by_cases hz : c._stack_start = 0
      · right
        rw [f1] at ho
        simp only [hz, if_true] at ho
        rw [f3] at ho
        exact ⟨hz, h0, ho, hreach0⟩
      · left
        rw [f1] at ho
        simp only [hz, if_false, Option.some.injEq] at ho
        subst ho
        exact ⟨hz, hreach0⟩

/-- C6, amended: after `t.copy_heap_to_stack(current)` the `stack_prev` of `t` is
null or points at an object with non-null `_stack_start`, provided every object on
the chain behind `current` has non-null `_stack_start`: the restore skips `current`
itself when its `_stack_start` is null, and tests no other object for it. -/
theorem relinked_to_active_behind_current (w : Thread) (t current : Nat)
    (hact : ∀ c p k sk, w.states[current]? = some c → c.stack_prev = some p →
      Reach w.states p k → w.states[k]? = some sk → sk._stack_start ≠ 0) :
    RelinkedToActive w t current := by
  intro w2 h
  rcases copy_heap_to_stack_spec h with ⟨t0, c, t2, ht0, hc, ht2, -, -, -, hother, hprev⟩
  refine ⟨t2, ht2, ?_⟩
  rcases hprev with hnone | ⟨p, sp, hp, hpt, hsp, -, hwhere⟩
  · exact Or.inl hnone
  · right
    refine ⟨p, sp, hp, hother p sp hpt hsp, ?_⟩
    rcases hwhere with ⟨hz, hreach⟩ | ⟨hz, h0, hh0, hreach⟩
    · rcases Relation.ReflTransGen.cases_head hreach with heq | ⟨h1, hl, hr1⟩
      · subst heq
        rw [hc] at hsp; cases hsp
        exact hz
      · rcases hl with ⟨c1, hc1, hc1p⟩
        rw [hc] at hc1; cases hc1
        exact hact c h1 p sp hc hc1p hr1 hsp
    · exact hact c h0 p sp hc hh0 hreach hsp

/-- C6 fails as stated: with a dying `current` (handle 2) whose `stack_prev` is an
inactive object of greater `stack_stop` (handle 1), `copy_heap_to_stack` links the
restored object (handle 3) to that inactive object. -/
theorem relinked_to_inactive_owner : ¬ RelinkedToActive relinkExample 3 2 := by
  intro h
  have h2 := h { relinkExample with
    states := relinkExample.states.set 3
      { _stack_start := 50, stack_stop := 200, stack_copy := none, _stack_saved := 0, stack_prev := some 1 } } rfl
  revert h2
  simp [relinkExample]

/-- The amended C6 at `relinkExampleActive`, where the object behind the dying
`current` is active. -/
theorem relinked_to_active_behind_current_witness :
    RelinkedToActive relinkExampleActive 3 2 := by
  apply relinked_to_active_behind_current
  intro c p k sk hc hp hreach hk
  have hc2 : c = { _stack_start := 0, stack_stop := 100, stack_copy := none, _stack_saved := 0, stack_prev := some 1 } := by
    simpa [relinkExampleActive, relinkExample] using hc.symm
  subst hc2
  simp only [Option.some.injEq] at hp
  subst hp
  have hk2 : k = 1 ∨ k = 0 := by
    rcases Relation.ReflTransGen.cases_head hreach with h1 | ⟨h1, ⟨s1, hs1, hl1⟩, hr1⟩
    · exact Or.inl h1.symm
    · have e1 : s1 = { _stack_start := 7, stack_stop := 300, stack_copy := none, _stack_saved := 0, stack_prev := some 0 } := by
        simpa [relinkExampleActive, relinkExample] using hs1.symm
      subst e1
      simp only [Option.some.injEq] at hl1
      subst hl1
      rcases Relation.ReflTransGen.cases_head hr1 with h2 | ⟨h2, ⟨s2, hs2, hl2⟩, -⟩
      · exact Or.inr h2.symm
      · have e2 : s2 = { _stack_start := 1, stack_stop := CHAR_PTR_MINUS_ONE, stack_copy := none, _stack_saved := 0, stack_prev := none } := by
          simpa [relinkExampleActive, relinkExample] using hs2.symm
        subst e2
        simp at hl2
  rcases hk2 with rfl | rfl
  · have : sk = { _stack_start := 7, stack_stop := 300, stack_copy := none, _stack_saved := 0, stack_prev := some 0 } := by
      simpa [relinkExampleActive, relinkExample] using hk.symm
    subst this
    decide
  · have : sk = { _stack_start := 1, stack_stop := CHAR_PTR_MINUS_ONE, stack_copy := none, _stack_saved := 0, stack_prev := none } := by
      simpa [relinkExampleActive, relinkExample] using hk.symm
    subst this
    decide

/-! ### Ordering of the chain by `stack_stop` -/

theorem SameLinks_get {S S2 : List StackState} (hS : SameLinks S S2) {k : Nat} {s : StackState}
    (h : S[k]? = some s) :
    ∃ s2, S2[k]? = some s2 ∧ s2.stack_stop = s.stack_stop ∧ s2.stack_prev = s.stack_prev := by
  have := hS k
  rw [h] at this
  cases h2 : S2[k]? with
  | none => simp [h2] at this
  | some s2 =>
    simp only [h2, Option.map_some', Option.some.injEq, Prod.mk.injEq] at this
    exact ⟨s2, rfl, this.1, this.2⟩

theorem SameLinks_symm {S S2 : List StackState} (hS : SameLinks S S2) : SameLinks S2 S :=
  fun k => (hS k).symm

theorem SameLinks_trans {S S1 S2 : List StackState} (h1 : SameLinks S S1) (h2 : SameLinks S1 S2) :
    SameLinks S S2 :=
  fun k => (h2 k).trans (h1 k)

theorem SameLinks_refl (S : List StackState) : SameLinks S S := fun _ => rfl

theorem SameLinks_reach {S S2 : List StackState} (hS : SameLinks S S2) {h k : Nat}
    (hr : Reach S h k) : Reach S2 h k := by
  refine Reach_congr ?_ hr
  intro j
  have := hS j
  cases h1 : S[j]? with
  | none =>
    cases h2 : S2[j]? with
    | none => rfl
    | some s2 => simp [h1, h2] at this
  | some s1 =>
    cases h2 : S2[j]? with
    | none => simp [h1, h2] at this
    | some s2 =>
      simp only [h1, h2, Option.map_some', Option.some.injEq, Prod.mk.injEq] at this
      simp [this.2]

theorem OrderedFrom_congr {S S2 : List StackState} (hS : SameLinks S S2) {h : Nat}
    (ho : OrderedFrom S h) : OrderedFrom S2 h := by
  intro k s2 hr hk
  have hr1 : Reach S h k := SameLinks_reach (SameLinks_symm hS) hr
  rcases SameLinks_get (SameLinks_symm hS) hk with ⟨s, hs, e1, e2⟩
  rcases ho k s hr1 hs with hn | ⟨p, sp, hp, hsp, hlt⟩
  · left
    rw [← e2]
    exact hn
  · right
    rcases SameLinks_get hS hsp with ⟨sp2, hsp2, f1, -⟩
    exact ⟨p, sp2, by rw [← e2]; exact hp, hsp2, by rw [f1, ← e1]; exact hlt⟩

theorem OrderedFrom_reach {S : List StackState} {h k : Nat} (ho : OrderedFrom S h)
    (hr : Reach S h k) : OrderedFrom S k :=
  fun j s hj hs => ho j s (Relation.ReflTransGen.trans hr hj) hs

/-- Linking one object `t` in front of an ordered chain keeps the chain ordered. -/
theorem OrderedFrom_relink {S S2 : List StackState} {t : Nat} {t2 : StackState}
    (ht2 : S2[t]? = some t2)
    (hold : ∀ (k : Nat) (s : StackState), k ≠ t → S2[k]? = some s → S[k]? = some s)
    (hnew : ∀ (k : Nat) (s : StackState), k ≠ t → S[k]? = some s → S2[k]? = some s)
    (hstop : ∀ st, S[t]? = some st → st.stack_stop ≤ t2.stack_stop)
    (hprev : t2.stack_prev = none ∨
      ∃ p sp, t2.stack_prev = some p ∧ S[p]? = some sp ∧ t2.stack_stop < sp.stack_stop ∧
        OrderedFrom S p) :
    OrderedFrom S2 t := by
  have key : ∀ k, Reach S2 t k → k = t ∨
      (k ≠ t ∧ ∃ p sp sk, t2.stack_prev = some p ∧ S[p]? = some sp ∧ Reach S p k ∧
        S[k]? = some sk ∧ t2.stack_stop < sk.stack_stop ∧ OrderedFrom S p) := by
    intro k hr
    induction hr with
    | refl => exact Or.inl rfl
    | @tail b c hb hl ih =>
      right
      rcases hl with ⟨sb, hsb, hbp⟩
      rcases ih with rfl | ⟨hbt, p, sp, sk, hp, hsp, hreach, hsk, hlt, hord⟩
      · rw [ht2] at hsb; cases hsb
        rcases hprev with hn | ⟨p, sp, hp, hsp, hlt, hord⟩
        · rw [hn] at hbp; cases hbp
        · rw [hp] at hbp; cases hbp
          refine ⟨?_, c, sp, sp, hp, hsp, Relation.ReflTransGen.refl, hsp, hlt, hord⟩
          rintro rfl
          have := hstop sp hsp
          omega
      · have hsb0 := hold b sb hbt hsb
        have e : sb = sk := Option.some.inj (hsb0.symm.trans hsk)
        rw [e] at hbp
        rcases hord b sk hreach hsk with hn | ⟨q, sq, hq, hsq, hlt2⟩
        · rw [hn] at hbp; cases hbp
        · rw [hq] at hbp; cases hbp
          refine ⟨?_, p, sp, sq, hp, hsp,
            Relation.ReflTransGen.tail hreach ⟨sk, hsk, hq⟩, hsq, by omega, hord⟩
          rintro rfl
          have := hstop sq hsq
          omega
  intro k s hr hk
  rcases key k hr with rfl | ⟨hkt, p, sp, sk, hp, hsp, hreach, hsk, hlt, hord⟩
  · rw [ht2] at hk; cases hk
    rcases hprev with hn | ⟨p, sp, hp, hsp, hlt, hord⟩
    · exact Or.inl hn
    · right
      refine ⟨p, sp, hp, hnew p sp ?_ hsp, hlt⟩
      rintro rfl
      have := hstop sp hsp
      omega
  · have hk0 := hold k s hkt hk
    have e : s = sk := Option.some.inj (hk0.symm.trans hsk)
    rw [e]
    rcases hord k sk hreach hsk with hn | ⟨q, sq, hq, hsq, hlt2⟩
    · exact Or.inl hn
    · right
      refine ⟨q, sq, hq, hnew q sq ?_ hsq, hlt2⟩
      rintro rfl
      have := hstop sq hsq
      omega

theorem countP_lt_countP {α : Type} (p q : α → Bool) (l : List α) (a : α) (ha : a ∈ l)
    (hpq : ∀ x, p x = true → q x = true) (hqa : q a = true) (hpa : p a = false) :
    l.countP p < l.countP q := by
  induction l with
  | nil => cases ha
  | cons b l ih =>
    have hmono : l.countP p ≤ l.countP q := List.countP_mono_left (fun x _ hx => hpq x hx)
    rcases List.mem_cons.mp ha with rfl | hm
    · simp only [List.countP_cons, hqa, hpa, if_true]
      simp
      omega
    · have := ih hm
      simp only [List.countP_cons]
      by_cases hpb : p b = true
      · simp [hpb, hpq b hpb]
        exact this
      · by_cases hqb : q b = true
        · simp [hpb, hqb]
          omega
        · simp [hpb, hqb]
          exact this

theorem chain_of_ordered (S : List StackState) (n : Nat) :
    ∀ (h : Nat) (s : StackState), S[h]? = some s → OrderedFrom S h →
      S.countP (fun x => decide (s.stack_stop < x.stack_stop)) ≤ n →
      ∃ l, IsChain S (some h) l := by
  induction n with
  | zero =>
    intro h s hs ho hn
    rcases ho h s Relation.ReflTransGen.refl hs with hnone | ⟨p, sp, hp, hsp, hlt⟩
    · exact ⟨[h], IsChain_some.mpr ⟨s, [], rfl, hs, by rw [hnone]; exact IsChain_none.mpr rfl⟩⟩
    · have hpos : 0 < S.countP (fun x => decide (s.stack_stop < x.stack_stop)) :=
        List.countP_pos_iff.mpr ⟨sp, List.getElem?_mem hsp, by simpa using hlt⟩
      omega
  | succ m ih =>
    intro h s hs ho hn
    rcases ho h s Relation.ReflTransGen.refl hs with hnone | ⟨p, sp, hp, hsp, hlt⟩
    · exact ⟨[h], IsChain_some.mpr ⟨s, [], rfl, hs, by rw [hnone]; exact IsChain_none.mpr rfl⟩⟩
    · have hlt2 := countP_lt_countP (fun x => decide (sp.stack_stop < x.stack_stop))
        (fun x => decide (s.stack_stop < x.stack_stop)) S sp (List.getElem?_mem hsp)
        (by intro x hx; simp only [decide_eq_true_eq] at hx ⊢; omega) (by simpa using hlt)
        (by simp)
      have hreach : Reach S h p := Relation.ReflTransGen.single ⟨s, hs, hp⟩
      rcases ih p sp hsp (OrderedFrom_reach ho hreach) (by omega) with ⟨l, hl⟩
      exact ⟨h :: l, IsChain_some.mpr ⟨s, l, rfl, hs, by rw [hp]; exact hl⟩⟩

theorem SameLinks_of_frame {S S1 : List StackState} (hlen : S1.length = S.length)
    (h : ∀ (k : Nat) (s : StackState), S[k]? = some s →
      ∃ s1, S1[k]? = some s1 ∧ s1.stack_stop = s.stack_stop ∧ s1.stack_prev = s.stack_prev) :
    SameLinks S S1 := by
  intro k
  cases hk : S[k]? with
  | none =>
    have : S1[k]? = none := by
      rw [List.getElem?_eq_none_iff, hlen, ← List.getElem?_eq_none_iff]
      exact hk
    simp [this]
  | some s =>
    rcases h k s hk with ⟨s1, hs1, e1, e2⟩
    simp [hs1, e1, e2]

theorem copy_stack_to_heap_up_to_links {A : Allocator} {ndebug : Bool} {w w1 : Thread}
    {this stop : Nat} {r : Int}
    (h : StackState.copy_stack_to_heap_up_to A ndebug w this stop = .ok (r, w1)) :
    SameLinks w.states w1.states := by
  rcases copy_stack_to_heap_up_to_frame h with ⟨-, -, hlen, -, -, -, hfr⟩
  refine SameLinks_of_frame hlen ?_
  intro k s hk
  rcases hfr k s hk with ⟨s1, hs1, -, e2, e3, -⟩
  exact ⟨s1, hs1, e2, e3⟩

theorem save_loop_links {A : Allocator} {ndebug : Bool} {this target_stop : Nat}
    (fuel : Nat) (w : Thread) (owner : Option Nat) (r : Int) (w2 : Thread)
    (h : StackState.save_loop A ndebug this target_stop fuel w owner = .ok (r, w2)) :
    SameLinks w.states w2.states ∧ w2.stack = w.stack := by
  induction fuel generalizing w owner with
  | zero => simp [StackState.save_loop] at h
  | succ n ih =>
    cases owner with
    | none => simp [StackState.save_loop] at h
    | some o =>
      simp only [StackState.save_loop] at h
      cases hos : w.states[o]? with
      | none => simp [hos] at h
      | some os =>
        simp only [hos] at h
        by_cases hlt : os.stack_stop < target_stop
        · simp only [hlt, if_true] at h
          cases hcall : StackState.copy_stack_to_heap_up_to A ndebug w o os.stack_stop with
          | error e => simp [hcall] at h
          | ok p =>
            obtain ⟨r1, w1⟩ := p
            simp only [hcall] at h
            have hl1 := copy_stack_to_heap_up_to_links hcall
            have hst1 := (copy_stack_to_heap_up_to_frame hcall).2.1
            by_cases hr0 : r1 = 0
            · simp only [hr0, ne_eq, not_true_eq_false, if_false] at h
              cases hos1 : w1.states[o]? with
              | none => simp [hos1] at h
              | some os1 =>
                simp only [hos1] at h
                rcases ih w1 os1.stack_prev h with ⟨hl2, hst2⟩
                exact ⟨SameLinks_trans hl1 hl2, by rw [hst2, hst1]⟩
            · simp only [ne_eq, hr0, not_false_eq_true, if_true, Except.ok.injEq,
                Prod.mk.injEq] at h
              rcases h with ⟨-, rfl⟩
              exact ⟨hl1, hst1⟩
        · simp only [hlt, if_false] at h
          by_cases hot : o = this
          · simp only [hot, ne_eq, not_true_eq_false, if_false, Except.ok.injEq,
              Prod.mk.injEq] at h
            rcases h with ⟨-, rfl⟩
            exact ⟨SameLinks_refl _, rfl⟩
          · simp only [ne_eq, hot, not_false_eq_true, if_true] at h
            cases hcall : StackState.copy_stack_to_heap_up_to A ndebug w o target_stop with
            | error e => simp [hcall] at h
            | ok p =>
              obtain ⟨r1, w1⟩ := p
              simp only [hcall] at h
              have hl1 := copy_stack_to_heap_up_to_links hcall
              have hst1 := (copy_stack_to_heap_up_to_frame hcall).2.1
              by_cases hr0 : r1 = 0
              · simp only [hr0, ne_eq, not_true_eq_false, if_false, Except.ok.injEq,
                  Prod.mk.injEq] at h
                rcases h with ⟨-, rfl⟩
                exact ⟨hl1, hst1⟩
              · simp only [ne_eq, hr0, not_false_eq_true, if_true, Except.ok.injEq,
                  Prod.mk.injEq] at h
                rcases h with ⟨-, rfl⟩
                exact ⟨hl1, hst1⟩

theorem copy_stack_to_heap_cases {A : Allocator} {ndebug : Bool} {w w2 : Thread}
    {this stackref current : Nat} {r : Int}
    (h : StackState.copy_stack_to_heap A ndebug w this stackref current = .ok (r, w2)) :
    ∃ t c, w.states[this]? = some t ∧ w.states[current]? = some c ∧
      ¬ (ndebug = false ∧ c._stack_saved ≠ 0) ∧
      ((c._stack_start = 0 ∧
        StackState.save_loop A ndebug this t.stack_stop (w.states.length + 1) w c.stack_prev =
          .ok (r, w2)) ∨
       (c._stack_start ≠ 0 ∧
        StackState.save_loop A ndebug this t.stack_stop (w.states.length + 1)
          { w with states := w.states.set current { c with _stack_start := stackref } }
          (some current) = .ok (r, w2))) := by
  unfold StackState.copy_stack_to_heap at h
  cases ht : w.states[this]? with
  | none => simp [ht] at h
  | some t =>
    cases hc : w.states[current]? with
    | none => simp [ht, hc] at h
    | some c =>
      simp only [ht, hc] at h
      refine ⟨t, c, rfl, rfl, ?_⟩
      by_cases ha : ndebug = false ∧ c._stack_saved ≠ 0
      · simp [ha] at h
      · simp only [ha, if_false] at h
        refine ⟨ha, ?_⟩
        by_cases hz : c._stack_start = 0
        · simp only [hz, if_true] at h
          exact Or.inl ⟨hz, h⟩
        · simp only [hz, if_false] at h
          exact Or.inr ⟨hz, h⟩

theorem SameLinks_set {S : List StackState} {k : Nat} {s s1 : StackState} (hs : S[k]? = some s)
    (h1 : s1.stack_stop = s.stack_stop) (h2 : s1.stack_prev = s.stack_prev) :
    SameLinks S (S.set k s1) := by
  intro j
  by_cases hj : j = k
  · subst hj
    rw [List.getElem?_set_self (lt_length_of_getElem? hs), hs]
    simp [h1, h2]
  · rw [List.getElem?_set_ne (Ne.symm hj)]

theorem copy_stack_to_heap_links {A : Allocator} {ndebug : Bool} {w w2 : Thread}
    {this stackref current : Nat} {r : Int}
    (h : StackState.copy_stack_to_heap A ndebug w this stackref current = .ok (r, w2)) :
    SameLinks w.states w2.states ∧ w2.stack = w.stack := by
  rcases copy_stack_to_heap_cases h with ⟨t, c, ht, hc, -, ⟨-, hl⟩ | ⟨-, hl⟩⟩
  · exact save_loop_links _ _ _ _ _ hl
  · rcases save_loop_links _ _ _ _ _ hl with ⟨h1, h2⟩
    have h0 : SameLinks w.states
        (w.states.set current { c with _stack_start := stackref }) :=
      SameLinks_set hc rfl rfl
    exact ⟨SameLinks_trans h0 h1, h2⟩

/-- C10: the chain is ordered by `stack_stop`. If every state met from `current`
has a `stack_prev` that is null or of strictly greater `stack_stop`, then after
`t.copy_heap_to_stack(current)` the same holds for every state met from `t`, and
`t.stack_prev` is null or of greater `stack_stop` than `t`; the call returns once
the heap copy is restored; `copy_stack_to_heap` keeps the order from every state,
whatever it returns; and `StackState(mark, current)`, put at the end of the arena,
heads an ordered chain when `mark` is below the `stack_stop` of the state it links
to. -/
theorem chain_ordered_by_stack_stop :
    (∀ (w w2 : Thread) (t current : Nat), OrderedFrom w.states current →
      StackState.copy_heap_to_stack w t current = .ok w2 →
      OrderedFrom w2.states t ∧
      ∃ t2, w2.states[t]? = some t2 ∧
        (t2.stack_prev = none ∨
          ∃ p sp, t2.stack_prev = some p ∧ w2.states[p]? = some sp ∧
            t2.stack_stop < sp.stack_stop)) ∧
    (∀ (w w1 : Thread) (t current : Nat) (cs : StackState), OrderedFrom w.states current →
      w.states[current]? = some cs → StackState.restore_heap_copy w t = .ok w1 →
      ∃ w2, StackState.copy_heap_to_stack w t current = .ok w2) ∧
    (∀ (A : Allocator) (ndebug : Bool) (w w2 : Thread) (t stackref current : Nat) (r : Int)
      (h : Nat), StackState.copy_stack_to_heap A ndebug w t stackref current = .ok (r, w2) →
      OrderedFrom w.states h → OrderedFrom w2.states h) ∧
    (∀ (S : List StackState) (mark cur : Nat) (c : StackState), S[cur]? = some c →
      OrderedFrom S cur →
      (∀ p sp, (StackState.init_mark mark cur c).stack_prev = some p → S[p]? = some sp →
        mark < sp.stack_stop) →
      OrderedFrom (S ++ [StackState.init_mark mark cur c]) S.length) := by
  refine ⟨?_, ?_, ?_, ?_⟩
  · intro w w2 t current hord h
    rcases copy_heap_to_stack_spec h with ⟨t0, c, t2, ht0, hc, ht2, e1, e2, hlen, hother, hprev⟩
    have hold : ∀ (k : Nat) (s : StackState), k ≠ t → w2.states[k]? = some s →
        w.states[k]? = some s := by
      intro k s hk hs
      have hlt := lt_length_of_getElem? hs
      rw [hlen] at hlt
      have h0 := hother k _ hk (List.getElem?_eq_getElem hlt)
      rw [hs] at h0
      rw [List.getElem?_eq_getElem hlt, ← Option.some.inj h0]
    have hprev2 : t2.stack_prev = none ∨
        ∃ p sp, t2.stack_prev = some p ∧ w.states[p]? = some sp ∧
          t2.stack_stop < sp.stack_stop ∧ OrderedFrom w.states p := by
      rcases hprev with hn | ⟨p, sp, hp, hpt, hsp, hlt, hwhere⟩
      · exact Or.inl hn
      · right
        refine ⟨p, sp, hp, hsp, by rw [e2]; exact hlt, ?_⟩
        rcases hwhere with ⟨-, hreach⟩ | ⟨-, h0, hh0, hreach⟩
        · exact OrderedFrom_reach hord hreach
        · exact OrderedFrom_reach hord (Relation.ReflTransGen.head ⟨c, hc, hh0⟩ hreach)
    have hres := OrderedFrom_relink ht2 hold hother
      (by intro st hst; rw [ht0] at hst; cases hst; rw [e2]) hprev2
    refine ⟨hres, t2, ht2, ?_⟩
    exact hres t t2 Relation.ReflTransGen.refl ht2
  · intro w w1 t current cs hord hcs hr
    rcases chain_of_ordered w.states _ current cs hcs hord (le_refl _) with ⟨l, hl⟩
    exact copy_heap_to_stack_returns hr hcs hl
  · intro A ndebug w w2 t stackref current r h hcall hord
    exact OrderedFrom_congr (copy_stack_to_heap_links hcall).1 hord
  · intro S mark cur c hc hord hmark
    have hlast : (S ++ [StackState.init_mark mark cur c])[S.length]? =
        some (StackState.init_mark mark cur c) := List.getElem?_concat_length S _
    have hne : ∀ k : Nat, k ≠ S.length → (S ++ [StackState.init_mark mark cur c])[k]? = S[k]? := by
      intro k hk
      by_cases hlt : k < S.length
      · exact List.getElem?_append_left hlt
      · have h1 : S.length ≤ k := by omega
        have h2 : (S ++ [StackState.init_mark mark cur c]).length ≤ k := by
          rw [List.length_append, List.length_singleton]
          omega
        rw [List.getElem?_eq_none_iff.mpr h1, List.getElem?_eq_none_iff.mpr h2]
    refine OrderedFrom_relink (S := S) hlast ?_ ?_ ?_ ?_
    · intro k s hk hs
      rw [hne k hk] at hs
      exact hs
    · intro k s hk hs
      rw [hne k hk]
      exact hs
    · intro st hst
      rw [List.getElem?_eq_none_iff.mpr (le_refl _)] at hst
      cases hst
    · cases hp : (StackState.init_mark mark cur c).stack_prev with
      | none => exact Or.inl rfl
      | some p =>
        right
        have hvalid : ∃ sp, S[p]? = some sp ∧ Reach S cur p := by
          have hp2 : (if c._stack_start ≠ 0 then some cur else c.stack_prev) = some p := hp
          by_cases hz : c._stack_start ≠ 0
          · rw [if_pos hz] at hp2
            cases hp2
            exact ⟨c, hc, Relation.ReflTransGen.refl⟩
          · rw [if_neg hz] at hp2
            rcases hord cur c Relation.ReflTransGen.refl hc with hn | ⟨q, sq, hq, hsq, -⟩
            · rw [hn] at hp2; cases hp2
            · rw [hq] at hp2; cases hp2
              exact ⟨sq, hsq, Relation.ReflTransGen.single ⟨c, hc, hq⟩⟩
        rcases hvalid with ⟨sp, hsp, hreach⟩
        exact ⟨p, sp, rfl, hsp, hmark p sp hp hsp, OrderedFrom_reach hord hreach⟩

theorem OrderedFrom_of_prev_none {S : List StackState} {h : Nat} {s : StackState}
    (hs : S[h]? = some s) (hp : s.stack_prev = none) : OrderedFrom S h := by
  intro k sk hr hk
  rcases Relation.ReflTransGen.cases_head hr with heq | ⟨h1, ⟨s1, hs1, hl1⟩, -⟩
  · subst heq
    rw [hs] at hk; cases hk
    exact Or.inl hp
  · rw [hs] at hs1; cases hs1
    rw [hp] at hl1; cases hl1

theorem smallThread_ordered : OrderedFrom smallThread.states 0 :=
  OrderedFrom_of_prev_none
    (show smallThread.states[0]? = some { StackState.make_main with _stack_start := 12 } from rfl)
    rfl

/-- C10 at the thread `smallThread`: restoring and evacuating its one state, and
linking a new state with mark 10 in front of it. -/
theorem chain_ordered_by_stack_stop_witness :
    OrderedFrom smallThread.states 0 ∧
    (∀ w2, StackState.copy_heap_to_stack smallThread 0 0 = .ok w2 → OrderedFrom w2.states 0) ∧
    (∃ w2, StackState.copy_heap_to_stack smallThread 0 0 = .ok w2) ∧
    (∀ r w2, StackState.copy_stack_to_heap neverFails false smallThread 0 11 0 = .ok (r, w2) →
      OrderedFrom w2.states 0) ∧
    OrderedFrom (smallThread.states ++
      [StackState.init_mark 10 0 { StackState.make_main with _stack_start := 12 }]) 1 :=
  ⟨smallThread_ordered,
    fun w2 h => (chain_ordered_by_stack_stop.1 smallThread w2 0 0
      smallThread_ordered h).1,
    chain_ordered_by_stack_stop.2.1 smallThread smallThread 0 0
      { StackState.make_main with _stack_start := 12 }
      smallThread_ordered (by decide) rfl,
    fun r w2 h => chain_ordered_by_stack_stop.2.2.1 neverFails false smallThread w2 0 11 0 r 0 h
      smallThread_ordered,
    chain_ordered_by_stack_stop.2.2.2 smallThread.states 10 0
      { StackState.make_main with _stack_start := 12 } (by decide)
      smallThread_ordered
      (by
        intro p sp hp hsp
        have hp0 : p = 0 := by
          have : some 0 = some p := hp
          exact (Option.some.inj this).symm
        subst hp0
        have : sp = { StackState.make_main with _stack_start := 12 } := by
          have h2 : some ({ StackState.make_main with _stack_start := 12 } : StackState) = some sp := hsp
          exact (Option.some.inj h2).symm
        subst this
        decide)⟩

/-- C8: the failing input evaluated. After the steps `oomScenario` the greenlet at
handle 2 runs with nothing saved; its switch to handle 1 returns `-1` at the second
reallocation and leaves the source with five bytes saved and a heap copy. In a
build with assertions the next call of `copy_stack_to_heap` from it stops at the
entry assertion `_stack_saved == 0`; in a build without them the next switch and
the switch back return it to a stack whose bytes at 4 to 9 are 5, 6, 7, 8, 9, 9
where they were 4, 5, 6, 7, 8, 9. -/
theorem failed_switch_leaves_source_evacuated :
    Sched.run (failsAt 4) false oomScenario (Sched.init (fun a => a % 10)) = some oomSched ∧
    oomSched.current = 2 ∧
    oomSched.w.states[2]? = some { _stack_start := 1, stack_stop := 10, stack_copy := none, _stack_saved := 0, stack_prev := some 0 } ∧
    StackState.copy_stack_to_heap (failsAt 4) false oomSched.w 1 5 2 = .ok (-1, oomFailed) ∧
    oomFailed.states[2]? = some { _stack_start := 5, stack_stop := 10, stack_copy := some [5, 6, 7, 8, 9], _stack_saved := 5, stack_prev := some 0 } ∧
    StackState.copy_stack_to_heap neverFails false oomFailed 1 4 2 = .error .assertion ∧
    (List.range 10).map oomFailed.stack = [0, 1, 2, 3, 4, 5, 6, 7, 8, 9] ∧
    (Sched.run neverFails true oomRetry { w := oomFailed, current := 2 }).map
      (fun s => (s.current, (List.range 10).map s.w.stack)) =
      some (2, [0, 1, 2, 3, 5, 6, 7, 8, 9, 9]) :=
  ⟨rfl, rfl, by decide, rfl, by decide, rfl, by decide, by decide⟩

/-! ### Evacuation keeps what each greenlet sees -/

theorem Grown_refl (stack : Nat → Nat) (s : StackState) : Grown stack s s :=
  ⟨rfl, rfl, rfl, le_refl _, fun _ _ => rfl⟩

theorem Grown_trans {stack : Nat → Nat} {s s1 s2 : StackState} (h1 : Grown stack s s1)
    (h2 : Grown stack s1 s2) : Grown stack s s2 := by
  rcases h1 with ⟨a1, a2, a3, a4, a5⟩
  rcases h2 with ⟨b1, b2, b3, b4, b5⟩
  refine ⟨b1.trans a1, b2.trans a2, b3.trans a3, le_trans a4 b4, ?_⟩
  intro a ha
  rw [b5 a (by rw [a1]; exact ha), a5 a ha]

theorem Held_of_Grown {stack : Nat → Nat} {s s1 : StackState} {snap : Nat → Nat}
    (hg : Grown stack s s1) (hh : Held stack s snap) : Held stack s1 snap := by
  rcases hg with ⟨a1, a2, -, -, a5⟩
  intro a h1 h2
  rw [a1] at h1
  rw [a2] at h2
  rw [a5 a h1]
  exact hh a h1 h2

theorem evacuated_grown {A : Allocator} {k : Nat} (stack : Nat → Nat) {s : StackState}
    {stop : Nat} {c : List Nat} (hwf : WF s) (hstop : stop ≤ s.stack_stop)
    (hfit : intptr_t ((stop : Int) - (s._stack_start : Int)) =
      (stop : Int) - (s._stack_start : Int))
    (hgt : intptr_t ((stop : Int) - (s._stack_start : Int)) > s._stack_saved)
    (hc : PyMem_Realloc A k s.stack_copy (intptr_t ((stop : Int) - (s._stack_start : Int))) =
      some c) :
    Grown stack s (evacuated stack s stop c) ∧ WF (evacuated stack s stop c) := by
  rcases evacuated_spec stack hc hwf.saved_nonneg with ⟨c1, hc1, hlen, hnew, hold⟩
  rw [hfit] at hgt hlen hnew hold
  have hsaved : (evacuated stack s stop c)._stack_saved =
      (stop : Int) - (s._stack_start : Int) := hfit
  have hstart : (evacuated stack s stop c)._stack_start = s._stack_start := rfl
  have hnn := hwf.saved_nonneg
  constructor
  · refine ⟨rfl, rfl, rfl, by rw [hsaved]; omega, ?_⟩
    intro a ha
    unfold StackState.view
    rw [hsaved, hstart, hc1]
    by_cases h1 : (a : Int) < (s._stack_start : Int) + s._stack_saved
    · have h2 : (a : Int) < (s._stack_start : Int) + ((stop : Int) - (s._stack_start : Int)) := by
        omega
      rw [if_pos h1, if_pos h2]
      cases hb : s.stack_copy with
      | none =>
        have := hwf.copy_none hb
        omega
      | some b =>
        have hbl := hwf.copy_len b hb
        simp only
        exact hold b (a - s._stack_start) hb (by omega) (by omega) (by omega)
    · rw [if_neg h1]
      by_cases h2 : (a : Int) < (s._stack_start : Int) + ((stop : Int) - (s._stack_start : Int))
      · rw [if_pos h2]
        simp only
        rw [hnew (a - s._stack_start) (by omega) (by omega)]
        congr 2
        omega
      · rw [if_neg h2]
  · refine ⟨by rw [hsaved]; omega, ?_, ?_, ?_, ?_, hwf.stop_pos⟩
    · intro b hb
      rw [hc1] at hb
      cases hb
      rw [hsaved, hlen]
      omega
    · intro hb
      rw [hc1] at hb
      cases hb
    · intro b _
      rw [hsaved]
      omega
    · intro _
      rw [hsaved, hstart]
      have : (evacuated stack s stop c).stack_stop = s.stack_stop := rfl
      rw [this]
      omega

/-- One successful call of `copy_stack_to_heap_up_to` on a well-formed state. -/
theorem copy_stack_to_heap_up_to_grown {A : Allocator} {ndebug : Bool} {w w1 : Thread}
    {o stop : Nat} {s : StackState}
    (h : StackState.copy_stack_to_heap_up_to A ndebug w o stop = .ok (0, w1))
    (hs : w.states[o]? = some s) (hwf : WF s) (hstop : stop ≤ s.stack_stop)
    (hfit : intptr_t ((stop : Int) - (s._stack_start : Int)) =
      (stop : Int) - (s._stack_start : Int)) :
    w1.stack = w.stack ∧ w1.states.length = w.states.length ∧
    (∀ k : Nat, k ≠ o → w1.states[k]? = w.states[k]?) ∧
    ∃ s1, w1.states[o]? = some s1 ∧ Grown w.stack s s1 ∧ WF s1 ∧
      (stop : Int) - (s._stack_start : Int) ≤ s1._stack_saved := by
  rcases copy_stack_to_heap_up_to_cases h with ⟨s0, hs0, ha, h1 | h1 | h1⟩
  · rw [hs] at hs0; cases hs0
    rcases h1 with ⟨hgt, -, rfl⟩
    rw [hfit] at hgt
    exact ⟨rfl, rfl, fun _ _ => rfl, s, hs, Grown_refl _ _, hwf, by omega⟩
  · exact absurd h1.2.2.1 (by decide)
  · rw [hs] at hs0; cases hs0
    rcases h1 with ⟨hgt, hnn, c, hc, -, rfl⟩
    rcases evacuated_grown w.stack hwf hstop hfit hgt hc with ⟨hg, hwf1⟩
    refine ⟨rfl, by simp, ?_, _, List.getElem?_set_self (lt_length_of_getElem? hs), hg, hwf1,
      le_of_eq hfit.symm⟩
    intro k hk
    simp only
    rw [List.getElem?_set_ne (Ne.symm hk)]

/-! ### Guarded chains -/

theorem Guarded_none {S : List StackState} {lo : Nat} {l : List Nat} :
    Guarded S lo none l ↔ l = [] := by
  cases l <;> simp [Guarded]

theorem Guarded_some {S : List StackState} {lo h : Nat} {l : List Nat} :
    Guarded S lo (some h) l ↔ ∃ s l1, l = h :: l1 ∧ S[h]? = some s ∧ lo < s.stack_stop ∧
      (lo : Int) ≤ (s._stack_start : Int) + s._stack_saved ∧ s._stack_start ≠ 0 ∧
      Guarded S s.stack_stop s.stack_prev l1 := by
  cases l with
  | nil => simp [Guarded]
  | cons k l1 =>
    simp only [Guarded, List.cons.injEq]
    constructor
    · rintro ⟨rfl, s, hs, h1, h2, h3, hc⟩
      exact ⟨s, l1, ⟨rfl, rfl⟩, hs, h1, h2, h3, hc⟩
    · rintro ⟨s, l2, ⟨rfl, rfl⟩, hs, h1, h2, h3, hc⟩
      exact ⟨rfl, s, hs, h1, h2, h3, hc⟩

/-- Every state of a guarded chain lies above the bound the chain starts from. -/
theorem Guarded_lower {S : List StackState} {lo : Nat} {o : Option Nat} {l : List Nat}
    (hg : Guarded S lo o l) :
    ∀ h ∈ l, ∃ s, S[h]? = some s ∧ lo < s.stack_stop ∧
      (lo : Int) ≤ (s._stack_start : Int) + s._stack_saved ∧ s._stack_start ≠ 0 := by
  induction l generalizing lo o with
  | nil => intro h hm; cases hm
  | cons k l ih =>
    cases o with
    | none => simp [Guarded] at hg
    | some h0 =>
      rcases Guarded_some.mp hg with ⟨s, l1, hl, hs, h1, h2, h3, hc⟩
      cases hl
      intro h hm
      rcases List.mem_cons.mp hm with rfl | hm1
      · exact ⟨s, hs, h1, h2, h3⟩
      · rcases ih hc h hm1 with ⟨s2, hs2, g1, g2, g3⟩
        exact ⟨s2, hs2, by omega, by omega, g3⟩

/-- A guarded chain read in an arena that agrees on the states of the chain, up to
more being saved. -/
theorem Guarded_mono {S S1 : List StackState} {lo : Nat} {o : Option Nat} {l : List Nat}
    (hS : ∀ h ∈ l, ∀ s, S[h]? = some s → ∃ s1, S1[h]? = some s1 ∧
      s1._stack_start = s._stack_start ∧ s1.stack_stop = s.stack_stop ∧
      s1.stack_prev = s.stack_prev ∧ s._stack_saved ≤ s1._stack_saved)
    (hg : Guarded S lo o l) : Guarded S1 lo o l := by
  induction l generalizing lo o with
  | nil =>
    cases o with
    | none => simp [Guarded]
    | some h => simp [Guarded] at hg
  | cons k l ih =>
    cases o with
    | none => simp [Guarded] at hg
    | some h0 =>
      rcases Guarded_some.mp hg with ⟨s, l1, hl, hs, h1, h2, h3, hc⟩
      cases hl
      rcases hS k (List.mem_cons_self _ _) s hs with ⟨s1, hs1, e1, e2, e3, e4⟩
      refine Guarded_some.mpr ⟨s1, l, rfl, hs1, by rw [e2]; exact h1, by rw [e1]; omega,
        by rw [e1]; exact h3, ?_⟩
      rw [e2, e3]
      exact ih (fun h hm => hS h (List.mem_cons_of_mem _ hm)) hc

theorem Guarded_congr {S S1 : List StackState} {lo : Nat} {o : Option Nat} {l : List Nat}
    (hS : ∀ h ∈ l, S1[h]? = S[h]?) (hg : Guarded S lo o l) : Guarded S1 lo o l := by
  refine Guarded_mono ?_ hg
  intro h hm s hs
  exact ⟨s, by rw [hS h hm]; exact hs, rfl, rfl, rfl, le_refl _⟩

theorem Guarded_isChain {S : List StackState} {lo : Nat} {o : Option Nat} {l : List Nat}
    (hg : Guarded S lo o l) : IsChain S o l := by
  induction l generalizing lo o with
  | nil =>
    cases o with
    | none => simp [IsChain]
    | some h => simp [Guarded] at hg
  | cons k l ih =>
    cases o with
    | none => simp [Guarded] at hg
    | some h0 =>
      rcases Guarded_some.mp hg with ⟨s, l1, hl, hs, h1, h2, h3, hc⟩
      cases hl
      exact IsChain_some.mpr ⟨s, l, rfl, hs, ih hc⟩

/-- In the loop of `copy_stack_to_heap`, the difference taken for a state that ends
below the target is that of two addresses of the stack. -/
theorem save_loop_fits_own {S : List StackState} {base this target o : Nat} {os : StackState}
    (hadr : Low base none S)
    (htgt : (this ≠ 0 → StackAddress base target) ∧ (this = 0 → target = CHAR_PTR_MINUS_ONE))
    (hos : S[o]? = some os) (hact : os._stack_start ≠ 0) (hlt : os.stack_stop < target) :
    intptr_t ((os.stack_stop : Int) - (os._stack_start : Int)) =
      (os.stack_stop : Int) - (os._stack_start : Int) := by
  rcases hadr o os hos with ⟨h1, h2, h3⟩
  have hstart : StackAddress base os._stack_start := by
    rcases h1 (by simp) with h0 | h0
    · exact absurd h0 hact
    · exact h0
  have hstop : StackAddress base os.stack_stop := by
    by_cases ho0 : o = 0
    · have e := h3 ho0
      by_cases ht0 : this = 0
      · have := htgt.2 ht0
        omega
      · have := (htgt.1 ht0).2.2
        omega
    · exact h2 ho0
  exact intptr_t_stack hstop hstart

/-- In the loop of `copy_stack_to_heap`, the difference taken for a state that
reaches the target's `stack_stop` and is not the target is that of two addresses of
the stack. -/
theorem save_loop_fits_target {S : List StackState} {base this target o : Nat}
    {os : StackState} (hadr : Low base none S)
    (htgt : (this ≠ 0 → StackAddress base target) ∧ (this = 0 → target = CHAR_PTR_MINUS_ONE))
    (hos : S[o]? = some os) (hact : os._stack_start ≠ 0) (hlt : ¬ os.stack_stop < target)
    (hot : o ≠ this) :
    intptr_t ((target : Int) - (os._stack_start : Int)) =
      (target : Int) - (os._stack_start : Int) := by
  rcases hadr o os hos with ⟨h1, h2, h3⟩
  have hstart : StackAddress base os._stack_start := by
    rcases h1 (by simp) with h0 | h0
    · exact absurd h0 hact
    · exact h0
  have hstop : StackAddress base target := by
    by_cases ht0 : this = 0
    · have e := htgt.2 ht0
      have := (h2 (fun ho0 => hot (ho0.trans ht0.symm))).2.2
      omega
    · exact htgt.1 ht0
  exact intptr_t_stack hstop hstart

/-- What a successful run of the loop of `copy_stack_to_heap` leaves: every state
of the chain below the target's `stack_stop` is saved in full, every other one
except the target at least up to the target's `stack_stop`, and no greenlet sees
another byte than before. -/
theorem save_loop_saved {A : Allocator} {ndebug : Bool} {this target : Nat} (fuel : Nat)
    (w w2 : Thread) (owner : Option Nat) (l : List Nat) (lo : Nat)
    (hwf : ∀ (h : Nat) (st : StackState), w.states[h]? = some st → WF st)
    (hg : Guarded w.states lo owner l)
    (hthis : ∀ t, w.states[this]? = some t → t.stack_stop = target)
    (base : Nat) (hadr : Low base none w.states)
    (htgt : (this ≠ 0 → StackAddress base target) ∧ (this = 0 → target = CHAR_PTR_MINUS_ONE))
    (h : StackState.save_loop A ndebug this target fuel w owner = .ok (0, w2)) :
    w2.stack = w.stack ∧ w2.states.length = w.states.length ∧
    ∀ (h : Nat) (st : StackState), w.states[h]? = some st →
      ∃ st2, w2.states[h]? = some st2 ∧ Grown w.stack st st2 ∧ WF st2 ∧
        (h ∉ l → st2 = st) ∧ (h = this → st2 = st) ∧
        (h ∈ l → h ≠ this →
          (st.stack_stop : Int) ≤ (st._stack_start : Int) + st2._stack_saved ∨
          (target : Int) ≤ (st._stack_start : Int) + st2._stack_saved) := by
  induction fuel generalizing w owner l lo with
  | zero => simp [StackState.save_loop] at h
  | succ n ih =>
    cases owner with
    | none => simp [StackState.save_loop] at h
    | some o =>
      rcases Guarded_some.mp hg with ⟨os, l1, hl, hos, hlo1, hlo2, hact, hg1⟩
      subst hl
      simp only [StackState.save_loop, hos] at h
      have hlow := Guarded_lower hg1
      have honot : o ∉ l1 := by
        intro hm
        rcases hlow o hm with ⟨s, hs, h1, -⟩
        rw [hos] at hs; cases hs
        omega
      by_cases hlt : os.stack_stop < target
      · simp only [hlt, if_true] at h
        cases hcall : StackState.copy_stack_to_heap_up_to A ndebug w o os.stack_stop with
        | error e => simp [hcall] at h
        | ok p =>
          obtain ⟨r1, w1⟩ := p
          simp only [hcall] at h
          by_cases hr0 : r1 = 0
          · subst hr0
            simp only [ne_eq, not_true_eq_false, if_false] at h
            have hfit := save_loop_fits_own hadr htgt hos hact hlt
            rcases copy_stack_to_heap_up_to_grown hcall hos (hwf o os hos) (le_refl _) hfit with
              ⟨hst1, hlen1, hoth1, os1, hos1, hgr1, hwf1, hfull1⟩
            simp only [hos1] at h
            have hadr1 : Low base none w1.states := by
              intro k st hk
              by_cases hko : k = o
              · subst hko
                rw [hos1] at hk; cases hk
                rw [hgr1.1, hgr1.2.1]
                exact hadr k os hos
              · rw [hoth1 k hko] at hk
                exact hadr k st hk
            have hwfall1 : ∀ (k : Nat) (st : StackState), w1.states[k]? = some st → WF st := by
              intro k st hk
              by_cases hko : k = o
              · subst hko
                rw [hos1] at hk; cases hk
                exact hwf1
              · rw [hoth1 k hko] at hk
                exact hwf k st hk
            have hg2 : Guarded w1.states os.stack_stop os1.stack_prev l1 := by
              rw [hgr1.2.2.1]
              refine Guarded_congr ?_ hg1
              intro k hk
              exact hoth1 k (fun hko => honot (hko ▸ hk))
            have hthis1 : ∀ t, w1.states[this]? = some t → t.stack_stop = target := by
              intro t ht
              by_cases hto : this = o
              · subst hto
                rw [hos1] at ht; cases ht
                rw [hgr1.2.1]
                exact hthis os hos
              · rw [hoth1 this hto] at ht
                exact hthis t ht
            rcases ih w1 os1.stack_prev l1 os.stack_stop hwfall1 hg2 hthis1 hadr1 h with
              ⟨hst2, hlen2, hall⟩
            refine ⟨by rw [hst2, hst1], by rw [hlen2, hlen1], ?_⟩
            intro k st hk
            by_cases hko : k = o
            · subst hko
              have e0 : os = st := Option.some.inj (hos.symm.trans hk)
              subst e0
              rcases hall k os1 hos1 with ⟨st2, hst2a, -, -, hsame, -, -⟩
              have e := hsame honot
              subst e
              refine ⟨st2, hst2a, hgr1, hwf1, ?_, ?_, ?_⟩
              · intro hn
                exact absurd (List.mem_cons_self _ _) hn
              · intro hkt
                subst hkt
                have := hthis os hos
                omega
              · intro _ _
                left
                omega
            · have hk1 : w1.states[k]? = some st := by rw [hoth1 k hko]; exact hk
              rcases hall k st hk1 with ⟨st2, hst2a, hgr2, hwf2, hsame, hsame2, hsaved⟩
              rw [hst1] at hgr2
              refine ⟨st2, hst2a, hgr2, hwf2, ?_, hsame2, ?_⟩
              · intro hn
                exact hsame (fun hm => hn (List.mem_cons_of_mem _ hm))
              · intro hm hkt
                rcases List.mem_cons.mp hm with hko2 | hm1
                · exact absurd hko2 hko
                · exact hsaved hm1 hkt
          · simp [hr0] at h
      · simp only [hlt, if_false] at h
        have htail : ∀ (k : Nat) (st : StackState), k ∈ l1 → w.states[k]? = some st →
            (target : Int) ≤ (st._stack_start : Int) + st._stack_saved := by
          intro k st hm hk
          rcases hlow k hm with ⟨s, hs, -, h2, -⟩
          rw [hk] at hs; cases hs
          omega
        by_cases hot : o = this
        · simp only [hot, ne_eq, not_true_eq_false, if_false, Except.ok.injEq,
            Prod.mk.injEq, true_and] at h
          subst h
          refine ⟨rfl, rfl, ?_⟩
          intro k st hk
          refine ⟨st, hk, Grown_refl _ _, hwf k st hk, fun _ => rfl, fun _ => rfl, ?_⟩
          intro hm hkt
          rcases List.mem_cons.mp hm with hko | hm1
          · exact absurd (hko.trans hot) hkt
          · exact Or.inr (htail k st hm1 hk)
        · simp only [ne_eq, hot, not_false_eq_true, if_true] at h
          cases hcall : StackState.copy_stack_to_heap_up_to A ndebug w o target with
          | error e => simp [hcall] at h
          | ok p =>
            obtain ⟨r1, w1⟩ := p
            simp only [hcall] at h
            by_cases hr0 : r1 = 0
            · subst hr0
              simp only [ne_eq, not_true_eq_false, if_false, Except.ok.injEq,
                Prod.mk.injEq, true_and] at h
              subst h
              have hfit := save_loop_fits_target hadr htgt hos hact hlt hot
              rcases copy_stack_to_heap_up_to_grown hcall hos (hwf o os hos) (by omega) hfit with
                ⟨hst1, hlen1, hoth1, os1, hos1, hgr1, hwf1, hfull1⟩
              refine ⟨hst1, hlen1, ?_⟩
              intro k st hk
              by_cases hko : k = o
              · subst hko
                have e0 : os = st := Option.some.inj (hos.symm.trans hk)
                subst e0
                refine ⟨os1, hos1, hgr1, hwf1, ?_, ?_, ?_⟩
                · intro hn
                  exact absurd (List.mem_cons_self _ _) hn
                · intro hkt
                  exact absurd hkt hot
                · intro _ _
                  right
                  omega
              · refine ⟨st, by rw [hoth1 k hko]; exact hk, Grown_refl _ _, hwf k st hk,
                  fun _ => rfl, fun _ => rfl, ?_⟩
                intro hm hkt
                rcases List.mem_cons.mp hm with hko2 | hm1
                · exact absurd hko2 hko
                · exact Or.inr (htail k st hm1 hk)
            · simp [hr0] at h

theorem find_more_stack_congr {S S1 : List StackState} (hS : SameLinks S S1) (stop fuel : Nat)
    (o : Option Nat) :
    StackState.find_more_stack S1 stop fuel o = StackState.find_more_stack S stop fuel o := by
  induction fuel generalizing o with
  | zero => rfl
  | succ n ih =>
    cases o with
    | none => rfl
    | some h =>
      simp only [StackState.find_more_stack]
      have := hS h
      cases h0 : S[h]? with
      | none =>
        cases h1 : S1[h]? with
        | none => rfl
        | some s1 => simp [h0, h1] at this
      | some s0 =>
        cases h1 : S1[h]? with
        | none => simp [h0, h1] at this
        | some s1 =>
          simp only [h0, h1, Option.map_some', Option.some.injEq, Prod.mk.injEq] at this
          simp only [this.1, this.2, ih]

/-- The walk of `copy_heap_to_stack` along a guarded chain ends at the first state
with more stack than `stop`; what follows it is a guarded chain again and what
precedes it has `stack_stop` at most `stop`. -/
theorem find_more_stack_guarded {S : List StackState} {stop : Nat} (fuel : Nat) (lo : Nat)
    (o : Option Nat) (l : List Nat) (r : Option Nat) (hg : Guarded S lo o l)
    (h : StackState.find_more_stack S stop fuel o = .ok r) :
    ∃ l2, (∀ k ∈ l2, k ∈ l) ∧
      (∀ k ∈ l, k ∉ l2 → ∀ st, S[k]? = some st → st.stack_stop ≤ stop) ∧
      ((r = none ∧ l2 = []) ∨
        ∃ p sp l3, r = some p ∧ l2 = p :: l3 ∧ S[p]? = some sp ∧ stop < sp.stack_stop ∧
          sp._stack_start ≠ 0 ∧ Guarded S sp.stack_stop sp.stack_prev l3) := by
  induction fuel generalizing lo o l with
  | zero => simp [StackState.find_more_stack] at h
  | succ n ih =>
    cases o with
    | none =>
      simp only [StackState.find_more_stack, Except.ok.injEq] at h
      have hl := Guarded_none.mp hg
      subst hl
      refine ⟨[], fun k hk => hk, ?_, Or.inl ⟨h.symm, rfl⟩⟩
      intro k hk
      cases hk
    | some o =>
      rcases Guarded_some.mp hg with ⟨os, l1, hl, hos, hlo1, hlo2, hact, hg1⟩
      subst hl
      simp only [StackState.find_more_stack, hos] at h
      by_cases hle : os.stack_stop ≤ stop
      · simp only [hle, if_true] at h
        rcases ih os.stack_stop os.stack_prev l1 hg1 h with ⟨l2, hsub, hbelow, hres⟩
        refine ⟨l2, fun k hk => List.mem_cons_of_mem _ (hsub k hk), ?_, hres⟩
        intro k hk hk2 st hst
        rcases List.mem_cons.mp hk with rfl | hk1
        · rw [hos] at hst; cases hst
          exact hle
        · exact hbelow k hk1 hk2 st hst
      · simp only [hle, if_false, Except.ok.injEq] at h
        subst h
        refine ⟨o :: l1, fun k hk => hk, fun k hk hk2 => absurd hk hk2, Or.inr ?_⟩
        exact ⟨o, os, l1, rfl, rfl, hos, by omega, hact, hg1⟩

/-! ### One switch -/

theorem step_switch_cases {A : Allocator} {ndebug : Bool} {s s1 : Sched} {target stackref : Nat}
    (h : s.step A ndebug (.switch target stackref) = some s1) :
    stackref ≠ 0 ∧ ∃ w1 w2,
      StackState.copy_stack_to_heap A ndebug s.w target stackref s.current = .ok (0, w1) ∧
      StackState.copy_heap_to_stack w1 target s.current = .ok w2 ∧
      Sched.enter ndebug w2 target s.stack_lo = some s1 := by
  simp only [Sched.step] at h
  by_cases hr : stackref = 0 ∨ ¬ StackAddress s.stack_lo stackref
  · simp [hr] at h
  · simp only [hr, if_false] at h
    refine ⟨fun h0 => hr (Or.inl h0), ?_⟩
    cases hsave : StackState.copy_stack_to_heap A ndebug s.w target stackref s.current with
    | error e => simp [hsave] at h
    | ok p =>
      obtain ⟨r, w1⟩ := p
      simp only [hsave] at h
      by_cases hr0 : r = 0
      · subst hr0
        simp only [ne_eq, not_true_eq_false, if_false] at h
        cases hrest : StackState.copy_heap_to_stack w1 target s.current with
        | error e => simp [hrest] at h
        | ok w2 =>
          simp only [hrest] at h
          exact ⟨w1, w2, rfl, hrest, h⟩
      · simp [hr0] at h

theorem step_switch_low {A : Allocator} {ndebug : Bool} {s s1 : Sched} {target stackref : Nat}
    (h : s.step A ndebug (.switch target stackref) = some s1) :
    StackAddress s.stack_lo stackref := by
  simp only [Sched.step] at h
  by_cases hr : stackref = 0 ∨ ¬ StackAddress s.stack_lo stackref
  · simp [hr] at h
  · push_neg at hr
    exact hr.2

theorem enter_stack_lo {ndebug : Bool} {w2 : Thread} {target lo : Nat} {s1 : Sched}
    (h : Sched.enter ndebug w2 target lo = some s1) : s1.stack_lo = lo := by
  unfold Sched.enter at h
  cases ht : w2.states[target]? with
  | none => simp [ht] at h
  | some t2 =>
    simp only [ht] at h
    by_cases hz : t2._stack_start = 0
    · have hsa : t2.set_active ndebug = .ok { t2 with _stack_start := 1 } := by
        unfold StackState.set_active
        simp [hz]
      simp only [hz, if_true, hsa, Option.some.injEq] at h
      subst h
      rfl
    · simp only [hz, if_false, Option.some.injEq] at h
      subst h
      rfl

theorem enter_cases {ndebug : Bool} {w2 : Thread} {target lo : Nat} {s1 : Sched}
    (h : Sched.enter ndebug w2 target lo = some s1) :
    ∃ t2, w2.states[target]? = some t2 ∧ s1.current = target ∧ s1.w.stack = w2.stack ∧
      s1.w.states = (if t2._stack_start = 0 then
        w2.states.set target { t2 with _stack_start := 1 } else w2.states) := by
  unfold Sched.enter at h
  cases ht : w2.states[target]? with
  | none => simp [ht] at h
  | some t2 =>
    simp only [ht] at h
    refine ⟨t2, rfl, ?_⟩
    by_cases hz : t2._stack_start = 0
    · have hsa : t2.set_active ndebug = .ok { t2 with _stack_start := 1 } := by
        unfold StackState.set_active
        simp [hz]
      simp only [hz, if_true, hsa, Option.some.injEq] at h
      subst h
      simp [hz]
    · simp only [hz, if_false, Option.some.injEq] at h
      subst h
      simp [hz]

theorem restore_heap_copy_effect {w w1 : Thread} {this : Nat} {t : StackState}
    (h : StackState.restore_heap_copy w this = .ok w1) (ht : w.states[this]? = some t) :
    w1.stack = (if t._stack_saved = 0 then w.stack
      else memcpy_to_stack w.stack t._stack_start (t.stack_copy.getD []) t._stack_saved.toNat) ∧
    w1.states = (if t._stack_saved = 0 then w.states else w.states.set this t.free_stack_copy) ∧
    (t._stack_saved ≠ 0 → t._stack_start ≠ 0) := by
  rcases restore_heap_copy_cases h with ⟨s0, hs0, h1 | h1⟩
  · rw [ht] at hs0; cases hs0
    rcases h1 with ⟨h0, rfl⟩
    simp [h0]
  · rw [ht] at hs0; cases hs0
    rcases h1 with ⟨h0, c, hc, hst, -, -, rfl⟩
    simp [h0, hc, hst]

/-- The state of the running greenlet with its `_stack_start` set to `stackref`, as
`copy_stack_to_heap` leaves it before its loop, keeps the invariant. -/
theorem inv_stackref {s : Sched} {c : StackState} {l : List Nat} {stackref : Nat}
    (hwf : ∀ (h : Nat) (st : StackState), s.w.states[h]? = some st → WF st)
    (hc : s.w.states[s.current]? = some c) (hc0 : c._stack_saved = 0)
    (hg : Guarded s.w.states 0 (some s.current) (s.current :: l)) (hr : stackref ≠ 0) :
    s.current ∉ l ∧
    (s.w.states.set s.current { c with _stack_start := stackref })[s.current]? =
      some { c with _stack_start := stackref } ∧
    (∀ k : Nat, k ≠ s.current →
      (s.w.states.set s.current { c with _stack_start := stackref })[k]? = s.w.states[k]?) ∧
    (∀ (h : Nat) (st : StackState),
      (s.w.states.set s.current { c with _stack_start := stackref })[h]? = some st → WF st) ∧
    Guarded (s.w.states.set s.current { c with _stack_start := stackref }) 0 (some s.current)
      (s.current :: l) := by
  rcases Guarded_some.mp hg with ⟨c1, l1, hl, hc1, h1, h2, h3, hg1⟩
  cases hl
  rw [hc] at hc1; cases hc1
  have hnot : s.current ∉ l := by
    intro hm
    rcases Guarded_lower hg1 _ hm with ⟨s2, hs2, g1, -⟩
    rw [hc] at hs2; cases hs2
    omega
  have hself := List.getElem?_set_self (lt_length_of_getElem? hc)
    (a := ({ c with _stack_start := stackref } : StackState))
  have hne : ∀ k : Nat, k ≠ s.current →
      (s.w.states.set s.current { c with _stack_start := stackref })[k]? = s.w.states[k]? :=
    fun k hk => List.getElem?_set_ne (Ne.symm hk)
  have hwfc := hwf _ c hc
  refine ⟨hnot, hself, hne, ?_, ?_⟩
  · intro k st hk
    by_cases hkc : k = s.current
    · subst hkc
      rw [hself] at hk
      cases hk
      refine ⟨hwfc.saved_nonneg, hwfc.copy_len, hwfc.copy_none, hwfc.copy_pos, ?_, hwfc.stop_pos⟩
      intro hpos
      have : c._stack_saved = 0 := hc0
      have hpos2 : 0 < c._stack_saved := hpos
      omega
    · rw [hne k hkc] at hk
      exact hwf k st hk
  · refine Guarded_some.mpr ⟨_, l, rfl, hself, h1, ?_, hr, ?_⟩
    · have : c._stack_saved = 0 := hc0
      show (0 : Int) ≤ (stackref : Int) + c._stack_saved
      omega
    · refine Guarded_congr ?_ hg1
      intro k hk
      exact hne k (fun hkc => hnot (hkc ▸ hk))

/-- The effect of one switch on a thread that satisfies the invariant. -/
theorem switch_post {A : Allocator} {ndebug : Bool} {s s1 : Sched} {target stackref : Nat}
    (hinv : Inv s) (hstep : s.step A ndebug (.switch target stackref) = some s1) :
    ∃ t t0 : StackState, s.w.states[target]? = some t ∧
      t0 = (if target = s.current then { t with _stack_start := stackref } else t) ∧
      WF t0 ∧ (t0._stack_saved ≠ 0 → t0._stack_start ≠ 0) ∧
      s1.current = target ∧ Inv s1 ∧
      s1.w.stack = (if t0._stack_saved = 0 then s.w.stack
        else memcpy_to_stack s.w.stack t0._stack_start (t0.stack_copy.getD [])
          t0._stack_saved.toNat) ∧
      (∃ t2, s1.w.states[target]? = some t2 ∧ t2.stack_stop = t.stack_stop ∧
        t2._stack_start = (if t0._stack_start = 0 then 1 else t0._stack_start)) ∧
      (∀ (g : Nat) (st : StackState), g ≠ target → s.w.states[g]? = some st →
        ∃ st1, s1.w.states[g]? = some st1 ∧
          Grown s.w.stack (if g = s.current then { st with _stack_start := stackref } else st)
            st1 ∧
          (st1._stack_start ≠ 0 →
            (st1.stack_stop : Int) ≤ (st1._stack_start : Int) + st1._stack_saved ∨
            (t.stack_stop : Int) ≤ (st1._stack_start : Int) + st1._stack_saved)) ∧
      (∃ l l2, Guarded s.w.states 0 (some s.current) (s.current :: l) ∧
        Guarded s1.w.states 0 (some target) (target :: l2) ∧
        ∀ k ∈ s.current :: l, k ∉ target :: l2 → ∀ st, s.w.states[k]? = some st →
          st.stack_stop ≤ t.stack_stop) := by
  rcases step_switch_cases hstep with ⟨hr, w1, w2, hsave, hrest, henter⟩
  have hrlow := step_switch_low hstep
  rcases hinv with ⟨hwf, c, l, hc, hc0, hg, hpark, hadr⟩
  rcases copy_stack_to_heap_cases hsave with ⟨t, c2, ht, hc2, -, ⟨hz, -⟩ | ⟨-, hloop⟩⟩
  · rcases Guarded_lower hg s.current (List.mem_cons_self _ _) with ⟨c3, hc3, -, -, hact⟩
    rw [hc2] at hc3; cases hc3
    exact absurd hz hact
  have ec : c2 = c := Option.some.inj (hc2.symm.trans hc)
  subst ec
  rcases inv_stackref hwf hc hc0 hg hr with ⟨hnot, hself, hne, hwf0, hg0⟩
  -- the arena on entry to the loop
  obtain ⟨S0, hS0⟩ : ∃ S0, S0 = s.w.states.set s.current { c2 with _stack_start := stackref } :=
    ⟨_, rfl⟩
  rw [← hS0] at hself hne hwf0 hg0 hloop
  have hget0 : ∀ (g : Nat) (st : StackState), s.w.states[g]? = some st →
      S0[g]? = some (if g = s.current then { st with _stack_start := stackref } else st) := by
    intro g st hst
    by_cases hgc : g = s.current
    · subst hgc
      rw [hc] at hst; cases hst
      simp only [if_true]
      exact hself
    · rw [hne g hgc, if_neg hgc]
      exact hst
  obtain ⟨t0, ht0def⟩ : ∃ t0, t0 = (if target = s.current then
      { t with _stack_start := stackref } else t) := ⟨_, rfl⟩
  have ht0 : S0[target]? = some t0 := by rw [ht0def]; exact hget0 target t ht
  have ht0stop : t0.stack_stop = t.stack_stop := by
    rw [ht0def]; split <;> rfl
  have hthis0 : ∀ x, S0[target]? = some x → x.stack_stop = t.stack_stop := by
    intro x hx
    rw [ht0] at hx; cases hx
    exact ht0stop
  have hadr0 : Low s.stack_lo none S0 := by
    intro g x hx
    by_cases hgc : g = s.current
    · subst hgc
      rw [hself] at hx; cases hx
      exact ⟨fun _ => Or.inr hrlow, (hadr _ c2 hc).2⟩
    · rw [hne g hgc] at hx
      exact ⟨fun _ => (hadr g x hx).1 (fun e => hgc (Option.some.inj e)), (hadr g x hx).2⟩
  rcases save_loop_saved _ { s.w with states := S0 } w1 _ _ 0 hwf0 hg0 hthis0 _ hadr0
      (hadr target t ht).2 hloop with
    ⟨hst1, hlen1, hall1⟩
  have hst1a : w1.stack = s.w.stack := hst1
  have hlen1a : w1.states.length = S0.length := hlen1
  have hall1a : ∀ (h : Nat) (st : StackState), S0[h]? = some st →
      ∃ st2, w1.states[h]? = some st2 ∧ Grown s.w.stack st st2 ∧ WF st2 ∧
        (h ∉ s.current :: l → st2 = st) ∧ (h = target → st2 = st) ∧
        (h ∈ s.current :: l → h ≠ target →
          (st.stack_stop : Int) ≤ (st._stack_start : Int) + st2._stack_saved ∨
          (t.stack_stop : Int) ≤ (st._stack_start : Int) + st2._stack_saved) := hall1
  clear hall1 hst1 hlen1
  have hlen0 : S0.length = s.w.states.length := by rw [hS0]; simp
  have hback1 : ∀ (g : Nat) (x : StackState), w1.states[g]? = some x →
      ∃ st0, S0[g]? = some st0 := by
    intro g x hx
    have := lt_length_of_getElem? hx
    rw [hlen1a] at this
    exact ⟨_, List.getElem?_eq_getElem this⟩
  have hwf1 : ∀ (g : Nat) (x : StackState), w1.states[g]? = some x → WF x := by
    intro g x hx
    rcases hback1 g x hx with ⟨st0, hst0⟩
    rcases hall1a g st0 hst0 with ⟨st2, hst2, -, hw, -⟩
    rw [hx] at hst2; cases hst2
    exact hw
  have ht1 : w1.states[target]? = some t0 := by
    rcases hall1a target t0 ht0 with ⟨st2, hst2, -, -, -, hsame, -⟩
    rw [hsame rfl] at hst2
    exact hst2
  have hwft0 : WF t0 := hwf1 target t0 ht1
  have hg1 : Guarded w1.states 0 (some s.current) (s.current :: l) := by
    refine Guarded_mono ?_ hg0
    intro k _ st hk
    rcases hall1a k st hk with ⟨st2, hst2, hgr, -⟩
    exact ⟨st2, hst2, hgr.1, hgr.2.1, hgr.2.2.1, hgr.2.2.2.1⟩
  -- the restore
  rcases copy_heap_to_stack_cases hrest with ⟨w1r, t1r, c1r, owner1, hres, ht1r, hc1r, hf, hw2⟩
  rcases restore_heap_copy_effect hres ht1 with ⟨hstack1r, hstates1r, hnz⟩
  rcases restore_heap_copy_frame hres with ⟨hlenr, -, -, hfr⟩
  have ht1r_eq : t1r = if t0._stack_saved = 0 then t0 else t0.free_stack_copy := by
    rcases hfr target t0 ht1 with ⟨x, hx, -, -, -, -, hx2⟩
    rw [ht1r] at hx; cases hx
    exact hx2 rfl
  have ht1r_saved : t1r._stack_saved = 0 := by
    rw [ht1r_eq]
    by_cases h0 : t0._stack_saved = 0
    · rw [if_pos h0]; exact h0
    · rw [if_neg h0]; rfl
  have ht1r_copy : t1r.stack_copy = none := by
    rw [ht1r_eq]
    by_cases h0 : t0._stack_saved = 0
    · rw [if_pos h0]
      cases hb : t0.stack_copy with
      | none => rfl
      | some b =>
        have := hwft0.copy_pos b hb
        omega
    · rw [if_neg h0]; rfl
  have ht1r_start : t1r._stack_start = t0._stack_start := by
    rw [ht1r_eq]; split <;> rfl
  have ht1r_stop : t1r.stack_stop = t.stack_stop := by
    rw [ht1r_eq, ← ht0stop]; split <;> rfl
  have hother1r : ∀ g : Nat, g ≠ target → w1r.states[g]? = w1.states[g]? := by
    intro g hg
    rw [hstates1r]
    by_cases h0 : t0._stack_saved = 0
    · rw [if_pos h0]
    · rw [if_neg h0, List.getElem?_set_ne (Ne.symm hg)]
  have hlinks : SameLinks w1.states w1r.states := by
    refine SameLinks_of_frame hlenr ?_
    intro k x hk
    rcases hfr k x hk with ⟨x1, hx1, -, e2, e3, -⟩
    exact ⟨x1, hx1, e2, e3⟩
  have hc1r_start : c1r._stack_start = stackref := by
    rcases hall1a s.current _ hself with ⟨x, hx, hgr, -⟩
    rcases hfr s.current x hx with ⟨x1, hx1, e1, -⟩
    rw [hc1r] at hx1; cases hx1
    rw [e1, hgr.1]
  have howner : (if c1r._stack_start = 0 then c1r.stack_prev else some s.current) =
      some s.current := by
    rw [if_neg (by rw [hc1r_start]; exact hr)]
  rw [howner, find_more_stack_congr hlinks, ht1r_stop] at hf
  rcases find_more_stack_guarded _ _ _ _ _ hg1 hf with ⟨l2, hsub, hbelow, hres2⟩
  -- entering the target
  rcases enter_cases henter with ⟨t2, ht2, hcur1, hstack2, hstates2⟩
  have hw2states : w2.states = w1r.states.set target { t1r with stack_prev := owner1 } := by
    rw [hw2]
  have hw2stack : w2.stack = w1r.stack := by rw [hw2]
  have ht2_eq : t2 = { t1r with stack_prev := owner1 } := by
    rw [hw2states, List.getElem?_set_self (lt_length_of_getElem? ht1r)] at ht2
    exact (Option.some.inj ht2).symm
  obtain ⟨tfin, htfin⟩ : ∃ tfin : StackState, tfin =
      { _stack_start := if t0._stack_start = 0 then 1 else t0._stack_start,
        stack_stop := t.stack_stop, stack_copy := none, _stack_saved := 0,
        stack_prev := owner1 } := ⟨_, rfl⟩
  have hlt2 : target < w2.states.length := lt_length_of_getElem? ht2
  have hfinT : s1.w.states[target]? = some tfin := by
    rw [hstates2]
    by_cases hz : t2._stack_start = 0
    · rw [if_pos hz, List.getElem?_set_self hlt2, htfin]
      have hz0 : t0._stack_start = 0 := by
        rw [ht2_eq] at hz
        rw [← ht1r_start]
        exact hz
      rw [if_pos hz0, ht2_eq]
      simp only [Option.some.injEq, StackState.mk.injEq, true_and]
      exact ⟨ht1r_stop, ht1r_copy, ht1r_saved, trivial⟩
    · rw [if_neg hz, ht2, htfin]
      have hz0 : ¬ t0._stack_start = 0 := by
        rw [ht2_eq] at hz
        rw [← ht1r_start]
        exact hz
      rw [if_neg hz0, ht2_eq]
      simp only [Option.some.injEq, StackState.mk.injEq, and_true]
      exact ⟨ht1r_start, ht1r_stop, ht1r_copy, ht1r_saved⟩
  have hfinO : ∀ g : Nat, g ≠ target → s1.w.states[g]? = w1.states[g]? := by
    intro g hg
    rw [hstates2]
    have h2 : w2.states[g]? = w1.states[g]? := by
      rw [hw2states, List.getElem?_set_ne (Ne.symm hg)]
      exact hother1r g hg
    by_cases hz : t2._stack_start = 0
    · rw [if_pos hz, List.getElem?_set_ne (Ne.symm hg)]
      exact h2
    · rw [if_neg hz]
      exact h2
  have htfin_start : tfin._stack_start ≠ 0 := by
    rw [htfin]
    by_cases hz : t0._stack_start = 0
    · simp [hz]
    · simp [hz]
  have hwftfin : WF tfin := by
    rw [htfin]
    refine ⟨le_refl _, ?_, fun _ => rfl, ?_, ?_, ?_⟩
    · intro b hb; cases hb
    · intro b hb; cases hb
    · intro hpos
      exact absurd hpos (lt_irrefl _)
    · have := hwf target t ht
      exact this.stop_pos
  -- the states off the target after the switch
  have hclear : ∀ (g : Nat) (st : StackState), g ≠ target → s.w.states[g]? = some st →
      ∃ st1, w1.states[g]? = some st1 ∧
        Grown s.w.stack (if g = s.current then { st with _stack_start := stackref } else st)
          st1 ∧
        (st1._stack_start ≠ 0 →
          (st1.stack_stop : Int) ≤ (st1._stack_start : Int) + st1._stack_saved ∨
          (t.stack_stop : Int) ≤ (st1._stack_start : Int) + st1._stack_saved) := by
    intro g st hgt hst
    rcases hall1a g _ (hget0 g st hst) with ⟨st1, hst1, hgr, -, hsame, -, hsaved⟩
    refine ⟨st1, hst1, hgr, ?_⟩
    intro hact
    by_cases hm : g ∈ s.current :: l
    · rcases hsaved hm hgt with h1 | h1
      · left
        rw [hgr.1, hgr.2.1]
        exact h1
      · right
        rw [hgr.1]
        exact h1
    · left
      have e := hsame hm
      have hgc : g ≠ s.current := fun h => hm (h ▸ List.mem_cons_self _ _)
      rw [if_neg hgc] at e
      subst e
      rcases hpark g st1 hm hst with ⟨h0, -⟩ | ⟨-, h1⟩
      · exact absurd h0 hact
      · exact h1
  have hgnew : Guarded s1.w.states 0 (some target) (target :: l2) := by
      have htf_stop : tfin.stack_stop = t.stack_stop := by rw [htfin]
      have htf_saved : tfin._stack_saved = 0 := by rw [htfin]
      have htf_prev : tfin.stack_prev = owner1 := by rw [htfin]
      refine Guarded_some.mpr ⟨tfin, l2, rfl, hfinT, ?_, ?_, htfin_start, ?_⟩
      · rw [htf_stop]
        exact (hwf target t ht).stop_pos
      · rw [htf_saved]
        omega
      · rw [htf_stop, htf_prev]
        rcases hres2 with ⟨hn, hl2⟩ | ⟨p, sp, l3, hp, hl2, hsp, hlt, hspact, hg3⟩
        · rw [hn, hl2]
          exact Guarded_none.mpr rfl
        · have hpt : p ≠ target := by
            rintro rfl
            rw [ht1] at hsp; cases hsp
            omega
          have hpm : p ∈ s.current :: l := hsub p (by rw [hl2]; exact List.mem_cons_self _ _)
          rcases hback1 p sp hsp with ⟨sp0, hsp0⟩
          rcases hall1a p sp0 hsp0 with ⟨sp1, hsp1, hgr, -, -, -, hsaved⟩
          have e : sp1 = sp := Option.some.inj (hsp1.symm.trans hsp)
          subst e
          rw [hp, hl2]
          refine Guarded_some.mpr ⟨sp1, l3, rfl, by rw [hfinO p hpt]; exact hsp, hlt, ?_,
            hspact, ?_⟩
          · rcases hsaved hpm hpt with h1 | h1
            · rw [hgr.1]
              have := hgr.2.1
              omega
            · rw [hgr.1]
              exact h1
          · refine Guarded_congr ?_ hg3
            intro k hk
            refine hfinO k ?_
            rintro rfl
            rcases Guarded_lower hg3 k hk with ⟨x, hx, h1, -⟩
            rw [ht1] at hx; cases hx
            omega
  have hdrop : ∀ k ∈ s.current :: l, k ∉ target :: l2 → ∀ st, s.w.states[k]? = some st →
      st.stack_stop ≤ t.stack_stop := by
    intro k hk hk2 st hst
    have hkl2 : k ∉ l2 := fun h => hk2 (List.mem_cons_of_mem _ h)
    rcases hall1a k _ (hget0 k st hst) with ⟨st1, hst1, hgr, -⟩
    have := hbelow k hk hkl2 st1 hst1
    have e2 := hgr.2.1
    have e3 : (if k = s.current then ({ st with _stack_start := stackref } : StackState)
        else st).stack_stop = st.stack_stop := by
      split <;> rfl
    omega
  refine ⟨t, t0, ht, ht0def, hwft0, hnz, hcur1, ?_, ?_, ⟨tfin, hfinT, by rw [htfin], by rw [htfin]⟩,
    ?_, ⟨l, l2, hg, hgnew, hdrop⟩⟩
  · -- the invariant after the switch
    refine ⟨?_, tfin, l2, by rw [hcur1]; exact hfinT, by rw [htfin], by rw [hcur1]; exact hgnew,
      ?_, ?_⟩
    rotate_left 2
    · rw [enter_stack_lo henter, hcur1]
      intro g x hx
      by_cases hgt : g = target
      · subst hgt
        rw [hfinT] at hx; cases hx
        rw [htfin]
        exact ⟨fun hne => absurd rfl hne, (hadr g t ht).2⟩
      · rw [hfinO g hgt] at hx
        rcases hback1 g x hx with ⟨st0, hst0⟩
        rcases hall1a g st0 hst0 with ⟨st1, hst1, hgr, -⟩
        have e : st1 = x := Option.some.inj (hst1.symm.trans hx)
        subst e
        rw [hgr.1, hgr.2.1]
        exact ⟨fun _ => (hadr0 g st0 hst0).1 (by simp), (hadr0 g st0 hst0).2⟩
    · intro g x hx
      by_cases hgt : g = target
      · subst hgt
        rw [hfinT] at hx; cases hx
        exact hwftfin
      · rw [hfinO g hgt] at hx
        exact hwf1 g x hx
    · intro g x hgm hx
      rw [hcur1] at hgm
      have hgt : g ≠ target := fun h => hgm (h ▸ List.mem_cons_self _ _)
      have hgl2 : g ∉ l2 := fun h => hgm (List.mem_cons_of_mem _ h)
      rw [hfinO g hgt] at hx
      rcases hback1 g x hx with ⟨st0, hst0⟩
      rcases hall1a g st0 hst0 with ⟨st1, hst1, hgr, -, hsame, -, hsaved⟩
      have e : st1 = x := Option.some.inj (hst1.symm.trans hx)
      subst e
      by_cases hm : g ∈ s.current :: l
      · right
        rcases Guarded_lower hg1 g hm with ⟨y, hy, -, -, hyact⟩
        rw [hx] at hy; cases hy
        refine ⟨hyact, ?_⟩
        have hb := hbelow g hm hgl2 st1 hx
        rcases hsaved hm hgt with h1 | h1
        · rw [hgr.1, hgr.2.1]
          exact h1
        · rw [hgr.1]
          omega
      · have e := hsame hm
        subst e
        have hgc : g ≠ s.current := fun h => hm (h ▸ List.mem_cons_self _ _)
        rw [hne g hgc] at hst0
        exact hpark g st1 hm hst0
  · rw [hstack2, hw2stack, hstack1r, hst1a]
  · intro g st hgt hst
    rcases hclear g st hgt hst with ⟨st1, hst1, hgr, hcl⟩
    exact ⟨st1, by rw [hfinO g hgt]; exact hst1, hgr, hcl⟩

/-! ### The invariant holds in every reachable state -/

theorem inv_init (stack : Nat → Nat) (lo : Nat) :
    Inv { Sched.init stack with stack_lo := lo } := by
  refine ⟨?_, StackState.make_main, [], rfl, rfl, ?_, ?_, ?_⟩
  · intro h st hst
    have hh : h = 0 := by
      have := lt_length_of_getElem? hst
      simp [Sched.init] at this
      exact this
    subst hh
    have e : st = StackState.make_main := (Option.some.inj hst).symm
    subst e
    refine ⟨le_refl _, ?_, fun _ => rfl, ?_, ?_, by decide⟩
    · intro b hb; cases hb
    · intro b hb; cases hb
    · intro hpos
      exact absurd hpos (lt_irrefl _)
  · refine Guarded_some.mpr ⟨StackState.make_main, [], rfl, rfl, by decide, by decide, by decide,
      Guarded_none.mpr rfl⟩
  · intro h st hm hst
    have hh : h = 0 := by
      have := lt_length_of_getElem? hst
      simp [Sched.init] at this
      exact this
    subst hh
    exact absurd (List.mem_cons_self _ _) hm
  · intro h st hst
    have hh : h = 0 := by
      have := lt_length_of_getElem? hst
      simp [Sched.init] at this
      exact this
    subst hh
    have e : st = StackState.make_main := (Option.some.inj hst).symm
    subst e
    exact ⟨fun hne => absurd rfl hne, fun h0 => absurd rfl h0, fun _ => rfl⟩

theorem step_create_low {A : Allocator} {ndebug : Bool} {s s1 : Sched} {mark : Nat}
    (h : s.step A ndebug (.create mark) = some s1) : StackAddress s.stack_lo mark := by
  simp only [Sched.step] at h
  cases hc : s.w.states[s.current]? with
  | none => simp [hc] at h
  | some c =>
    simp only [hc] at h
    by_cases hm : 0 < mark ∧ mark < c.stack_stop ∧ StackAddress s.stack_lo mark
    · exact hm.2.2
    · simp [hm] at h

theorem step_create_cases {A : Allocator} {ndebug : Bool} {s s1 : Sched} {mark : Nat}
    (h : s.step A ndebug (.create mark) = some s1) :
    ∃ c, s.w.states[s.current]? = some c ∧ 0 < mark ∧ mark < c.stack_stop ∧
      s1.current = s.current ∧ s1.w.stack = s.w.stack ∧
      s1.w.states = s.w.states ++ [StackState.init_mark mark s.current c] := by
  simp only [Sched.step] at h
  cases hc : s.w.states[s.current]? with
  | none => simp [hc] at h
  | some c =>
    simp only [hc] at h
    by_cases hm : 0 < mark ∧ mark < c.stack_stop ∧ StackAddress s.stack_lo mark
    · rw [if_pos hm] at h
      simp only [Option.some.injEq] at h
      subst h
      exact ⟨c, rfl, hm.1, hm.2.1, rfl, rfl, rfl⟩
    · simp [hm] at h

theorem step_write_cases {A : Allocator} {ndebug : Bool} {s s1 : Sched} {addr val : Nat}
    (h : s.step A ndebug (.write addr val) = some s1) :
    ∃ c, s.w.states[s.current]? = some c ∧ addr < c.stack_stop ∧
      s1.current = s.current ∧ s1.w.stack = Function.update s.w.stack addr val ∧
      s1.w.states = s.w.states := by
  simp only [Sched.step] at h
  cases hc : s.w.states[s.current]? with
  | none => simp [hc] at h
  | some c =>
    simp only [hc] at h
    by_cases hm : addr < c.stack_stop
    · simp only [hm, if_true, Option.some.injEq] at h
      subst h
      exact ⟨c, rfl, hm, rfl, rfl, rfl⟩
    · simp [hm] at h

/-- No step moves the thread's stack. -/
theorem step_stack_lo {A : Allocator} {ndebug : Bool} {s s1 : Sched} {a : Action}
    (h : s.step A ndebug a = some s1) : s1.stack_lo = s.stack_lo := by
  cases a with
  | create mark =>
    simp only [Sched.step] at h
    cases hc : s.w.states[s.current]? with
    | none => simp [hc] at h
    | some c =>
      simp only [hc] at h
      by_cases hm : 0 < mark ∧ mark < c.stack_stop ∧ StackAddress s.stack_lo mark
      · rw [if_pos hm] at h
        simp only [Option.some.injEq] at h
        subst h
        rfl
      · simp [hm] at h
  | write addr val =>
    simp only [Sched.step] at h
    cases hc : s.w.states[s.current]? with
    | none => simp [hc] at h
    | some c =>
      simp only [hc] at h
      by_cases hm : addr < c.stack_stop
      · simp only [hm, if_true, Option.some.injEq] at h
        subst h
        rfl
      · simp [hm] at h
  | switch target stackref =>
    rcases step_switch_cases h with ⟨-, w1, w2, -, -, henter⟩
    exact enter_stack_lo henter

theorem inv_step {A : Allocator} {ndebug : Bool} {s s1 : Sched} {a : Action} (hinv : Inv s)
    (h : s.step A ndebug a = some s1) : Inv s1 := by
  cases a with
  | create mark =>
    rcases step_create_cases h with ⟨c, hc, hm0, hm1, hcur, -, hstates⟩
    have hmlow := step_create_low h
    rcases hinv with ⟨hwf, c2, l, hc2, hc0, hg, hpark, hadr⟩
    have hold : ∀ k : Nat, k < s.w.states.length → s1.w.states[k]? = s.w.states[k]? := by
      intro k hk
      rw [hstates]
      exact List.getElem?_append_left hk
    have hnew : s1.w.states[s.w.states.length]? =
        some (StackState.init_mark mark s.current c) := by
      rw [hstates]
      exact List.getElem?_concat_length _ _
    have hcases : ∀ (k : Nat) (st : StackState), s1.w.states[k]? = some st →
        s.w.states[k]? = some st ∨
        (k = s.w.states.length ∧ st = StackState.init_mark mark s.current c) := by
      intro k st hk
      have hlt := lt_length_of_getElem? hk
      rw [hstates, List.length_append, List.length_singleton] at hlt
      by_cases hk2 : k < s.w.states.length
      · left
        rw [← hold k hk2]
        exact hk
      · right
        have : k = s.w.states.length := by omega
        subst this
        rw [hnew] at hk
        exact ⟨rfl, (Option.some.inj hk).symm⟩
    refine ⟨?_, c2, l, ?_, hc0, ?_, ?_, ?_⟩
    rotate_right
    · rw [step_stack_lo h, hcur]
      intro k st hk
      rcases hcases k st hk with h1 | ⟨hk2, rfl⟩
      · exact hadr k st h1
      · have hpos := lt_length_of_getElem? hc2
        exact ⟨fun _ => Or.inl rfl, fun _ => hmlow, fun hk0 => by omega⟩
    · intro k st hk
      rcases hcases k st hk with h1 | ⟨-, rfl⟩
      · exact hwf k st h1
      · refine ⟨le_refl _, ?_, fun _ => rfl, ?_, ?_, hm0⟩
        · intro b hb; cases hb
        · intro b hb; cases hb
        · intro hpos
          exact absurd hpos (lt_irrefl _)
    · rw [hcur, hold _ (lt_length_of_getElem? hc2)]
      exact hc2
    · rw [hcur]
      refine Guarded_congr ?_ hg
      intro k hk
      rcases Guarded_lower hg k hk with ⟨x, hx, -⟩
      exact hold k (lt_length_of_getElem? hx)
    · intro k st hkm hk
      rw [hcur] at hkm
      rcases hcases k st hk with h1 | ⟨-, rfl⟩
      · exact hpark k st hkm h1
      · exact Or.inl ⟨rfl, rfl⟩
  | write addr val =>
    rcases step_write_cases h with ⟨c, hc, -, hcur, -, hstates⟩
    rcases hinv with ⟨hwf, c2, l, hc2, hc0, hg, hpark, hadr⟩
    refine ⟨?_, c2, l, ?_, hc0, ?_, ?_, ?_⟩
    · rw [hstates]; exact hwf
    · rw [hstates, hcur]; exact hc2
    · rw [hstates, hcur]; exact hg
    · rw [hstates, hcur]; exact hpark
    · rw [hstates, step_stack_lo h, hcur]; exact hadr
  | switch target stackref =>
    rcases switch_post hinv h with ⟨t, t0, -, -, -, -, -, hinv1, -⟩
    exact hinv1

theorem inv_run {A : Allocator} {ndebug : Bool} (acts : List Action) {s s1 : Sched}
    (hinv : Inv s) (h : Sched.run A ndebug acts s = some s1) : Inv s1 := by
  induction acts generalizing s with
  | nil =>
    simp only [Sched.run, Option.some.injEq] at h
    subst h
    exact hinv
  | cons a as ih =>
    simp only [Sched.run] at h
    cases hs : s.step A ndebug a with
    | none => simp [hs] at h
    | some s2 =>
      simp only [hs] at h
      exact ih (inv_step hinv hs) h

theorem inv_reachable {s : Sched} (h : Reachable s) : Inv s := by
  rcases h with ⟨A, ndebug, stack, lo, acts, hrun⟩
  exact inv_run acts (inv_init stack lo) hrun

/-- What lies off the running greenlet is saved up to its own `stack_stop` or up to
the running greenlet's. -/
theorem inv_clear {s : Sched} (hinv : Inv s) :
    ∃ c, s.w.states[s.current]? = some c ∧ c._stack_start ≠ 0 ∧ c._stack_saved = 0 ∧
      ∀ (h : Nat) (st : StackState), h ≠ s.current → s.w.states[h]? = some st →
        st._stack_start ≠ 0 →
        (st.stack_stop : Int) ≤ (st._stack_start : Int) + st._stack_saved ∨
        (c.stack_stop : Int) ≤ (st._stack_start : Int) + st._stack_saved := by
  rcases hinv with ⟨hwf, c, l, hc, hc0, hg, hpark, hadr⟩
  rcases Guarded_some.mp hg with ⟨c1, l1, hl, hc1, -, -, hact, hg1⟩
  cases hl
  have e : c1 = c := Option.some.inj (hc1.symm.trans hc)
  subst e
  refine ⟨c1, hc, hact, hc0, ?_⟩
  intro h st hne hst hsact
  by_cases hm : h ∈ l
  · right
    rcases Guarded_lower hg1 h hm with ⟨x, hx, -, h2, -⟩
    rw [hst] at hx; cases hx
    exact h2
  · left
    have hm2 : h ∉ s.current :: l := by
      intro hh
      rcases List.mem_cons.mp hh with h1 | h1
      · exact hne h1
      · exact hm h1
    rcases hpark h st hm2 hst with ⟨h0, -⟩ | ⟨-, h1⟩
    · exact absurd h0 hsact
    · exact h1

theorem twoUnsavedSched_reachable : Reachable twoUnsavedSched :=
  ⟨neverFails, false, fun _ => 0, 0, twoUnsavedScenario, rfl⟩

/-- C9 fails as stated: after `twoUnsavedScenario` the greenlet at handle 1 runs, and
the one at handle 2, switched away from with its stack pointer at 15, above the
`stack_stop` 10 of the target, has `_stack_start` non-null and `_stack_saved == 0`
as well: nothing of it had to be saved. -/
theorem two_states_unsaved : ¬ ∀ s, Reachable s → AtMostOneUnsaved s := by
  intro h
  have h2 := h twoUnsavedSched twoUnsavedSched_reachable 2
    { _stack_start := 15, stack_stop := 20, stack_copy := none, _stack_saved := 0,
      stack_prev := some 0 } (by decide) (by decide) rfl
  revert h2
  decide

/-- C9, amended: in every reachable state the running `StackState` has non-null
`_stack_start` and `_stack_saved == 0`, and every other `StackState` with non-null
`_stack_start` is saved up to its own `stack_stop` or up to the running one's; so
another one with `_stack_saved == 0` has its `_stack_start` at or above its own
`stack_stop` or the running one's. -/
theorem unsaved_states_lie_above_current (s : Sched) (hreach : Reachable s) :
    ∃ c, s.w.states[s.current]? = some c ∧ c._stack_start ≠ 0 ∧ c._stack_saved = 0 ∧
      (∀ (h : Nat) (st : StackState), h ≠ s.current → s.w.states[h]? = some st →
        st._stack_start ≠ 0 →
        (st.stack_stop : Int) ≤ (st._stack_start : Int) + st._stack_saved ∨
        (c.stack_stop : Int) ≤ (st._stack_start : Int) + st._stack_saved) ∧
      (∀ (h : Nat) (st : StackState), h ≠ s.current → s.w.states[h]? = some st →
        st._stack_start ≠ 0 → st._stack_saved = 0 →
        st.stack_stop ≤ st._stack_start ∨ c.stack_stop ≤ st._stack_start) := by
  rcases inv_clear (inv_reachable hreach) with ⟨c, hc, hact, hc0, hall⟩
  refine ⟨c, hc, hact, hc0, hall, ?_⟩
  intro h st hne hst hsact h0
  rcases hall h st hne hst hsact with h1 | h1
  · left; omega
  · right; omega

/-- The amended C9 at the thread `twoUnsavedSched`. -/
theorem unsaved_states_lie_above_current_witness :
    Reachable twoUnsavedSched ∧
    ∃ c, twoUnsavedSched.w.states[twoUnsavedSched.current]? = some c ∧
      c._stack_start ≠ 0 ∧ c._stack_saved = 0 ∧
      (∀ (h : Nat) (st : StackState), h ≠ twoUnsavedSched.current →
        twoUnsavedSched.w.states[h]? = some st → st._stack_start ≠ 0 →
        (st.stack_stop : Int) ≤ (st._stack_start : Int) + st._stack_saved ∨
        (c.stack_stop : Int) ≤ (st._stack_start : Int) + st._stack_saved) ∧
      (∀ (h : Nat) (st : StackState), h ≠ twoUnsavedSched.current →
        twoUnsavedSched.w.states[h]? = some st → st._stack_start ≠ 0 →
        st._stack_saved = 0 →
        st.stack_stop ≤ st._stack_start ∨ c.stack_stop ≤ st._stack_start) :=
  ⟨twoUnsavedSched_reachable,
    unsaved_states_lie_above_current twoUnsavedSched twoUnsavedSched_reachable⟩

/-! ### What a suspended greenlet finds when it is resumed -/

theorem Held_stack_change {stack stack1 : Nat → Nat} {st : StackState} {snap : Nat → Nat}
    (hh : Held stack st snap)
    (hsame : ∀ a : Nat, a < st.stack_stop →
      (st._stack_start : Int) + st._stack_saved ≤ (a : Int) → stack1 a = stack a) :
    Held stack1 st snap := by
  intro a h1 h2
  have := hh a h1 h2
  unfold StackState.view at this ⊢
  by_cases hlt : (a : Int) < (st._stack_start : Int) + st._stack_saved
  · rw [if_pos hlt] at this ⊢
    exact this
  · rw [if_neg hlt] at this ⊢
    rw [hsame a h2 (by omega)]
    exact this

/-- The restore of a well-formed state touches nothing at or above its `stack_stop`. -/
theorem restore_stack_above {stack : Nat → Nat} {t0 : StackState} (hwf : WF t0) (a : Nat)
    (ha : t0.stack_stop ≤ a) :
    (if t0._stack_saved = 0 then stack
      else memcpy_to_stack stack t0._stack_start (t0.stack_copy.getD [])
        t0._stack_saved.toNat) a = stack a := by
  by_cases h0 : t0._stack_saved = 0
  · rw [if_pos h0]
  · rw [if_neg h0]
    apply memcpy_to_stack_outside
    have hnn := hwf.saved_nonneg
    have := hwf.saved_le (by omega)
    omega

theorem suspended_after_switch_away {A : Allocator} {ndebug : Bool} {s s1 : Sched}
    {target stackref : Nat} {c : StackState} (hinv : Inv s)
    (hc : s.w.states[s.current]? = some c)
    (hstep : s.step A ndebug (.switch target stackref) = some s1)
    (hne : target ≠ s.current) :
    Suspended s1 s.current stackref c.stack_stop s.w.stack := by
  have hc0 : c._stack_saved = 0 := by
    rcases hinv with ⟨-, c2, -, hc2, h0, -⟩
    rw [hc] at hc2; cases hc2
    exact h0
  rcases step_switch_cases hstep with ⟨hr, -⟩
  rcases switch_post hinv hstep with ⟨t, t0, ht, ht0, hwft0, -, hcur1, -, hstack1, -, hoth, -⟩
  rcases hoth s.current c (Ne.symm hne) hc with ⟨st1, hst1, hgr, hclear⟩
  rw [if_pos rfl] at hgr
  have hstart : st1._stack_start = stackref := hgr.1
  have hstop : st1.stack_stop = c.stack_stop := hgr.2.1
  have ht0stop : t0.stack_stop = t.stack_stop := by
    rw [ht0]; split <;> rfl
  refine ⟨by rw [hcur1]; exact Ne.symm hne, hr, st1, hst1, hstart, hstop, ?_⟩
  have hheld0 : Held s.w.stack { c with _stack_start := stackref } s.w.stack := by
    intro a ha1 _
    have ha1a : stackref ≤ a := ha1
    unfold StackState.view
    have : ¬ ((a : Int) < (stackref : Int) + c._stack_saved) := by
      rw [hc0]; omega
    simp only
    rw [if_neg this]
  have hheld1 : Held s.w.stack st1 s.w.stack := Held_of_Grown hgr hheld0
  refine Held_stack_change hheld1 ?_
  intro a ha1 ha2
  rw [hstack1]
  apply restore_stack_above hwft0
  rw [ht0stop]
  rcases hclear (by rw [hstart]; exact hr) with h1 | h1
  · omega
  · omega

theorem suspended_step {A : Allocator} {ndebug : Bool} {s s1 : Sched} {a : Action}
    {g start stop : Nat} {snap : Nat → Nat} (hinv : Inv s)
    (hsusp : Suspended s g start stop snap) (hstep : s.step A ndebug a = some s1)
    (hnot : ∀ r, a ≠ Action.switch g r) :
    Suspended s1 g start stop snap := by
  rcases hsusp with ⟨hgc, hstart0, st, hst, hstart, hstop, hheld⟩
  cases a with
  | create mark =>
    rcases step_create_cases hstep with ⟨c, hc, -, -, hcur, hstack, hstates⟩
    refine ⟨by rw [hcur]; exact hgc, hstart0, st, ?_, hstart, hstop, by rw [hstack]; exact hheld⟩
    rw [hstates, List.getElem?_append_left (lt_length_of_getElem? hst)]
    exact hst
  | write addr val =>
    rcases step_write_cases hstep with ⟨c, hc, haddr, hcur, hstack, hstates⟩
    refine ⟨by rw [hcur]; exact hgc, hstart0, st, by rw [hstates]; exact hst, hstart, hstop, ?_⟩
    rcases inv_clear hinv with ⟨c2, hc2, -, -, hall⟩
    have e : c2 = c := Option.some.inj (hc2.symm.trans hc)
    subst e
    refine Held_stack_change hheld ?_
    intro a ha1 ha2
    rw [hstack]
    have hne : a ≠ addr := by
      rcases hall g st hgc hst (by rw [hstart]; exact hstart0) with h1 | h1
      · omega
      · omega
    exact Function.update_noteq hne _ _
  | switch target stackref =>
    have hgt : g ≠ target := by
      intro h
      exact hnot stackref (by rw [h])
    rcases switch_post hinv hstep with ⟨t, t0, ht, ht0, hwft0, -, hcur1, -, hstack1, -, hoth, -⟩
    rcases hoth g st hgt hst with ⟨st1, hst1, hgr, hclear⟩
    rw [if_neg hgc] at hgr
    have ht0stop : t0.stack_stop = t.stack_stop := by
      rw [ht0]; split <;> rfl
    refine ⟨by rw [hcur1]; exact hgt, hstart0, st1, hst1, by rw [hgr.1]; exact hstart,
      by rw [hgr.2.1]; exact hstop, ?_⟩
    refine Held_stack_change (Held_of_Grown hgr hheld) ?_
    intro a ha1 ha2
    rw [hstack1]
    apply restore_stack_above hwft0
    rw [ht0stop]
    rcases hclear (by rw [hgr.1, hstart]; exact hstart0) with h1 | h1
    · omega
    · omega

theorem suspended_run {A : Allocator} {ndebug : Bool} (acts : List Action) {s s1 : Sched}
    {g start stop : Nat} {snap : Nat → Nat} (hinv : Inv s)
    (hsusp : Suspended s g start stop snap) (hrun : Sched.run A ndebug acts s = some s1)
    (hnot : ∀ r, Action.switch g r ∉ acts) :
    Inv s1 ∧ Suspended s1 g start stop snap := by
  induction acts generalizing s with
  | nil =>
    simp only [Sched.run, Option.some.injEq] at hrun
    subst hrun
    exact ⟨hinv, hsusp⟩
  | cons a as ih =>
    simp only [Sched.run] at hrun
    cases hs : s.step A ndebug a with
    | none => simp [hs] at hrun
    | some s2 =>
      simp only [hs] at hrun
      refine ih (inv_step hinv hs) (suspended_step hinv hsusp hs ?_) hrun ?_
      · intro r hr
        exact hnot r (by rw [hr]; exact List.mem_cons_self _ _)
      · intro r hr
        exact hnot r (List.mem_cons_of_mem _ hr)

theorem resumed_finds_snapshot {A : Allocator} {ndebug : Bool} {s s1 : Sched}
    {g start stop stackref : Nat} {snap : Nat → Nat} (hinv : Inv s)
    (hsusp : Suspended s g start stop snap)
    (hstep : s.step A ndebug (.switch g stackref) = some s1) :
    s1.current = g ∧
    ∃ st1, s1.w.states[g]? = some st1 ∧ st1._stack_start = start ∧ st1.stack_stop = stop ∧
      ∀ a, start ≤ a → a < stop → s1.w.stack a = snap a := by
  rcases hsusp with ⟨hgc, hstart0, st, hst, hstart, hstop, hheld⟩
  rcases switch_post hinv hstep with ⟨t, t0, ht, ht0, hwft0, -, hcur1, -, hstack1, ⟨t2, ht2, e1, e2⟩, -, -⟩
  have e : t = st := Option.some.inj (ht.symm.trans hst)
  subst e
  rw [if_neg hgc] at ht0
  subst ht0
  refine ⟨hcur1, t2, ht2, ?_, by rw [e1]; exact hstop, ?_⟩
  · rw [e2, if_neg (by rw [hstart]; exact hstart0)]
    exact hstart
  · intro a ha1 ha2
    have hv := hheld a (by rw [hstart]; exact ha1) (by rw [hstop]; exact ha2)
    unfold StackState.view at hv
    rw [hstack1]
    have hnn := hwft0.saved_nonneg
    by_cases hlt : (a : Int) < (t0._stack_start : Int) + t0._stack_saved
    · rw [if_pos hlt] at hv
      have h0 : t0._stack_saved ≠ 0 := by omega
      rw [if_neg h0]
      cases hb : t0.stack_copy with
      | none => simp [hb] at hv
      | some b =>
        simp only [hb] at hv
        have hlen := hwft0.copy_len b hb
        have hin := memcpy_to_stack_inside s.w.stack t0._stack_start b t0._stack_saved.toNat a
          (by omega) (by omega) (by omega)
        rw [hv] at hin
        simp only [Option.getD_some]
        exact (Option.some.inj hin).symm
    · rw [if_neg hlt] at hv
      have : (if t0._stack_saved = 0 then s.w.stack
          else memcpy_to_stack s.w.stack t0._stack_start (t0.stack_copy.getD [])
            t0._stack_saved.toNat) a = s.w.stack a := by
        by_cases h0 : t0._stack_saved = 0
        · rw [if_pos h0]
        · rw [if_neg h0]
          apply memcpy_to_stack_outside
          omega
      rw [this]
      exact Option.some.inj hv

/-! ### Every switch comes back when the allocator does not fail -/

theorem Guarded_functional {S : List StackState} {lo lo1 : Nat} {o : Option Nat}
    {l l1 : List Nat} (h : Guarded S lo o l) (h1 : Guarded S lo1 o l1) : l = l1 :=
  IsChain_functional (Guarded_isChain h) (Guarded_isChain h1)

theorem rooted_init (stack : Nat → Nat) (lo : Nat) :
    Rooted { Sched.init stack with stack_lo := lo } := by
  constructor
  · intro h st hst
    have hh : h = 0 := by
      have := lt_length_of_getElem? hst
      simp [Sched.init] at this
      exact this
    subst hh
    have e : st = StackState.make_main := (Option.some.inj hst).symm
    subst e
    exact le_refl _
  · intro l hl
    rcases Guarded_some.mp hl with ⟨c, l1, hl1, hc, -⟩
    subst hl1
    have e : c = StackState.make_main := (Option.some.inj hc).symm
    subst e
    exact ⟨0, List.mem_cons_self _ _, StackState.make_main, rfl, rfl⟩

theorem SameLinks_length {S S1 : List StackState} (h : SameLinks S S1) :
    S1.length = S.length := by
  by_contra hne
  rcases Nat.lt_or_gt_of_ne hne with hlt | hlt
  · have h0 := h S1.length
    rw [List.getElem?_eq_none_iff.mpr (le_refl _), List.getElem?_eq_getElem hlt] at h0
    simp at h0
  · have h0 := h S.length
    rw [List.getElem?_eq_none_iff.mpr (le_refl _), List.getElem?_eq_getElem hlt] at h0
    simp at h0

theorem step_switch_length {A : Allocator} {ndebug : Bool} {s s1 : Sched}
    {target stackref : Nat} (h : s.step A ndebug (.switch target stackref) = some s1) :
    s1.w.states.length = s.w.states.length := by
  rcases step_switch_cases h with ⟨-, w1, w2, hsave, hrest, henter⟩
  rcases enter_cases henter with ⟨u, -, -, -, hst2⟩
  rcases copy_heap_to_stack_spec hrest with ⟨-, -, -, -, -, -, -, -, hl2, -⟩
  have hl1 := SameLinks_length (copy_stack_to_heap_links hsave).1
  rw [hst2]
  split
  · rw [List.length_set, hl2, hl1]
  · rw [hl2, hl1]

theorem rooted_step {A : Allocator} {ndebug : Bool} {s s1 : Sched} {a : Action} (hinv : Inv s)
    (hroot : Rooted s) (h : s.step A ndebug a = some s1) : Rooted s1 := by
  rcases hroot with ⟨hmax, hmain⟩
  cases a with
  | create mark =>
    rcases step_create_cases h with ⟨c, hc, hm0, hm1, hcur, -, hstates⟩
    rcases hinv with ⟨-, c2, l, hc2, -, hg, -⟩
    have hold : ∀ k : Nat, k < s.w.states.length → s1.w.states[k]? = s.w.states[k]? := by
      intro k hk
      rw [hstates]
      exact List.getElem?_append_left hk
    constructor
    · intro k st hk
      have hlt := lt_length_of_getElem? hk
      rw [hstates, List.length_append, List.length_singleton] at hlt
      by_cases hk2 : k < s.w.states.length
      · rw [hold k hk2] at hk
        exact hmax k st hk
      · have : k = s.w.states.length := by omega
        subst this
        rw [hstates, List.getElem?_concat_length] at hk
        have e : st = StackState.init_mark mark s.current c := (Option.some.inj hk).symm
        subst e
        have := hmax _ c hc
        show mark ≤ CHAR_PTR_MINUS_ONE
        omega
    · intro l1 hl1
      have hg1 : Guarded s1.w.states 0 (some s.current) (s.current :: l) := by
        refine Guarded_congr ?_ hg
        intro k hk
        rcases Guarded_lower hg k hk with ⟨x, hx, -⟩
        exact hold k (lt_length_of_getElem? hx)
      rw [hcur] at hl1
      have e := Guarded_functional hl1 hg1
      subst e
      rcases hmain _ hg with ⟨m, hm, st, hst, hstop⟩
      exact ⟨m, hm, st, by rw [hold m (lt_length_of_getElem? hst)]; exact hst, hstop⟩
  | write addr val =>
    rcases step_write_cases h with ⟨c, hc, -, hcur, -, hstates⟩
    constructor
    · rw [hstates]; exact hmax
    · rw [hstates, hcur]; exact hmain
  | switch target stackref =>
    rcases switch_post hinv h with
      ⟨t, t0, ht, -, -, -, hcur1, -, -, ⟨t2, ht2, e1, -⟩, hoth, l, l2, hg, hgnew, hdrop⟩
    have hstops : ∀ (k : Nat) (st : StackState), s.w.states[k]? = some st →
        ∃ st1, s1.w.states[k]? = some st1 ∧ st1.stack_stop = st.stack_stop := by
      intro k st hk
      by_cases hkt : k = target
      · subst hkt
        have e : t = st := Option.some.inj (ht.symm.trans hk)
        subst e
        exact ⟨t2, ht2, e1⟩
      · rcases hoth k st hkt hk with ⟨st1, hst1, hgr, -⟩
        refine ⟨st1, hst1, ?_⟩
        rw [hgr.2.1]
        split <;> rfl
    have hlen : ∀ (k : Nat) (x : StackState), s1.w.states[k]? = some x →
        ∃ st, s.w.states[k]? = some st := by
      intro k x hx
      have hlt := lt_length_of_getElem? hx
      rw [step_switch_length h] at hlt
      exact ⟨_, List.getElem?_eq_getElem hlt⟩
    constructor
    · intro k x hx
      rcases hlen k x hx with ⟨st, hst⟩
      rcases hstops k st hst with ⟨st1, hst1, e⟩
      have e2 : st1 = x := Option.some.inj (hst1.symm.trans hx)
      subst e2
      rw [e]
      exact hmax k st hst
    · intro l1 hl1
      rw [hcur1] at hl1
      have e := Guarded_functional hl1 hgnew
      subst e
      rcases hmain _ hg with ⟨m, hm, st, hst, hstop⟩
      by_cases hm2 : m ∈ target :: l2
      · rcases hstops m st hst with ⟨st1, hst1, e⟩
        exact ⟨m, hm2, st1, hst1, by rw [e]; exact hstop⟩
      · have hle := hdrop m hm hm2 st hst
        have hmaxt := hmax target t ht
        exact ⟨target, List.mem_cons_self _ _, t2, ht2, by rw [e1]; omega⟩

theorem rooted_run {A : Allocator} {ndebug : Bool} (acts : List Action) {s s1 : Sched}
    (hinv : Inv s) (hroot : Rooted s) (h : Sched.run A ndebug acts s = some s1) : Rooted s1 := by
  induction acts generalizing s with
  | nil =>
    simp only [Sched.run, Option.some.injEq] at h
    subst h
    exact hroot
  | cons a as ih =>
    simp only [Sched.run] at h
    cases hs : s.step A ndebug a with
    | none => simp [hs] at h
    | some s2 =>
      simp only [hs] at h
      exact ih (inv_step hinv hs) (rooted_step hinv hroot hs) h

theorem rooted_reachable {s : Sched} (h : Reachable s) : Rooted s := by
  rcases h with ⟨A, ndebug, stack, lo, acts, hrun⟩
  exact rooted_run acts (inv_init stack lo) (rooted_init stack lo) hrun

theorem copy_stack_to_heap_up_to_returns {A : Allocator} (ndebug : Bool) (w : Thread)
    (o stop : Nat) {s : StackState} (hA : ∀ k, A.fails k = false)
    (hs : w.states[o]? = some s) (hact : s._stack_start ≠ 0) (hnn : 0 ≤ s._stack_saved) :
    ∃ w1, StackState.copy_stack_to_heap_up_to A ndebug w o stop = .ok (0, w1) := by
  unfold StackState.copy_stack_to_heap_up_to
  have ha : ¬ (ndebug = false ∧ s._stack_start = 0) := fun h => hact h.2
  simp only [hs, ha, if_false]
  by_cases hgt : intptr_t ((stop : Int) - (s._stack_start : Int)) > s._stack_saved
  · simp only [hgt, if_true]
    have hre : ∃ c, PyMem_Realloc A w.nrealloc s.stack_copy
        (intptr_t ((stop : Int) - (s._stack_start : Int))) = some c := by
      unfold PyMem_Realloc
      have : ¬ (intptr_t ((stop : Int) - (s._stack_start : Int)) < 0 ∨ A.fails w.nrealloc = true) := by
        rw [hA]
        simp only [Bool.false_eq_true, or_false, not_lt]
        exact le_of_lt (lt_of_le_of_lt hnn hgt)
      rw [if_neg this]
      exact ⟨_, rfl⟩
    rcases hre with ⟨c, hc⟩
    have hneg : ¬ s._stack_saved < 0 := by omega
    simp only [hc, hneg, if_false]
    exact ⟨_, rfl⟩
  · simp only [hgt, if_false]
    exact ⟨_, rfl⟩

theorem save_loop_returns {A : Allocator} {ndebug : Bool} {this target : Nat}
    (hA : ∀ k, A.fails k = false) (base : Nat)
    (htgt : (this ≠ 0 → StackAddress base target) ∧ (this = 0 → target = CHAR_PTR_MINUS_ONE))
    (l : List Nat) :
    ∀ (fuel : Nat) (w : Thread) (lo : Nat) (owner : Option Nat),
      (∀ (h : Nat) (st : StackState), w.states[h]? = some st → WF st) →
      Low base none w.states → (∀ t, w.states[this]? = some t → t.stack_stop = target) →
      Guarded w.states lo owner l →
      (∃ h ∈ l, ∃ st, w.states[h]? = some st ∧ target ≤ st.stack_stop) →
      l.length < fuel →
      ∃ w2, StackState.save_loop A ndebug this target fuel w owner = .ok (0, w2) := by
  induction l with
  | nil =>
    intro fuel w lo owner _ _ _ _ hex _
    rcases hex with ⟨h, hm, -⟩
    cases hm
  | cons o l1 ih =>
    intro fuel w lo owner hwf hadr hthis hg hex hfuel
    cases owner with
    | none => simp [Guarded] at hg
    | some o2 =>
      rcases Guarded_some.mp hg with ⟨os, l2, hl, hos, hlo1, hlo2, hact, hg1⟩
      cases hl
      cases fuel with
      | zero => simp at hfuel
      | succ n =>
        simp only [StackState.save_loop, hos]
        have honot : o ∉ l1 := by
          intro hm
          rcases Guarded_lower hg1 o hm with ⟨x, hx, h1, -⟩
          rw [hos] at hx; cases hx
          omega
        by_cases hlt : os.stack_stop < target
        · simp only [hlt, if_true]
          rcases copy_stack_to_heap_up_to_returns ndebug w o
            os.stack_stop hA hos hact (hwf o os hos).saved_nonneg with ⟨w1, hcall⟩
          have hfit := save_loop_fits_own hadr htgt hos hact hlt
          rcases copy_stack_to_heap_up_to_grown hcall hos (hwf o os hos) (le_refl _) hfit with
            ⟨-, -, hoth1, os1, hos1, hgr1, hwf1, -⟩
          simp only [hcall, ne_eq, not_true_eq_false, if_false, hos1]
          refine ih n w1 os.stack_stop os1.stack_prev ?_ ?low ?tgt ?_ ?_ (by simp at hfuel; omega)
          case low =>
            intro k st hk
            by_cases hko : k = o
            · subst hko
              rw [hos1] at hk; cases hk
              rw [hgr1.1, hgr1.2.1]
              exact hadr k os hos
            · rw [hoth1 k hko] at hk
              exact hadr k st hk
          case tgt =>
            intro t ht
            by_cases hto : this = o
            · subst hto
              rw [hos1] at ht; cases ht
              rw [hgr1.2.1]
              exact hthis os hos
            · rw [hoth1 this hto] at ht
              exact hthis t ht
          · intro k st hk
            by_cases hko : k = o
            · subst hko
              rw [hos1] at hk; cases hk
              exact hwf1
            · rw [hoth1 k hko] at hk
              exact hwf k st hk
          · rw [hgr1.2.2.1]
            refine Guarded_congr ?_ hg1
            intro k hk
            exact hoth1 k (fun hko => honot (hko ▸ hk))
          · rcases hex with ⟨h, hm, st, hst, hle⟩
            rcases List.mem_cons.mp hm with rfl | hm1
            · rw [hos] at hst; cases hst
              omega
            · refine ⟨h, hm1, st, ?_, hle⟩
              rw [hoth1 h (fun hko => honot (hko ▸ hm1))]
              exact hst
        · simp only [hlt, if_false]
          by_cases hot : o = this
          · simp only [hot, ne_eq, not_true_eq_false, if_false]
            exact ⟨_, rfl⟩
          · rcases copy_stack_to_heap_up_to_returns ndebug w o
              target hA hos hact (hwf o os hos).saved_nonneg with ⟨w1, hcall⟩
            simp only [ne_eq, hot, not_false_eq_true, if_true, hcall, not_true_eq_false,
              if_false]
            exact ⟨_, rfl⟩

theorem enter_returns (ndebug : Bool) (w2 : Thread) (target lo : Nat) {t2 : StackState}
    (ht2 : w2.states[target]? = some t2) :
    ∃ s1, Sched.enter ndebug w2 target lo = some s1 := by
  unfold Sched.enter
  simp only [ht2]
  by_cases hz : t2._stack_start = 0
  · have hsa : t2.set_active ndebug = .ok { t2 with _stack_start := 1 } := by
      unfold StackState.set_active
      simp [hz]
    simp only [hz, if_true, hsa]
    exact ⟨_, rfl⟩
  · simp only [hz, if_false]
    exact ⟨_, rfl⟩

/-- In a thread that satisfies the invariants, a switch to any `StackState` of the
thread, made with a stack pointer that is not null and is an address of the thread's
stack, is carried out in full when the allocator does not fail:
`copy_stack_to_heap` returns 0 and `copy_heap_to_stack` returns. -/
theorem switch_progress {s : Sched} (hinv : Inv s) (hroot : Rooted s) (A : Allocator)
    (hA : ∀ k, A.fails k = false) (ndebug : Bool) (target stackref : Nat)
    (hT : target < s.w.states.length) (hr : stackref ≠ 0)
    (hrlow : StackAddress s.stack_lo stackref) :
    ∃ s1, s.step A ndebug (.switch target stackref) = some s1 := by
  rcases hinv with ⟨hwf, c, l, hc, hc0, hg, hpark, hadr⟩
  have ht : s.w.states[target]? = some s.w.states[target] := List.getElem?_eq_getElem hT
  obtain ⟨t, htdef⟩ : ∃ t, t = s.w.states[target] := ⟨_, rfl⟩
  rw [← htdef] at ht
  rcases Guarded_lower hg s.current (List.mem_cons_self _ _) with ⟨c3, hc3, -, -, hcact⟩
  have e3 : c3 = c := Option.some.inj (hc3.symm.trans hc)
  subst e3
  rcases inv_stackref hwf hc hc0 hg hr with ⟨hnot, hself, hne, hwf0, hg0⟩
  obtain ⟨S0, hS0⟩ : ∃ S0, S0 = s.w.states.set s.current { c3 with _stack_start := stackref } :=
    ⟨_, rfl⟩
  rw [← hS0] at hself hne hwf0 hg0
  have hlen0 : S0.length = s.w.states.length := by rw [hS0]; simp
  have hget0 : ∀ (g : Nat) (st : StackState), s.w.states[g]? = some st →
      S0[g]? = some (if g = s.current then { st with _stack_start := stackref } else st) := by
    intro g st hst
    by_cases hgc : g = s.current
    · subst hgc
      rw [hc] at hst; cases hst
      simp only [if_true]
      exact hself
    · rw [hne g hgc, if_neg hgc]
      exact hst
  have hadr0 : Low s.stack_lo none S0 := by
    intro g x hx
    by_cases hgc : g = s.current
    · subst hgc
      rw [hself] at hx; cases hx
      exact ⟨fun _ => Or.inr hrlow, (hadr _ c3 hc).2⟩
    · rw [hne g hgc] at hx
      exact ⟨fun _ => (hadr g x hx).1 (fun e => hgc (Option.some.inj e)), (hadr g x hx).2⟩
  have hthis00 : ∀ x, S0[target]? = some x → x.stack_stop = t.stack_stop := by
    intro x hx
    rw [hget0 target t ht] at hx
    cases hx
    split <;> rfl
  -- the evacuation returns 0
  have hloop : ∃ w1, StackState.save_loop A ndebug target t.stack_stop (s.w.states.length + 1)
      { s.w with states := S0 } (some s.current) = .ok (0, w1) := by
    refine save_loop_returns hA s.stack_lo (hadr target t ht).2 (s.current :: l) _
      { s.w with states := S0 } 0 _ hwf0 hadr0 hthis00 hg0 ?_ ?_
    · rcases hroot.2 _ hg with ⟨m, hm, st, hst, hstop⟩
      refine ⟨m, hm, _, hget0 m st hst, ?_⟩
      have := hroot.1 target t ht
      have e : (if m = s.current then ({ st with _stack_start := stackref } : StackState)
          else st).stack_stop = st.stack_stop := by
        split <;> rfl
      rw [e, hstop]
      exact this
    · have := IsChain_length_le (Guarded_isChain hg)
      omega
  rcases hloop with ⟨w1, hloop⟩
  have hsave : StackState.copy_stack_to_heap A ndebug s.w target stackref s.current =
      .ok (0, w1) := by
    unfold StackState.copy_stack_to_heap
    have ha : ¬ (ndebug = false ∧ c3._stack_saved ≠ 0) := fun h => h.2 hc0
    simp only [ht, hc, ha, if_false, hcact]
    rw [← hS0]
    exact hloop
  -- what the evacuation leaves
  obtain ⟨t0, ht0def⟩ : ∃ t0, t0 = (if target = s.current then
      { t with _stack_start := stackref } else t) := ⟨_, rfl⟩
  have ht0 : S0[target]? = some t0 := by rw [ht0def]; exact hget0 target t ht
  have hthis0 : ∀ x, S0[target]? = some x → x.stack_stop = t.stack_stop := by
    intro x hx
    rw [ht0] at hx; cases hx
    rw [ht0def]; split <;> rfl
  rcases save_loop_saved _ { s.w with states := S0 } w1 _ _ 0 hwf0 hg0 hthis0 _ hadr0
      (hadr target t ht).2 hloop with
    ⟨-, -, hall1⟩
  have hall1a : ∀ (h : Nat) (st : StackState), S0[h]? = some st →
      ∃ st2, w1.states[h]? = some st2 ∧ Grown s.w.stack st st2 ∧ WF st2 ∧
        (h ∉ s.current :: l → st2 = st) ∧ (h = target → st2 = st) ∧
        (h ∈ s.current :: l → h ≠ target →
          (st.stack_stop : Int) ≤ (st._stack_start : Int) + st2._stack_saved ∨
          (t.stack_stop : Int) ≤ (st._stack_start : Int) + st2._stack_saved) := hall1
  clear hall1
  have ht1 : w1.states[target]? = some t0 := by
    rcases hall1a target t0 ht0 with ⟨st2, hst2, -, -, -, hsame, -⟩
    rw [hsame rfl] at hst2
    exact hst2
  have hwft0 : WF t0 := by
    rcases hall1a target t0 ht0 with ⟨st2, hst2, -, hw, -, hsame, -⟩
    rw [hsame rfl] at hw
    exact hw
  have hg1 : Guarded w1.states 0 (some s.current) (s.current :: l) := by
    refine Guarded_mono ?_ hg0
    intro k _ st hk
    rcases hall1a k st hk with ⟨st2, hst2, hgr, -⟩
    exact ⟨st2, hst2, hgr.1, hgr.2.1, hgr.2.2.1, hgr.2.2.2.1⟩
  have hstart0 : t0._stack_saved ≠ 0 → t0._stack_start ≠ 0 := by
    intro hsv
    by_cases htc : target = s.current
    · rw [ht0def, if_pos htc] at hsv
      subst htc
      have e : t = c3 := Option.some.inj (ht.symm.trans hc)
      subst e
      exact absurd hc0 hsv
    · rw [ht0def, if_neg htc] at hsv ⊢
      by_cases hm : target ∈ s.current :: l
      · rcases Guarded_lower hg target hm with ⟨x, hx, -, -, hxact⟩
        have e : x = t := Option.some.inj (hx.symm.trans ht)
        subst e
        exact hxact
      · rcases hpark target t hm ht with ⟨-, h0⟩ | ⟨h1, -⟩
        · exact absurd h0 hsv
        · exact h1
  -- the restore returns
  have hres : ∃ w1r, StackState.restore_heap_copy w1 target = .ok w1r := by
    unfold StackState.restore_heap_copy
    simp only [ht1]
    by_cases h0 : t0._stack_saved = 0
    · simp only [h0, ne_eq, not_true_eq_false, if_false]
      exact ⟨_, rfl⟩
    · simp only [ne_eq, h0, not_false_eq_true, if_true]
      cases hb : t0.stack_copy with
      | none => exact absurd (hwft0.copy_none hb) h0
      | some b =>
        have hlen := hwft0.copy_len b hb
        have hnn := hwft0.saved_nonneg
        have hbound : ¬ (t0._stack_saved < 0 ∨ (b.length : Int) < t0._stack_saved) := by omega
        simp only [hstart0 h0, if_false, hbound]
        exact ⟨_, rfl⟩
  rcases hres with ⟨w1r, hres⟩
  rcases Guarded_lower hg1 s.current (List.mem_cons_self _ _) with ⟨c1, hc1, -⟩
  rcases copy_heap_to_stack_returns hres hc1 (Guarded_isChain hg1) with ⟨w2, hrest⟩
  rcases copy_heap_to_stack_spec hrest with ⟨-, -, t2, -, -, ht2, -⟩
  rcases enter_returns ndebug w2 target s.stack_lo ht2 with ⟨s1, henter⟩
  refine ⟨s1, ?_⟩
  have hguard : ¬ (stackref = 0 ∨ ¬ StackAddress s.stack_lo stackref) := by
    intro h
    rcases h with h | h
    · exact hr h
    · exact h hrlow
  simp only [Sched.step, hguard, if_false, hsave, ne_eq, not_true_eq_false, hrest]
  exact henter

/-- In every reachable state of a thread, a switch to any of its `StackState`s
with a non-null stack pointer that is a stack address is a step of the thread
whenever the allocator does not fail. -/
theorem reachable_switch_progress {s : Sched} (hreach : Reachable s) (A : Allocator)
    (hA : ∀ k, A.fails k = false) (ndebug : Bool) (target stackref : Nat)
    (hT : target < s.w.states.length) (hr : stackref ≠ 0)
    (hrlow : StackAddress s.stack_lo stackref) :
    ∃ s1, s.step A ndebug (.switch target stackref) = some s1 :=
  switch_progress (inv_reachable hreach) (rooted_reachable hreach) A hA ndebug target stackref
    hT hr hrlow

/-! ### The bound on the loops loses no run that ends -/

theorem nodup_length_le {l : List Nat} {n : Nat} (hn : l.Nodup) (hlt : ∀ v ∈ l, v < n) :
    l.length ≤ n := by
  have hsub : l ⊆ List.range n := fun v hv => List.mem_range.mpr (hlt v hv)
  have := (List.subperm_of_subset hn hsub).length_le
  simpa using this

/-- On a cycle of states none of which has more stack than `stop`, the walk of
`copy_heap_to_stack` goes on for ever. -/
theorem find_more_stack_cycle (S : List StackState) (stop : Nat) (cyc : List Nat)
    (hcyc : ∀ v ∈ cyc, ∃ s, S[v]? = some s ∧ s.stack_stop ≤ stop ∧
      ∃ v1 ∈ cyc, s.stack_prev = some v1) :
    ∀ (n : Nat), ∀ v ∈ cyc, StackState.find_more_stack S stop n (some v) = .error .no_return := by
  intro n
  induction n with
  | zero => intro v _; rfl
  | succ m ih =>
    intro v hv
    rcases hcyc v hv with ⟨s, hs, hle, v1, hv1, hp⟩
    simp only [StackState.find_more_stack, hs, hle, if_true, hp]
    exact ih v1 hv1

theorem find_more_stack_fuel_aux (S : List StackState) (stop : Nat) :
    ∀ (n : Nat) (vis : List Nat) (owner : Option Nat), vis.Nodup →
      (∀ v ∈ vis, ∃ s, S[v]? = some s ∧ s.stack_stop ≤ stop ∧
        (s.stack_prev = owner ∨ ∃ v1 ∈ vis, s.stack_prev = some v1)) →
      StackState.find_more_stack S stop n owner ≠ .error .no_return →
      StackState.find_more_stack S stop (S.length + 1 - vis.length) owner =
        StackState.find_more_stack S stop n owner := by
  intro n
  induction n with
  | zero =>
    intro vis owner _ _ h
    exact absurd rfl h
  | succ m ih =>
    intro vis owner hnd hvis h
    have hlen : vis.length ≤ S.length :=
      nodup_length_le hnd (fun v hv => by
        rcases hvis v hv with ⟨s, hs, -⟩
        exact lt_length_of_getElem? hs)
    obtain ⟨k, hk⟩ : ∃ k, S.length + 1 - vis.length = k + 1 := ⟨S.length - vis.length, by omega⟩
    rw [hk]
    cases owner with
    | none => rfl
    | some o =>
      simp only [StackState.find_more_stack]
      cases hos : S[o]? with
      | none => rfl
      | some os =>
        simp only
        by_cases hle : os.stack_stop ≤ stop
        · simp only [hle, if_true]
          by_cases hov : o ∈ vis
          · exfalso
            apply h
            refine find_more_stack_cycle S stop vis ?_ (m + 1) o hov
            intro v hv
            rcases hvis v hv with ⟨s, hs, hsle, hp | ⟨v1, hv1, hp⟩⟩
            · exact ⟨s, hs, hsle, o, hov, hp⟩
            · exact ⟨s, hs, hsle, v1, hv1, hp⟩
          · have hnd1 : (o :: vis).Nodup := List.nodup_cons.mpr ⟨hov, hnd⟩
            have hlen1 : (o :: vis).length ≤ S.length :=
              nodup_length_le hnd1 (fun v hv => by
                rcases List.mem_cons.mp hv with rfl | hv1
                · exact lt_length_of_getElem? hos
                · rcases hvis v hv1 with ⟨s, hs, -⟩
                  exact lt_length_of_getElem? hs)
            have h1 : StackState.find_more_stack S stop m os.stack_prev ≠ .error .no_return := by
              intro hcon
              apply h
              simp only [StackState.find_more_stack, hos, hle, if_true]
              exact hcon
            have := ih (o :: vis) os.stack_prev hnd1 ?_ h1
            · have hk2 : S.length + 1 - (o :: vis).length = k := by
                simp only [List.length_cons] at hlen1 ⊢
                omega
              rw [hk2] at this
              exact this
            · intro v hv
              rcases List.mem_cons.mp hv with rfl | hv1
              · exact ⟨os, hos, hle, Or.inl rfl⟩
              · rcases hvis v hv1 with ⟨s, hs, hsle, hp | ⟨v1, hv1a, hp⟩⟩
                · exact ⟨s, hs, hsle, Or.inr ⟨o, List.mem_cons_self _ _, hp⟩⟩
                · exact ⟨s, hs, hsle, Or.inr ⟨v1, List.mem_cons_of_mem _ hv1a, hp⟩⟩
        · simp only [hle, if_false]

/-- The walk of `copy_heap_to_stack`, when it ends at all, ends within as many
iterations as there are `StackState`s, so that running it for one more than that
gives what any longer run gives. -/
theorem find_more_stack_fuel (S : List StackState) (stop n : Nat) (owner : Option Nat)
    (h : StackState.find_more_stack S stop n owner ≠ .error .no_return) :
    StackState.find_more_stack S stop (S.length + 1) owner =
      StackState.find_more_stack S stop n owner := by
  have := find_more_stack_fuel_aux S stop n [] owner List.nodup_nil
    (by intro v hv; cases hv) h
  simpa using this

/-- On a cycle of states below the target's `stack_stop` that are all saved in
full, the loop of `copy_stack_to_heap` goes on for ever. -/
theorem save_loop_cycle {A : Allocator} {ndebug : Bool} {this target : Nat} (w : Thread)
    (cyc : List Nat)
    (hcyc : ∀ v ∈ cyc, ∃ s, w.states[v]? = some s ∧ s.stack_stop < target ∧
      ¬ (ndebug = false ∧ s._stack_start = 0) ∧
      ¬ (intptr_t ((s.stack_stop : Int) - (s._stack_start : Int)) > s._stack_saved) ∧
      ∃ v1 ∈ cyc, s.stack_prev = some v1) :
    ∀ (n : Nat), ∀ v ∈ cyc,
      StackState.save_loop A ndebug this target n w (some v) = .error .no_return := by
  intro n
  induction n with
  | zero => intro v _; rfl
  | succ m ih =>
    intro v hv
    rcases hcyc v hv with ⟨s, hs, hlt, ha, hno, v1, hv1, hp⟩
    have hcall : StackState.copy_stack_to_heap_up_to A ndebug w v s.stack_stop = .ok (0, w) := by
      unfold StackState.copy_stack_to_heap_up_to
      simp only [hs, ha, if_false, hno]
    simp only [StackState.save_loop, hs, hlt, if_true, hcall, ne_eq, not_true_eq_false,
      if_false, hp]
    exact ih v1 hv1

theorem save_loop_fuel_aux {A : Allocator} {ndebug : Bool} {this target : Nat} :
    ∀ (n : Nat) (vis : List Nat) (w : Thread) (owner : Option Nat), vis.Nodup →
      (∀ v ∈ vis, ∃ s, w.states[v]? = some s ∧ s.stack_stop < target ∧
        ¬ (ndebug = false ∧ s._stack_start = 0) ∧
        ¬ (intptr_t ((s.stack_stop : Int) - (s._stack_start : Int)) > s._stack_saved) ∧
        (s.stack_prev = owner ∨ ∃ v1 ∈ vis, s.stack_prev = some v1)) →
      StackState.save_loop A ndebug this target n w owner ≠ .error .no_return →
      StackState.save_loop A ndebug this target (w.states.length + 1 - vis.length) w owner =
        StackState.save_loop A ndebug this target n w owner := by
  intro n
  induction n with
  | zero =>
    intro vis w owner _ _ h
    exact absurd rfl h
  | succ m ih =>
    intro vis w owner hnd hvis h
    have hlen : vis.length ≤ w.states.length :=
      nodup_length_le hnd (fun v hv => by
        rcases hvis v hv with ⟨s, hs, -⟩
        exact lt_length_of_getElem? hs)
    obtain ⟨k, hk⟩ : ∃ k, w.states.length + 1 - vis.length = k + 1 :=
      ⟨w.states.length - vis.length, by omega⟩
    rw [hk]
    cases owner with
    | none => rfl
    | some o =>
      simp only [StackState.save_loop]
      cases hos : w.states[o]? with
      | none => rfl
      | some os =>
        simp only
        by_cases hlt : os.stack_stop < target
        · simp only [hlt, if_true]
          by_cases hov : o ∈ vis
          · exfalso
            apply h
            refine save_loop_cycle w vis ?_ (m + 1) o hov
            intro v hv
            rcases hvis v hv with ⟨s, hs, h1, h2, h3, hp | ⟨v1, hv1, hp⟩⟩
            · exact ⟨s, hs, h1, h2, h3, o, hov, hp⟩
            · exact ⟨s, hs, h1, h2, h3, v1, hv1, hp⟩
          · cases hcall : StackState.copy_stack_to_heap_up_to A ndebug w o os.stack_stop with
            | error e => rfl
            | ok p =>
              obtain ⟨r, w1⟩ := p
              simp only
              by_cases hr : r = 0
              · subst hr
                simp only [ne_eq, not_true_eq_false, if_false]
                cases hos1 : w1.states[o]? with
                | none => rfl
                | some os1 =>
                  simp only
                  rcases copy_stack_to_heap_up_to_frame hcall with ⟨-, -, hlen1, -, -, -, hfr⟩
                  have hnd1 : (o :: vis).Nodup := List.nodup_cons.mpr ⟨hov, hnd⟩
                  have hlenv : (o :: vis).length ≤ w.states.length :=
                    nodup_length_le hnd1 (fun v hv => by
                      rcases List.mem_cons.mp hv with rfl | hv1
                      · exact lt_length_of_getElem? hos
                      · rcases hvis v hv1 with ⟨s, hs, -⟩
                        exact lt_length_of_getElem? hs)
                  have h1 : StackState.save_loop A ndebug this target m w1 os1.stack_prev ≠
                      .error .no_return := by
                    intro hcon
                    apply h
                    simp only [StackState.save_loop, hos, hlt, if_true, hcall, ne_eq,
                      not_true_eq_false, if_false, hos1]
                    exact hcon
                  have := ih (o :: vis) w1 os1.stack_prev hnd1 ?_ h1
                  · have hk2 : w1.states.length + 1 - (o :: vis).length = k := by
                      simp only [List.length_cons] at hlenv ⊢
                      omega
                    rw [hk2] at this
                    exact this
                  · intro v hv
                    rcases List.mem_cons.mp hv with rfl | hv1
                    · rcases copy_stack_to_heap_up_to_cases hcall with
                        ⟨s0, hs0, ha, hc1 | hc1 | hc1⟩
                      · have e : s0 = os := Option.some.inj (hs0.symm.trans hos)
                        subst e
                        rcases hc1 with ⟨hno, -, hw⟩
                        subst hw
                        have e1 : os1 = s0 := Option.some.inj (hos1.symm.trans hos)
                        subst e1
                        exact ⟨os1, hos1, hlt, ha, hno, Or.inl rfl⟩
                      · exact absurd hc1.2.2.1 (by decide)
                      · have e : s0 = os := Option.some.inj (hs0.symm.trans hos)
                        subst e
                        rcases hc1 with ⟨-, -, c, -, -, hw⟩
                        subst hw
                        have e1 : os1 = evacuated w.stack s0 s0.stack_stop c := by
                          have := List.getElem?_set_self (lt_length_of_getElem? hos)
                            (a := evacuated w.stack s0 s0.stack_stop c)
                          exact Option.some.inj (hos1.symm.trans this)
                        subst e1
                        refine ⟨_, hos1, hlt, ha, ?_, Or.inl rfl⟩
                        show ¬ (intptr_t ((s0.stack_stop : Int) - (s0._stack_start : Int)) >
                          intptr_t ((s0.stack_stop : Int) - (s0._stack_start : Int)))
                        omega
                    · have hvo : v ≠ o := fun hvo => hov (hvo ▸ hv1)
                      rcases hvis v hv1 with ⟨s, hs, g1, g2, g3, hp | ⟨v1, hv1a, hp⟩⟩
                      · rcases hfr v s hs with ⟨s1, hs1, -, -, -, hsame, -⟩
                        rw [hsame hvo] at hs1
                        exact ⟨s, hs1, g1, g2, g3, Or.inr ⟨o, List.mem_cons_self _ _, hp⟩⟩
                      · rcases hfr v s hs with ⟨s1, hs1, -, -, -, hsame, -⟩
                        rw [hsame hvo] at hs1
                        exact ⟨s, hs1, g1, g2, g3,
                          Or.inr ⟨v1, List.mem_cons_of_mem _ hv1a, hp⟩⟩
              · simp only [ne_eq, hr, not_false_eq_true, if_true]
        · simp only [hlt, if_false]

/-- The loop of `copy_stack_to_heap`, when it ends at all, ends within as many
iterations as there are `StackState`s, so that running it for one more than that
gives what any longer run gives. -/
theorem save_loop_fuel {A : Allocator} {ndebug : Bool} {this target : Nat} (n : Nat)
    (w : Thread) (owner : Option Nat)
    (h : StackState.save_loop A ndebug this target n w owner ≠ .error .no_return) :
    StackState.save_loop A ndebug this target (w.states.length + 1) w owner =
      StackState.save_loop A ndebug this target n w owner := by
  have := save_loop_fuel_aux (A := A) n [] w owner List.nodup_nil (by intro v hv; cases hv) h
  simpa using this

/-! ### A reallocation that fails (C7) -/

/-- After the first `n` iterations the loop goes on as it would from where they
left it. -/
theorem save_loop_passes_run {A : Allocator} {ndebug : Bool} {this target : Nat} :
    ∀ (n : Nat) (w : Thread) (owner : Option Nat) (wf : Thread) (o : Option Nat) (m : Nat),
      StackState.save_loop_passes A ndebug target n w owner = some (wf, o) →
      StackState.save_loop A ndebug this target (n + m) w owner =
        StackState.save_loop A ndebug this target m wf o
  | 0, w, owner, wf, o, m, h => by
    simp only [StackState.save_loop_passes, Option.some.injEq, Prod.mk.injEq] at h
    rw [h.1, h.2, Nat.zero_add]
  | n + 1, w, none, wf, o, m, h => by
    simp [StackState.save_loop_passes] at h
  | n + 1, w, some k, wf, o, m, h => by
    have e : n + 1 + m = (n + m) + 1 := by omega
    rw [e]
    simp only [StackState.save_loop_passes] at h
    simp only [StackState.save_loop]
    cases hos : w.states[k]? with
    | none => simp [hos] at h
    | some os =>
      simp only [hos] at h ⊢
      by_cases hlt : os.stack_stop < target
      · rw [if_pos hlt] at h ⊢
        cases hcall : StackState.copy_stack_to_heap_up_to A ndebug w k os.stack_stop with
        | error e1 => simp [hcall] at h
        | ok p =>
          obtain ⟨r, w1⟩ := p
          simp only [hcall] at h ⊢
          by_cases hr : r ≠ 0
          · rw [if_pos hr] at h
            cases h
          · rw [if_neg hr] at h ⊢
            cases hos1 : w1.states[k]? with
            | none => simp [hos1] at h
            | some os1 =>
              simp only [hos1] at h ⊢
              exact save_loop_passes_run n w1 os1.stack_prev wf o m h
      · rw [if_neg hlt] at h
        cases h

/-- What the first `n` iterations of the loop leave of each object: the pointers it
had, and either all of it or a heap copy that reaches its own `stack_stop`, which
is then below the target's. -/
theorem save_loop_passes_frame {A : Allocator} {ndebug : Bool} {target : Nat} :
    ∀ (n : Nat) (w : Thread) (owner : Option Nat) (wf : Thread) (o : Option Nat),
      StackState.save_loop_passes A ndebug target n w owner = some (wf, o) →
      wf.states.length = w.states.length ∧
      ∀ (k : Nat) (s0 : StackState), w.states[k]? = some s0 →
        ∃ sm, wf.states[k]? = some sm ∧ sm._stack_start = s0._stack_start ∧
          sm.stack_stop = s0.stack_stop ∧ sm.stack_prev = s0.stack_prev ∧
          (sm = s0 ∨
            (sm._stack_saved = intptr_t ((sm.stack_stop : Int) - (sm._stack_start : Int)) ∧
              sm.stack_stop < target))
  | 0, w, owner, wf, o, h => by
    simp only [StackState.save_loop_passes, Option.some.injEq, Prod.mk.injEq] at h
    rw [← h.1]
    exact ⟨rfl, fun k s0 hk => ⟨s0, hk, rfl, rfl, rfl, Or.inl rfl⟩⟩
  | n + 1, w, none, wf, o, h => by
    simp [StackState.save_loop_passes] at h
  | n + 1, w, some j, wf, o, h => by
    simp only [StackState.save_loop_passes] at h
    cases hos : w.states[j]? with
    | none => simp [hos] at h
    | some os =>
      simp only [hos] at h
      by_cases hlt : os.stack_stop < target
      · rw [if_pos hlt] at h
        cases hcall : StackState.copy_stack_to_heap_up_to A ndebug w j os.stack_stop with
        | error e1 => simp [hcall] at h
        | ok p =>
          obtain ⟨r, w1⟩ := p
          simp only [hcall] at h
          by_cases hr : r ≠ 0
          · rw [if_pos hr] at h
            cases h
          · rw [if_neg hr] at h
            cases hos1 : w1.states[j]? with
            | none => simp [hos1] at h
            | some os1 =>
              simp only [hos1] at h
              rcases copy_stack_to_heap_up_to_frame hcall with ⟨-, -, hl1, -, -, -, hfr⟩
              rcases save_loop_passes_frame n w1 os1.stack_prev wf o h with ⟨hl2, hfr2⟩
              refine ⟨hl2.trans hl1, ?_⟩
              intro k s0 hk
              rcases hfr k s0 hk with ⟨s1, hs1, e1, e2, e3, -, e5⟩
              rcases hfr2 k s1 hs1 with ⟨sm, hsm, f1, f2, f3, f5⟩
              refine ⟨sm, hsm, f1.trans e1, f2.trans e2, f3.trans e3, ?_⟩
              rcases f5 with rfl | f5
              · rcases e5 with rfl | ⟨e5, -, rfl⟩
                · exact Or.inl rfl
                · rw [hos] at hk
                  cases hk
                  right
                  rw [e5, e2, e1]
                  exact ⟨rfl, hlt⟩
              · exact Or.inr f5
      · rw [if_neg hlt] at h
        cases h

/-- C7: a failed reallocation is reported and leaves the state it was for as it
was. When `copy_stack_to_heap_up_to` attempts a reallocation (`sz2 > sz1`) and
`PyMem_Realloc` fails, the call returns `-1` and changes nothing but the error
indicator and the call counter. When `copy_stack_to_heap`, after `n` iterations of
its loop that each returned 0, comes to an object `o` that it evacuates (one with
`stack_stop` below the target's, or another one than the target) and the
reallocation attempted for `o` fails, it returns `-1`, the thread being as it was
when the reallocation was attempted but for the error indicator and the call
counter; the object `o` has then the heap copy, `_stack_saved`, `stack_stop` and
`stack_prev` it had on entry to `copy_stack_to_heap`, and the `_stack_start` it
had on entry, or `stackref` when `o` is the running `current`, whose `_stack_start`
the call sets before its loop. -/
theorem reallocation_failure_reported (A : Allocator) (ndebug : Bool) (w : Thread) :
    (∀ (this stop : Nat) (s : StackState), w.states[this]? = some s →
      ¬ (ndebug = false ∧ s._stack_start = 0) →
      intptr_t ((stop : Int) - (s._stack_start : Int)) > s._stack_saved →
      PyMem_Realloc A w.nrealloc s.stack_copy
        (intptr_t ((stop : Int) - (s._stack_start : Int))) = none →
      StackState.copy_stack_to_heap_up_to A ndebug w this stop =
        .ok (-1, { w with nrealloc := w.nrealloc + 1, err_no_memory := true })) ∧
    (∀ (this stackref current n o : Nat) (t c so : StackState) (wf : Thread),
      w.states[this]? = some t → w.states[current]? = some c →
      ¬ (ndebug = false ∧ c._stack_saved ≠ 0) →
      StackState.save_loop_passes A ndebug t.stack_stop n
        (if c._stack_start = 0 then w
          else { w with states := w.states.set current { c with _stack_start := stackref } })
        (if c._stack_start = 0 then c.stack_prev else some current) = some (wf, some o) →
      wf.states[o]? = some so →
      ¬ (ndebug = false ∧ so._stack_start = 0) →
      (so.stack_stop < t.stack_stop ∨ o ≠ this) →
      intptr_t (((min so.stack_stop t.stack_stop : Nat) : Int) - (so._stack_start : Int)) >
        so._stack_saved →
      PyMem_Realloc A wf.nrealloc so.stack_copy
        (intptr_t (((min so.stack_stop t.stack_stop : Nat) : Int) - (so._stack_start : Int))) =
          none →
      StackState.copy_stack_to_heap A ndebug w this stackref current =
        .ok (-1, { wf with nrealloc := wf.nrealloc + 1, err_no_memory := true }) ∧
      ∃ se, w.states[o]? = some se ∧ so.stack_copy = se.stack_copy ∧
        so._stack_saved = se._stack_saved ∧ so.stack_stop = se.stack_stop ∧
        so.stack_prev = se.stack_prev ∧
        so._stack_start =
          (if o = current ∧ c._stack_start ≠ 0 then stackref else se._stack_start)) := by
  have hup : ∀ (w : Thread) (this stop : Nat) (s : StackState), w.states[this]? = some s →
      ¬ (ndebug = false ∧ s._stack_start = 0) →
      intptr_t ((stop : Int) - (s._stack_start : Int)) > s._stack_saved →
      PyMem_Realloc A w.nrealloc s.stack_copy
        (intptr_t ((stop : Int) - (s._stack_start : Int))) = none →
      StackState.copy_stack_to_heap_up_to A ndebug w this stop =
        .ok (-1, { w with nrealloc := w.nrealloc + 1, err_no_memory := true }) := by
    intro w this stop s hs ha hgt hre
    unfold StackState.copy_stack_to_heap_up_to
    simp only [hs, ha, if_false, hgt, if_true, hre]
  refine ⟨hup w, ?_⟩
  intro this stackref current n o t c so wf ht hc hassert hpass hso hact hev hgt hre
  -- the loop, entered at `w0` with `owner0`
  obtain ⟨w0, hw0⟩ : ∃ w0, w0 = (if c._stack_start = 0 then w
      else { w with states := w.states.set current { c with _stack_start := stackref } }) :=
    ⟨_, rfl⟩
  obtain ⟨owner0, howner0⟩ : ∃ owner0, owner0 =
      (if c._stack_start = 0 then c.stack_prev else some current) := ⟨_, rfl⟩
  rw [← hw0, ← howner0] at hpass
  have hlen0 : w0.states.length = w.states.length := by
    rw [hw0]
    split
    · rfl
    · simp
  have hentry : StackState.copy_stack_to_heap A ndebug w this stackref current =
      StackState.save_loop A ndebug this t.stack_stop (w0.states.length + 1) w0 owner0 := by
    unfold StackState.copy_stack_to_heap
    simp only [ht, hc, hassert, if_false]
    rw [hlen0, hw0, howner0]
    by_cases hz : c._stack_start = 0
    · simp only [hz, if_true]
    · simp only [hz, if_false]
  -- the iteration at which the reallocation fails
  have hlast : StackState.save_loop A ndebug this t.stack_stop 1 wf (some o) =
      .ok (-1, { wf with nrealloc := wf.nrealloc + 1, err_no_memory := true }) := by
    simp only [StackState.save_loop, hso]
    by_cases hlt : so.stack_stop < t.stack_stop
    · rw [Nat.min_eq_left (le_of_lt hlt)] at hgt hre
      rw [if_pos hlt, hup wf o so.stack_stop so hso hact hgt hre]
      simp
    · rw [Nat.min_eq_right (not_lt.mp hlt)] at hgt hre
      have hne : o ≠ this := by
        rcases hev with h | h
        · exact absurd h hlt
        · exact h
      rw [if_neg hlt, if_pos hne, hup wf o t.stack_stop so hso hact hgt hre]
      simp
  have hrun := @save_loop_passes_run A ndebug this t.stack_stop n w0 owner0 wf (some o) 1 hpass
  rw [hlast] at hrun
  have hfuel := @save_loop_fuel A ndebug this t.stack_stop (n + 1) w0 owner0
    (by rw [hrun]; simp)
  rw [hrun] at hfuel
  refine ⟨hentry.trans hfuel, ?_⟩
  -- the object `o` is as it was on entry to the loop
  rcases save_loop_passes_frame n w0 owner0 wf (some o) hpass with ⟨hkeep, hfr⟩
  have hex0 : ∃ s0, w0.states[o]? = some s0 := by
    have hlt := lt_length_of_getElem? hso
    rw [hkeep] at hlt
    exact ⟨_, List.getElem?_eq_getElem hlt⟩
  rcases hex0 with ⟨s0, hs0⟩
  rcases hfr o s0 hs0 with ⟨sm, hsm, -, -, -, hsame⟩
  have e1 : sm = so := Option.some.inj (hsm.symm.trans hso)
  subst e1
  have e2 : sm = s0 := by
    rcases hsame with h | ⟨h1, h2⟩
    · exact h
    · rw [Nat.min_eq_left (le_of_lt h2)] at hgt
      rw [h1] at hgt
      exact absurd hgt (lt_irrefl _)
  subst e2
  -- and the entry to the loop differs from the entry to the call in `current` alone
  by_cases hz : c._stack_start = 0
  · rw [hw0, if_pos hz] at hs0
    refine ⟨sm, hs0, rfl, rfl, rfl, rfl, ?_⟩
    rw [if_neg (fun h => h.2 hz)]
  · rw [hw0, if_neg hz] at hs0
    by_cases hoc : o = current
    · subst hoc
      rw [List.getElem?_set_self (lt_length_of_getElem? hc)] at hs0
      cases hs0
      refine ⟨c, hc, rfl, rfl, rfl, rfl, ?_⟩
      rw [if_pos ⟨rfl, hz⟩]
    · simp only at hs0
      rw [List.getElem?_set_ne (Ne.symm hoc)] at hs0
      refine ⟨sm, hs0, rfl, rfl, rfl, rfl, ?_⟩
      rw [if_neg (fun h => hoc h.1)]

/-- C7 at the thread `oomSched`: the switch from handle 2 to handle 1 evacuates handle
2 in full and comes to the main greenlet, for which the reallocation, the
allocator's call number 4, fails. -/
theorem reallocation_failure_reported_witness :
    oomSched.w.states[1]? = some
      { _stack_start := 16, stack_stop := 20, stack_copy := some [6, 7, 8, 9],
        _stack_saved := 4, stack_prev := some 0 } ∧
    oomSched.w.states[2]? = some
      { _stack_start := 1, stack_stop := 10, stack_copy := none, _stack_saved := 0,
        stack_prev := some 0 } ∧
    oomArrived.states[0]? = some
      { _stack_start := 8, stack_stop := CHAR_PTR_MINUS_ONE, stack_copy := some [8, 9],
        _stack_saved := 2, stack_prev := none } ∧
    oomArrived.nrealloc = 4 ∧
    StackState.copy_stack_to_heap (failsAt 4) false oomSched.w 1 5 2 =
      .ok (-1, { oomArrived with nrealloc := oomArrived.nrealloc + 1, err_no_memory := true }) ∧
    ∃ se, oomSched.w.states[0]? = some se ∧ some [8, 9] = se.stack_copy ∧
      (2 : Int) = se._stack_saved ∧ CHAR_PTR_MINUS_ONE = se.stack_stop ∧
      none = se.stack_prev ∧
      8 = (if 0 = 2 ∧ (1 : Nat) ≠ 0 then 5 else se._stack_start) :=
  ⟨by decide, by decide, by decide, rfl,
    (reallocation_failure_reported (failsAt 4) false oomSched.w).2 1 5 2 1 0
      { _stack_start := 16, stack_stop := 20, stack_copy := some [6, 7, 8, 9],
        _stack_saved := 4, stack_prev := some 0 }
      { _stack_start := 1, stack_stop := 10, stack_copy := none, _stack_saved := 0,
        stack_prev := some 0 }
      { _stack_start := 8, stack_stop := CHAR_PTR_MINUS_ONE, stack_copy := some [8, 9],
        _stack_saved := 2, stack_prev := none }
      oomArrived (by decide) (by decide) (by decide) rfl (by decide) (by decide)
      (by decide) (by decide) rfl⟩
/-- C1: stack-content round trip. In a thread reached from a single `make_main()`
state, let the running greenlet `g` switch away (to another target, its stack
pointer at `stackref`), let any steps follow in which `g` is not switched to
(creations, writes of the running greenlet below its own `stack_stop`, switches
among other greenlets), and let `g` then be switched to. After that `g` runs, its
`_stack_start` is `stackref`, its `stack_stop` is what it was, and every byte of
`[_stack_start, stack_stop)` has the value it had when `g` was switched away
from. Such a switch back to `g` is carried out, with any non-null stack pointer
that is an address of the thread's stack, whenever the allocator does not fail. -/
theorem stack_round_trip (A : Allocator) (ndebug : Bool) (s0 s1 s2 s3 : Sched)
    (target stackref stackref2 : Nat) (mid : List Action) (g0 : StackState)
    (hreach : Reachable s0) (hg0 : s0.w.states[s0.current]? = some g0)
    (haway : s0.step A ndebug (.switch target stackref) = some s1)
    (hne : target ≠ s0.current)
    (hmid : Sched.run A ndebug mid s1 = some s2)
    (hnot : ∀ r, Action.switch s0.current r ∉ mid)
    (hback : s2.step A ndebug (.switch s0.current stackref2) = some s3) :
    (s3.current = s0.current ∧
      ∃ g, s3.w.states[s0.current]? = some g ∧ g._stack_start = stackref ∧
        g.stack_stop = g0.stack_stop ∧
        ∀ a, g._stack_start ≤ a → a < g.stack_stop → s3.w.stack a = s0.w.stack a) ∧
    ((∀ k, A.fails k = false) → ∀ r, r ≠ 0 → StackAddress s2.stack_lo r →
      ∃ s4, s2.step A ndebug (.switch s0.current r) = some s4) := by
  have hinv0 := inv_reachable hreach
  have hsusp1 := suspended_after_switch_away hinv0 hg0 haway hne
  have hinv1 := inv_step hinv0 haway
  have hroot1 := rooted_step hinv0 (rooted_reachable hreach) haway
  rcases suspended_run mid hinv1 hsusp1 hmid hnot with ⟨hinv2, hsusp2⟩
  have hroot2 := rooted_run mid hinv1 hroot1 hmid
  constructor
  · rcases resumed_finds_snapshot hinv2 hsusp2 hback with ⟨hcur, g, hg, e1, e2, hbytes⟩
    refine ⟨hcur, g, hg, e1, e2, ?_⟩
    intro a ha1 ha2
    exact hbytes a (by rw [← e1]; exact ha1) (by rw [← e2]; exact ha2)
  · intro hA r hr hrlow
    rcases hsusp2 with ⟨-, -, st, hst, -⟩
    exact switch_progress hinv2 hroot2 A hA ndebug s0.current r (lt_length_of_getElem? hst) hr
      hrlow

/-- C1 at a thread of two greenlets: the main one switches away at 9, the other
overwrites address 9, and after the switch back the main one finds its bytes. -/
theorem stack_round_trip_witness :
    Reachable tripStart ∧
    tripStart.step neverFails false (.switch 1 9) = some tripAway ∧
    Sched.run neverFails false tripMiddle tripAway = some tripBefore ∧
    tripBefore.step neverFails false (.switch 0 7) = some tripBack ∧
    tripStart.w.stack 9 = 9 ∧ tripBefore.w.stack 9 = 5 ∧
    ((tripBack.current = tripStart.current ∧
      ∃ g, tripBack.w.states[tripStart.current]? = some g ∧ g._stack_start = 9 ∧
        g.stack_stop = StackState.make_main.stack_stop ∧
        ∀ a, g._stack_start ≤ a → a < g.stack_stop →
          tripBack.w.stack a = tripStart.w.stack a) ∧
      ((∀ k, neverFails.fails k = false) → ∀ r, r ≠ 0 → StackAddress tripBefore.stack_lo r →
        ∃ s4, tripBefore.step neverFails false (.switch tripStart.current r) = some s4)) :=
  ⟨⟨neverFails, false, fun a => a % 10, 0, [.create 10], rfl⟩, rfl, rfl, rfl, rfl, rfl,
    stack_round_trip neverFails false tripStart tripAway tripBefore tripBack 1 9 7 tripMiddle
      StackState.make_main ⟨neverFails, false, fun a => a % 10, 0, [.create 10], rfl⟩ rfl rfl
      (by decide) rfl (by intro r h; simp [tripMiddle] at h) rfl⟩

/-- A thread whose stack lies in the upper half of the address space makes the same
round trip: after `highScenario` the main greenlet runs again, with nothing saved,
and the byte at `2^64 - 150`, which the other greenlet had set to 77, is the one the
main greenlet had left there. -/
theorem round_trip_at_top_of_address_space :
    Sched.run neverFails false highScenario highStart = some highBack ∧
    highBack.current = 0 ∧
    (highBack.w.states[0]?).map (fun st => (st._stack_start, st._stack_saved)) =
      some (2 ^ 64 - 201, 0) ∧
    highBack.w.stack (2 ^ 64 - 150) = 6 ∧
    ((Sched.run neverFails false (highScenario.take 3) highStart).map
      (fun s => s.w.stack (2 ^ 64 - 150))) = some 77 :=
  ⟨rfl, rfl, by decide, by decide, by decide⟩

/-! ### The constructors and `make_main` (C18, C19, C20) -/

/-- C18: first-entry linking skips a dying greenlet. For every `mark` (null or
not) and every `current`, at handle `cur`, the `stack_prev` of
`StackState(mark, current)` points at `current` when `current.stack_start()` is
non-null, and is `current.stack_prev` when it is null. -/
theorem first_entry_links_past_dying (mark cur : Nat) (current : StackState) :
    (current.stack_start ≠ 0 →
      (StackState.init_mark mark cur current).stack_prev = some cur) ∧
    (current.stack_start = 0 →
      (StackState.init_mark mark cur current).stack_prev = current.stack_prev) := by
  constructor
  · intro h
    have h1 : current._stack_start ≠ 0 := h
    simp only [StackState.init_mark]
    rw [if_pos h1]
  · intro h
    have h1 : ¬ current._stack_start ≠ 0 := fun hn => hn h
    simp only [StackState.init_mark]
    rw [if_neg h1]

/-- C18 at mark 8: behind a running main state, and behind a dying state whose
`stack_prev` is handle 7. -/
theorem first_entry_links_past_dying_witness :
    (StackState.init_mark 8 0 StackState.make_main).stack_prev = some 0 ∧
    (StackState.init_mark 8 3 { StackState.make_main with _stack_start := 0, stack_prev := some 7 }).stack_prev
      = some 7 :=
  ⟨(first_entry_links_past_dying 8 0 StackState.make_main).1 (by decide),
   (first_entry_links_past_dying 8 3
      { StackState.make_main with _stack_start := 0, stack_prev := some 7 }).2 rfl⟩

/-- C19: `StackState(mark, current)` with a non-null `mark` is started and
inactive, its `stack_stop` is `mark`, `stack_saved()` is 0 and it has no heap
copy; `StackState()` is not started, not active and not main. -/
theorem constructors_started_inactive (mark cur : Nat) (current : StackState) (hm : mark ≠ 0) :
    ((StackState.init_mark mark cur current).started = true ∧
     (StackState.init_mark mark cur current).active = false ∧
     (StackState.init_mark mark cur current).stack_stop = mark ∧
     (StackState.init_mark mark cur current).stack_saved = 0 ∧
     (StackState.init_mark mark cur current).stack_copy = none) ∧
    (StackState.init.started = false ∧ StackState.init.active = false ∧
     StackState.init.main = false) := by
  refine ⟨⟨?_, rfl, rfl, rfl, rfl⟩, rfl, rfl, by decide⟩
  simp [StackState.started, StackState.init_mark, hm]

/-- C19 at mark 8 and the main state. -/
theorem constructors_started_inactive_witness :
    ((StackState.init_mark 8 0 StackState.make_main).started = true ∧
     (StackState.init_mark 8 0 StackState.make_main).active = false ∧
     (StackState.init_mark 8 0 StackState.make_main).stack_stop = 8 ∧
     (StackState.init_mark 8 0 StackState.make_main).stack_saved = 0 ∧
     (StackState.init_mark 8 0 StackState.make_main).stack_copy = none) ∧
    (StackState.init.started = false ∧ StackState.init.active = false ∧
     StackState.init.main = false) :=
  constructors_started_inactive 8 0 StackState.make_main (by decide)

theorem SameStops_trans {S S2 S3 : List StackState} (h1 : SameStops S S2)
    (h2 : SameStops S2 S3) : SameStops S S3 :=
  fun k => (h2 k).trans (h1 k)

theorem SameStops_of_links {S S2 : List StackState} (h : SameLinks S S2) : SameStops S S2 := by
  intro k
  have h1 := congrArg (Option.map Prod.fst) (h k)
  simpa [Option.map_map, Function.comp] using h1

theorem SameStops_set {S : List StackState} {i : Nat} {s s1 : StackState}
    (hs : S[i]? = some s) (h : s1.stack_stop = s.stack_stop) : SameStops S (S.set i s1) := by
  intro k
  by_cases hk : i = k
  · subst hk
    have hlt : i < S.length := lt_length_of_getElem? hs
    rw [List.getElem?_set_self hlt, hs]
    simp [h]
  · rw [List.getElem?_set_ne hk]

theorem copy_heap_to_stack_stops {w w2 : Thread} {this current : Nat}
    (h : StackState.copy_heap_to_stack w this current = .ok w2) :
    SameStops w.states w2.states := by
  rcases copy_heap_to_stack_spec h with ⟨t, c, t2, ht, -, ht2, -, hstop, hlen, hfr, -⟩
  intro k
  by_cases hk : k = this
  · subst hk
    rw [ht, ht2]
    simp [hstop]
  · cases hs : w.states[k]? with
    | some s => rw [hfr k s hk hs]
    | none =>
      have h1 : w.states.length ≤ k := List.getElem?_eq_none_iff.mp hs
      have h2 : w2.states[k]? = none := List.getElem?_eq_none_iff.mpr (by omega)
      rw [h2]

theorem stack_call_stops {A : Allocator} {ndebug : Bool} {w w1 : Thread} {c : StackCall}
    (h : c.apply A ndebug w = .ok w1) : SameStops w.states w1.states := by
  cases c with
  | copy_stack_to_heap this stackref current =>
    simp only [StackCall.apply] at h
    cases hc : StackState.copy_stack_to_heap A ndebug w this stackref current with
    | error e => simp [hc] at h
    | ok p =>
      obtain ⟨r, w2⟩ := p
      simp only [hc] at h
      have e : w2 = w1 := by simpa using h
      subst e
      exact SameStops_of_links (copy_stack_to_heap_links hc).1
  | copy_heap_to_stack this current =>
    exact copy_heap_to_stack_stops h
  | set_active this =>
    simp only [StackCall.apply] at h
    cases hs : w.states[this]? with
    | none => simp [hs] at h
    | some s =>
      simp only [hs] at h
      cases ha : s.set_active ndebug with
      | error e => simp [ha] at h
      | ok s1 =>
        simp only [ha] at h
        have e : { w with states := w.states.set this s1 } = w1 := by simpa using h
        subst e
        refine SameStops_set hs ?_
        unfold StackState.set_active at ha
        split at ha
        · simp at ha
        · have e1 : { s with _stack_start := 1 } = s1 := by simpa using ha
          subst e1
          rfl
  | set_inactive this =>
    simp only [StackCall.apply] at h
    cases hs : w.states[this]? with
    | none => simp [hs] at h
    | some s =>
      simp only [hs] at h
      have e : { w with states := w.states.set this s.set_inactive,
                        freed := PyMem_Free w.freed (s.given_up s.set_inactive) } = w1 := by
        simpa using h
      subst e
      refine SameStops_set hs ?_
      unfold StackState.set_inactive
      simp only
      split <;> rfl

theorem stack_calls_stops {A : Allocator} {ndebug : Bool} :
    ∀ (cs : List StackCall) (w w1 : Thread), StackCall.run A ndebug cs w = .ok w1 →
      SameStops w.states w1.states
  | [], w, w1, h => by
    have e : w = w1 := by simpa [StackCall.run] using h
    subst e
    exact fun _ => rfl
  | c :: cs, w, w1, h => by
    simp only [StackCall.run] at h
    cases hc : c.apply A ndebug w with
    | error e => simp [hc] at h
    | ok w2 =>
      simp only [hc] at h
      exact SameStops_trans (stack_call_stops hc) (stack_calls_stops cs w2 w1 h)

/-- C20: a root `StackState` is always started. `make_main()` is main, started and
active, with `stack_saved()` 0 and a null `stack_prev`; `main()` implies
`started()` for every `StackState`; and after any sequence of
`copy_stack_to_heap`, `copy_heap_to_stack`, `set_active` and `set_inactive` calls
on the `StackState`s of a thread, every one of them has the `stack_stop` it had
before, so `main()` and `started()` have not changed for any of them. -/
theorem main_state_always_started (A : Allocator) (ndebug : Bool) (cs : List StackCall)
    (w w1 : Thread) (s : StackState) (hrun : StackCall.run A ndebug cs w = .ok w1) :
    (StackState.make_main.main = true ∧ StackState.make_main.started = true ∧
      StackState.make_main.active = true ∧ StackState.make_main.stack_saved = 0 ∧
      StackState.make_main.stack_prev = none) ∧
    (s.main = true → s.started = true) ∧
    w1.states.length = w.states.length ∧
    (∀ (k : Nat) (s0 : StackState), w.states[k]? = some s0 →
      ∃ s1, w1.states[k]? = some s1 ∧ s1.stack_stop = s0.stack_stop ∧
        s1.main = s0.main ∧ s1.started = s0.started) := by
  have hst := stack_calls_stops cs w w1 hrun
  refine ⟨⟨by decide, by decide, by decide, rfl, rfl⟩, ?_, ?_, ?_⟩
  · intro hm
    have e : s.stack_stop = CHAR_PTR_MINUS_ONE := by
      simpa [StackState.main] using hm
    simp only [StackState.started, e]
    decide
  · by_contra hne
    rcases Nat.lt_or_gt_of_ne hne with hlt | hgt
    · have h1 := hst w1.states.length
      rw [List.getElem?_eq_none_iff.mpr (le_refl _)] at h1
      have h2 : w1.states.length < w.states.length := hlt
      rw [List.getElem?_eq_getElem h2] at h1
      simp at h1
    · have h1 := hst w.states.length
      rw [List.getElem?_eq_none_iff.mpr (le_refl _)] at h1
      have h2 : w.states.length < w1.states.length := hgt
      rw [List.getElem?_eq_getElem h2] at h1
      simp at h1
  · intro k s0 hs0
    have h1 := hst k
    rw [hs0] at h1
    cases hs1 : w1.states[k]? with
    | none => rw [hs1] at h1; simp at h1
    | some s1 =>
      rw [hs1] at h1
      have e : s1.stack_stop = s0.stack_stop := by simpa using h1
      exact ⟨s1, rfl, e, by simp only [StackState.main, e], by simp only [StackState.started, e]⟩

/-- C20 at the thread `callsThread`: after the six calls of `callsExample` the main
state is the main state still. -/
theorem main_state_always_started_witness :
    StackCall.run neverFails false callsExample callsThread = .ok callsThreadAfter ∧
    callsThreadAfter.states.length = 2 ∧
    (∃ s1, callsThreadAfter.states[0]? = some s1 ∧ s1.stack_stop = CHAR_PTR_MINUS_ONE ∧
      s1.main = true ∧ s1.started = true) :=
  ⟨rfl,
   (main_state_always_started neverFails false callsExample callsThread callsThreadAfter
      StackState.make_main rfl).2.2.1,
   (main_state_always_started neverFails false callsExample callsThread callsThreadAfter
      StackState.make_main rfl).2.2.2 0 { StackState.make_main with _stack_start := 12 } rfl⟩

/-- C16: `SwitchingArgs` are moved. For two distinct `SwitchingArgs` objects `a`
and `b`, after `a <<= b` the object `a` holds the args and kwargs `b` held before
and nothing of what `a` held, `b` has both members null and converts to `false`,
and every other object is as it was. -/
theorem switching_args_moved (m : Objects) (a b : Nat) (hab : a ≠ b) :
    (SwitchingArgs.operator_shl_assign m a b).switching a = m.switching b ∧
    ((SwitchingArgs.operator_shl_assign m a b).switching b)._args.p = 0 ∧
    ((SwitchingArgs.operator_shl_assign m a b).switching b)._kwargs.p = 0 ∧
    ((SwitchingArgs.operator_shl_assign m a b).switching b).operator_bool = false ∧
    (∀ c : Nat, c ≠ a → c ≠ b →
      (SwitchingArgs.operator_shl_assign m a b).switching c = m.switching c) ∧
    (SwitchingArgs.operator_shl_assign m a b).owned = m.owned := by
  have hba : b ≠ a := Ne.symm hab
  unfold SwitchingArgs.operator_shl_assign
  rw [if_pos hab]
  refine ⟨?_, ?_, ?_, ?_, ?_, ?_⟩
  · simp [SwitchingArgs.CLEAR, Objects.put, Objects.get, OwnedReference.assign, hab, hba]
  · simp [SwitchingArgs.CLEAR, Objects.put, Objects.get, OwnedReference.CLEAR]
  · simp [SwitchingArgs.CLEAR, Objects.put, Objects.get, OwnedReference.CLEAR]
  · simp [SwitchingArgs.CLEAR, Objects.put, Objects.get, OwnedReference.CLEAR,
      SwitchingArgs.operator_bool, OwnedReference.operator_bool]
  · intro c hca hcb
    simp [SwitchingArgs.CLEAR, Objects.put, Objects.get, hca, hcb]
  · simp [SwitchingArgs.CLEAR, Objects.put]

/-- C16 at the objects `argsExample`: the pair at address 2 moves to address 1. -/
theorem switching_args_moved_witness :
    (SwitchingArgs.operator_shl_assign argsExample 1 2).switching 1 =
      { _args := { p := 21 }, _kwargs := { p := 22 } } ∧
    ((SwitchingArgs.operator_shl_assign argsExample 1 2).switching 2)._args.p = 0 ∧
    ((SwitchingArgs.operator_shl_assign argsExample 1 2).switching 2)._kwargs.p = 0 ∧
    ((SwitchingArgs.operator_shl_assign argsExample 1 2).switching 2).operator_bool = false :=
  ⟨(switching_args_moved argsExample 1 2 (by decide)).1,
   (switching_args_moved argsExample 1 2 (by decide)).2.1,
   (switching_args_moved argsExample 1 2 (by decide)).2.2.1,
   (switching_args_moved argsExample 1 2 (by decide)).2.2.2.1⟩

/-- The guard of `operator<<=(SwitchingArgs&)`: `a <<= a` changes nothing. -/
theorem switching_args_self_move (m : Objects) (a : Nat) :
    SwitchingArgs.operator_shl_assign m a a = m := by
  simp [SwitchingArgs.operator_shl_assign]

/-- C17: the empty pair is the pending-exception marker. A `SwitchingArgs`
converts to `false` exactly when `_args` and `_kwargs` are both null; a
default-constructed one and one on which `CLEAR()` was called convert to `false`;
after `operator<<=(PyObject*)` with a non-null pointer, and after
`operator<<=(OwnedObject&)` with a reference to a non-null `OwnedObject` other than
the object's own `_args` (which the assertion of that overload excludes), the
object converts to `true`, holds the value given in `_args`, and its `_kwargs` is
null. -/
theorem empty_pair_converts_to_false (s : SwitchingArgs) (m : Objects) (this v : Nat)
    (ndebug : Bool) (r : OwnedObjectRef) (hv : v ≠ 0) (hr : r ≠ .args_of this)
    (hrv : (m.get r).p ≠ 0) :
    (s.operator_bool = false ↔ s._args.p = 0 ∧ s._kwargs.p = 0) ∧
    SwitchingArgs.init.operator_bool = false ∧
    ((SwitchingArgs.CLEAR m this).switching this).operator_bool = false ∧
    (((SwitchingArgs.operator_shl_assign_ptr m this v).switching this).operator_bool = true ∧
      ((SwitchingArgs.operator_shl_assign_ptr m this v).switching this)._args.p = v ∧
      ((SwitchingArgs.operator_shl_assign_ptr m this v).switching this)._kwargs.p = 0) ∧
    (∃ m1, SwitchingArgs.operator_shl_assign_owned ndebug m this r = .ok m1 ∧
      (m1.switching this).operator_bool = true ∧
      (m1.switching this)._args.p = (m.get r).p ∧
      (m1.switching this)._kwargs.p = 0) := by
  refine ⟨?_, by decide, ?_, ?_, ?_⟩
  · simp [SwitchingArgs.operator_bool, OwnedReference.operator_bool]
  · simp [SwitchingArgs.CLEAR, Objects.put, Objects.get, OwnedReference.CLEAR,
      SwitchingArgs.operator_bool, OwnedReference.operator_bool]
  · simp [SwitchingArgs.operator_shl_assign_ptr, Objects.put, Objects.get, OwnedReference.CLEAR,
      OwnedReference.assign, OwnedReference.consuming,
      SwitchingArgs.operator_bool, OwnedReference.operator_bool, hv]
  · unfold SwitchingArgs.operator_shl_assign_owned
    rw [if_neg (fun h => hr h.2)]
    refine ⟨_, rfl, ?_⟩
    cases r with
    | args_of o =>
      have ho : o ≠ this := fun e => hr (by rw [e])
      have ho2 : this ≠ o := Ne.symm ho
      have hrv1 : (m.switching o)._args.p ≠ 0 := hrv
      simp [Objects.put, Objects.get, OwnedReference.CLEAR, OwnedReference.assign,
        SwitchingArgs.operator_bool, OwnedReference.operator_bool, ho, ho2, hrv1]
    | kwargs_of o =>
      have hrv1 : (m.switching o)._kwargs.p ≠ 0 := hrv
      by_cases ho : this = o
      · subst ho
        simp [Objects.put, Objects.get, OwnedReference.CLEAR, OwnedReference.assign,
          SwitchingArgs.operator_bool, OwnedReference.operator_bool, hrv1]
      · simp [Objects.put, Objects.get, OwnedReference.CLEAR, OwnedReference.assign,
          SwitchingArgs.operator_bool, OwnedReference.operator_bool, ho, hrv1]
    | other k =>
      have hrv1 : (m.owned k).p ≠ 0 := hrv
      simp [Objects.put, Objects.get, OwnedReference.CLEAR, OwnedReference.assign,
        SwitchingArgs.operator_bool, OwnedReference.operator_bool, hrv1]

/-- C17 at the objects `argsExample`: the pointer `7`, and the `OwnedObject` at
address 5, given to the `SwitchingArgs` at address 1. -/
theorem empty_pair_converts_to_false_witness :
    (((SwitchingArgs.operator_shl_assign_ptr argsExample 1 7).switching 1).operator_bool = true ∧
      ((SwitchingArgs.operator_shl_assign_ptr argsExample 1 7).switching 1)._args.p = 7 ∧
      ((SwitchingArgs.operator_shl_assign_ptr argsExample 1 7).switching 1)._kwargs.p = 0) ∧
    (∃ m1, SwitchingArgs.operator_shl_assign_owned false argsExample 1 (.other 5) = .ok m1 ∧
      (m1.switching 1).operator_bool = true ∧
      (m1.switching 1)._args.p = 50 ∧
      (m1.switching 1)._kwargs.p = 0) :=
  ⟨(empty_pair_converts_to_false SwitchingArgs.init argsExample 1 7 false (.other 5)
      (by decide) (by decide) (by decide)).2.2.2.1,
   (empty_pair_converts_to_false SwitchingArgs.init argsExample 1 7 false (.other 5)
      (by decide) (by decide) (by decide)).2.2.2.2⟩

/-- The call `a <<= a.args()`, which the assertion of `operator<<=(OwnedObject&)`
excludes, stops at the assertion; compiled with `NDEBUG` it returns with both
members null. -/
theorem operator_shl_assign_owned_self (m : Objects) (this : Nat) :
    SwitchingArgs.operator_shl_assign_owned false m this (.args_of this) = .error .assertion ∧
    ∃ m1, SwitchingArgs.operator_shl_assign_owned true m this (.args_of this) = .ok m1 ∧
      (m1.switching this).operator_bool = false := by
  constructor
  · simp [SwitchingArgs.operator_shl_assign_owned]
  · unfold SwitchingArgs.operator_shl_assign_owned
    rw [if_neg (by simp)]
    refine ⟨_, rfl, ?_⟩
    simp [Objects.put, Objects.get, OwnedReference.CLEAR, OwnedReference.assign,
      SwitchingArgs.operator_bool, OwnedReference.operator_bool]

/-! ### Saving and restoring the interpreter state (C11 to C15) -/

theorem PythonState.operator_shl_returns (p : PythonState) (cf : List CFrame)
    (ts : PyThreadState) (i : Nat) (f : CFrame) (hi : ts.cframe = some i)
    (hf : (cf)[i]? = some f) :
    p.operator_shl cf ts =
      .ok ({ _context := { p := ts.context }, _top_frame := { p := ts.frame },
             cframe := ts.cframe, use_tracing := f.use_tracing,
             recursion_depth := ts.recursion_depth }, ts) := by
  unfold PythonState.operator_shl
  simp only [hi, hf, OwnedReference.steal]

theorem PythonState.operator_shr_returns (p : PythonState) (cf : List CFrame)
    (ts : PyThreadState) (i : Nat) (f : CFrame) (hi : p.cframe = some i)
    (hf : (cf)[i]? = some f) :
    p.operator_shr cf ts =
      .ok ({ p with _top_frame := { p := 0 }, _context := { p := 0 } },
           cf.set i { f with use_tracing := p.use_tracing },
           { ts with recursion_depth := p.recursion_depth, frame := p._top_frame.p,
                     context := p._context.p,
                     context_ver := (ts.context_ver + 1) % 2 ^ 64, cframe := p.cframe }) := by
  unfold PythonState.operator_shr
  simp only [hi, hf, OwnedReference.relinquish_ownership]

theorem PythonState.will_switch_from_returns (p : PythonState) (cf : List CFrame)
    (o : PyThreadState) (i : Nat) (f : CFrame) (hi : o.cframe = some i)
    (hf : (cf)[i]? = some f) :
    p.will_switch_from cf o = .ok { p with use_tracing := f.use_tracing } := by
  unfold PythonState.will_switch_from
  simp only [hi, hf]

/-- C11: the `ExecutionContext` round trip. For every thread state `ts` with a
non-null `exc_info` and a valid `cframe`, `ExceptionState::operator<<` and
`PythonState::operator<<` from `ts` return, and the matching two `operator>>`,
made in either order into any thread state `ts2` (the saved `cframe` being valid
then), return a thread state whose `recursion_depth`, `frame`, `context`,
`exc_state` and `exc_info` are those `ts` held at the save. -/
theorem execution_context_round_trip (e : ExceptionState) (p : PythonState)
    (ts ts2 : PyThreadState) (cf cf2 : List CFrame) (i : Nat)
    (hinfo : ts.exc_info ≠ 0) (hi : ts.cframe = some i) (hcf : i < cf.length)
    (hcf2 : i < cf2.length) :
    ∃ p1 p2 cf3 ts3,
      p.operator_shl cf ts = .ok (p1, ts) ∧ (e.operator_shl ts).2 = ts ∧
      p1.operator_shr cf2 ((e.operator_shl ts).1.operator_shr ts2).2 = .ok (p2, cf3, ts3) ∧
      (∃ ts4, p1.operator_shr cf2 ts2 = .ok (p2, cf3, ts4) ∧
        ((e.operator_shl ts).1.operator_shr ts4).2 = ts3) ∧
      ts3.recursion_depth = ts.recursion_depth ∧ ts3.frame = ts.frame ∧
      ts3.context = ts.context ∧ ts3.exc_state = ts.exc_state ∧
      ts3.exc_info = ts.exc_info := by
  have hf : (cf)[i]? = some (cf.get ⟨i, hcf⟩) := List.getElem?_eq_getElem hcf
  have hf2 : (cf2)[i]? = some (cf2.get ⟨i, hcf2⟩) := List.getElem?_eq_getElem hcf2
  have h1 := PythonState.operator_shl_returns p cf ts i _ hi hf
  refine ⟨_, _, _, _, h1, rfl, PythonState.operator_shr_returns _ cf2 _ i _ hi hf2,
    ⟨_, PythonState.operator_shr_returns _ cf2 _ i _ hi hf2, ?_⟩, rfl, rfl, rfl, rfl, ?_⟩
  · simp only [ExceptionState.operator_shr, ExceptionState.operator_shl]
  · simp only [ExceptionState.operator_shr, ExceptionState.operator_shl]
    rw [if_pos hinfo]

/-- C11 at `tstateExample`, saved and then restored over `tstateLater`. -/
theorem execution_context_round_trip_witness :
    ∃ p1 p2 cf3 ts3,
      pythonExample.operator_shl cframesExample tstateExample = .ok (p1, tstateExample) ∧
      p1.operator_shr cframesLater
        ((exceptionExample.operator_shl tstateExample).1.operator_shr tstateLater).2 =
          .ok (p2, cf3, ts3) ∧
      ts3.recursion_depth = 3 ∧ ts3.frame = 7 ∧ ts3.context = 9 ∧
      ts3.exc_state = { exc_type := 1, exc_value := 2, exc_traceback := 3, previous_item := 4 } ∧
      ts3.exc_info = 100 :=
  match execution_context_round_trip exceptionExample pythonExample tstateExample tstateLater
      cframesExample cframesLater 0 (by decide) rfl (by decide) (by decide) with
  | ⟨p1, p2, cf3, ts3, h1, _, h3, _, h5, h6, h7, h8, h9⟩ =>
    ⟨p1, p2, cf3, ts3, h1, h3, h5, h6, h7, h8, h9⟩

/-- C12: every restore bumps `context_ver`. `PythonState::operator>>(tstate)`
returns when the saved `cframe` is valid, and it leaves `tstate->context_ver` one
higher, modulo `2 ^ 64`, whatever context the greenlet had saved, null or the one
already installed; so does `PythonStateContext::context(tstate, new_context)` for
every `new_context`. -/
theorem restore_bumps_context_ver (p : PythonState) (cf : List CFrame) (ts : PyThreadState)
    (new_context i : Nat) (hi : p.cframe = some i) (hcf : i < cf.length) :
    (∃ p1 cf1 ts1, p.operator_shr cf ts = .ok (p1, cf1, ts1) ∧
      ts1.context = p._context.p ∧
      ts1.context_ver = (ts.context_ver + 1) % 2 ^ 64) ∧
    (PythonStateContext.context ts new_context).context = new_context ∧
    (PythonStateContext.context ts new_context).context_ver =
      (ts.context_ver + 1) % 2 ^ 64 := by
  have hf : (cf)[i]? = some (cf.get ⟨i, hcf⟩) := List.getElem?_eq_getElem hcf
  exact ⟨⟨_, _, _, PythonState.operator_shr_returns p cf ts i _ hi hf, rfl, rfl⟩, rfl, rfl⟩

/-- C12 at `tstateExample`, whose counter wraps to 0. -/
theorem restore_bumps_context_ver_witness :
    (∃ p1 cf1 ts1, pythonSaved.operator_shr cframesExample tstateExample = .ok (p1, cf1, ts1) ∧
      ts1.context = 9 ∧ ts1.context_ver = 0) ∧
    (PythonStateContext.context tstateExample 0).context = 0 ∧
    (PythonStateContext.context tstateExample 0).context_ver = 0 :=
  restore_bumps_context_ver pythonSaved cframesExample tstateExample 0 0 rfl (by decide)

/-- C13: the saved `ExecutionContext` is moved on resume. After
`ExceptionState::operator>>` the greenlet's `exc_info`, `exc_type`, `exc_value`,
`exc_traceback` and `previous_item` are null; `PythonState::operator>>` returns
when the saved `cframe` is valid, the thread state then holds the frame and the
context the greenlet held, the greenlet's `top_frame()` and context are empty, and
a greenlet with this `PythonState` is running in some thread exactly when its
`StackState` is active; in general `is_currently_running_in_some_thread()` is
true exactly when the `StackState` is active and `top_frame()` is empty. -/
theorem restore_moves_execution_context (e : ExceptionState) (p : PythonState)
    (cf : List CFrame) (ts : PyThreadState) (g : Greenlet) (i : Nat)
    (hi : p.cframe = some i) (hcf : i < cf.length) :
    ((e.operator_shr ts).1.exc_info = 0 ∧ (e.operator_shr ts).1.exc_state.exc_type = 0 ∧
      (e.operator_shr ts).1.exc_state.exc_value = 0 ∧
      (e.operator_shr ts).1.exc_state.exc_traceback = 0 ∧
      (e.operator_shr ts).1.exc_state.previous_item = 0) ∧
    (∃ p1 cf1 ts1, p.operator_shr cf ts = .ok (p1, cf1, ts1) ∧
      ts1.frame = p.top_frame.p ∧ ts1.context = p._context.p ∧
      p1.top_frame.p = 0 ∧ p1.top_frame.operator_bool = false ∧ p1._context.p = 0 ∧
      ({ g with python_state := p1 }).is_currently_running_in_some_thread =
        g.stack_state.active) ∧
    (g.is_currently_running_in_some_thread = true ↔
      g.stack_state.active = true ∧ g.python_state.top_frame.p = 0) := by
  have hf : (cf)[i]? = some (cf.get ⟨i, hcf⟩) := List.getElem?_eq_getElem hcf
  refine ⟨⟨rfl, rfl, rfl, rfl, rfl⟩,
    ⟨_, _, _, PythonState.operator_shr_returns p cf ts i _ hi hf, rfl, rfl, rfl, rfl, rfl, ?_⟩, ?_⟩
  · simp [Greenlet.is_currently_running_in_some_thread, PythonState.top_frame,
      OwnedReference.operator_bool]
  · simp [Greenlet.is_currently_running_in_some_thread, PythonState.top_frame,
      OwnedReference.operator_bool]

/-- C13 at the suspended greenlet `greenletExample`, restored over `tstateLater`. -/
theorem restore_moves_execution_context_witness :
    (∃ p1 cf1 ts1, pythonSaved.operator_shr cframesLater tstateLater = .ok (p1, cf1, ts1) ∧
      ts1.frame = 7 ∧ ts1.context = 9 ∧
      p1.top_frame.p = 0 ∧ p1.top_frame.operator_bool = false ∧ p1._context.p = 0 ∧
      ({ greenletExample with python_state := p1 }).is_currently_running_in_some_thread =
        true) ∧
    (greenletExample.is_currently_running_in_some_thread = true ↔
      greenletExample.stack_state.active = true ∧
        greenletExample.python_state.top_frame.p = 0) :=
  (restore_moves_execution_context exceptionExample pythonSaved cframesLater tstateLater
    greenletExample 0 rfl (by decide)).2

/-- C14 as stated fails. After `PythonState::operator<<` and
`ExceptionState::operator<<` from `tstateExample`, the thread state still holds
frame `7`, context `9`, `exc_info` `100` and the `exc_state` it had, none of them
replaced by a null value, and the greenlet holds the same values. -/
theorem save_keeps_thread_state :
    ∃ p1 ts1, pythonExample.operator_shl cframesExample tstateExample = .ok (p1, ts1) ∧
      p1.top_frame.p = 7 ∧ ts1.frame = 7 ∧ p1._context.p = 9 ∧ ts1.context = 9 ∧
      (exceptionExample.operator_shl ts1).1.exc_info = 100 ∧
      (exceptionExample.operator_shl ts1).2.exc_info = 100 ∧
      (exceptionExample.operator_shl ts1).2.exc_state =
        { exc_type := 1, exc_value := 2, exc_traceback := 3, previous_item := 4 } :=
  ⟨pythonSaved, tstateExample, rfl, rfl, rfl, rfl, rfl, rfl, rfl, rfl⟩

/-- C14, amended: the save operations copy from the thread state and leave it as
it is. For every thread state with a valid `cframe`, `PythonState::operator<<`
returns; after it and `ExceptionState::operator<<` the greenlet holds the thread
state's recursion depth, frame, context, `cframe`, `exc_info` and `exc_state`, and
the thread state, which both take as pointer to `const`, is the one it was: its
frame, context and exception-state fields still hold the values just saved. -/
theorem save_copies_thread_state (e : ExceptionState) (p : PythonState)
    (ts : PyThreadState) (cf : List CFrame) (i : Nat)
    (hi : ts.cframe = some i) (hcf : i < cf.length) :
    ∃ p1 ts1, p.operator_shl cf ts = .ok (p1, ts1) ∧ ts1 = ts ∧
      (e.operator_shl ts1).2 = ts ∧
      p1.recursion_depth = ts.recursion_depth ∧ p1.top_frame.p = ts.frame ∧
      p1._context.p = ts.context ∧ p1.cframe = ts.cframe ∧
      (e.operator_shl ts1).1.exc_info = ts.exc_info ∧
      (e.operator_shl ts1).1.exc_state = ts.exc_state := by
  have hf : (cf)[i]? = some (cf.get ⟨i, hcf⟩) := List.getElem?_eq_getElem hcf
  exact ⟨_, _, PythonState.operator_shl_returns p cf ts i _ hi hf, rfl, rfl, rfl, rfl, rfl, rfl,
    rfl, rfl⟩

/-- C14, amended, at `tstateExample`. -/
theorem save_copies_thread_state_witness :
    ∃ p1 ts1, pythonExample.operator_shl cframesExample tstateExample = .ok (p1, ts1) ∧
      ts1 = tstateExample ∧ (exceptionExample.operator_shl ts1).2 = tstateExample ∧
      p1.recursion_depth = 3 ∧ p1.top_frame.p = 7 ∧ p1._context.p = 9 ∧
      p1.cframe = some 0 ∧ (exceptionExample.operator_shl ts1).1.exc_info = 100 ∧
      (exceptionExample.operator_shl ts1).1.exc_state =
        { exc_type := 1, exc_value := 2, exc_traceback := 3, previous_item := 4 } :=
  save_copies_thread_state exceptionExample pythonExample tstateExample cframesExample 0 rfl
    (by decide)

/-- C15: the tracing flag follows the initiator of the switch. For every target
`PythonState` `p`, whatever `use_tracing` it holds, and every origin thread state
`o` with a valid `cframe`, `p.will_switch_from(o)` returns, and the following
`p.operator>>(tstate)` returns when `p`'s saved `cframe` is valid then; after it
`tstate->cframe` is `p`'s saved `cframe`, its `use_tracing` is the one the hook
read from `o`'s `cframe`, its `previous` is unchanged and so is every other
`CFrame`. -/
theorem tracing_flag_follows_initiator (p : PythonState) (o ts : PyThreadState)
    (cfo cf : List CFrame) (i j : Nat) (fo : CFrame)
    (ho : o.cframe = some i) (hfo : (cfo)[i]? = some fo) (hp : p.cframe = some j)
    (hj : j < cf.length) :
    ∃ p1 p2 cf1 ts1 f1,
      p.will_switch_from cfo o = .ok p1 ∧ p1.operator_shr cf ts = .ok (p2, cf1, ts1) ∧
      ts1.cframe = p.cframe ∧ (cf1)[j]? = some f1 ∧ f1.use_tracing = fo.use_tracing ∧
      f1.previous = (cf.get ⟨j, hj⟩).previous ∧
      (∀ k : Nat, k ≠ j → (cf1)[k]? = (cf)[k]?) := by
  have hf : (cf)[j]? = some (cf.get ⟨j, hj⟩) := List.getElem?_eq_getElem hj
  refine ⟨_, _, _, _, { cf.get ⟨j, hj⟩ with use_tracing := fo.use_tracing },
    PythonState.will_switch_from_returns p cfo o i fo ho hfo,
    PythonState.operator_shr_returns _ cf ts j _ hp hf, rfl, ?_, rfl, rfl, ?_⟩
  · exact List.getElem?_set_self hj
  · intro k hk
    exact List.getElem?_set_ne (Ne.symm hk)

/-- C15 at a target saved with tracing on and an origin running with tracing
off. -/
theorem tracing_flag_follows_initiator_witness :
    ∃ p1 p2 cf1 ts1 f1,
      pythonSaved.will_switch_from cframesLater tstateLater = .ok p1 ∧
      p1.operator_shr cframesExample tstateLater = .ok (p2, cf1, ts1) ∧
      ts1.cframe = some 0 ∧ (cf1)[0]? = some f1 ∧ f1.use_tracing = 0 :=
  match tracing_flag_follows_initiator pythonSaved tstateLater tstateLater cframesLater
      cframesExample 1 0 { use_tracing := 0, previous := some 0 } rfl rfl rfl (by decide) with
  | ⟨p1, p2, cf1, ts1, f1, h1, h2, h3, h4, h5, _⟩ => ⟨p1, p2, cf1, ts1, f1, h1, h2, h3, h4, h5⟩

/-! ### Zero-length evacuation, assignment, `run` and a never-saved exception state
(C21, C22, C23, C26) -/

/-- C21: zero-length evacuation is a no-op. For every `StackState` and every `stop`
with `stop - _stack_start <= _stack_saved`, the difference being the `intptr_t`
that the code computes (the difference itself when the two addresses are less than
`2^63` apart), `copy_stack_to_heap_up_to(stop)` returns 0 and leaves the
whole thread as it was: no reallocation is made, no member of the object and no
byte of its heap copy changes. The assertion of the function asks for a non-null
`_stack_start`; compiled with `NDEBUG` the call returns for a null one as well. -/
theorem zero_length_evacuation_is_noop (A : Allocator) (ndebug : Bool) (w : Thread)
    (this stop : Nat) (s : StackState) (hs : w.states[this]? = some s)
    (hpre : ndebug = true ∨ s._stack_start ≠ 0)
    (hle : intptr_t ((stop : Int) - (s._stack_start : Int)) ≤ s._stack_saved) :
    StackState.copy_stack_to_heap_up_to A ndebug w this stop = .ok (0, w) := by
  unfold StackState.copy_stack_to_heap_up_to
  have ha : ¬ (ndebug = false ∧ s._stack_start = 0) := by
    rintro ⟨h1, h2⟩
    rcases hpre with h | h
    · rw [h1] at h
      exact absurd h (by decide)
    · exact h h2
  have hgt : ¬ (intptr_t ((stop : Int) - (s._stack_start : Int)) > s._stack_saved) :=
    not_lt.mpr hle
  simp only [hs, ha, hgt, if_false]

/-- C21 at the thread `smallThread`, `stop = _stack_start = 12` with nothing saved,
and at the state of `make_main()` with `stop = (char*)-1`, where the difference is
`-2` as an `intptr_t`. -/
theorem zero_length_evacuation_is_noop_witness :
    StackState.copy_stack_to_heap_up_to neverFails false smallThread 0 12 = .ok (0, smallThread) ∧
    StackState.copy_stack_to_heap_up_to neverFails false mainThread 0 CHAR_PTR_MINUS_ONE =
      .ok (0, mainThread) :=
  ⟨zero_length_evacuation_is_noop neverFails false smallThread 0 12
    { StackState.make_main with _stack_start := 12 } rfl (Or.inr (by decide)) (by decide),
   zero_length_evacuation_is_noop neverFails false mainThread 0 CHAR_PTR_MINUS_ONE
    StackState.make_main rfl (Or.inr (by decide)) (by decide)⟩

/-- With assertions compiled in, `copy_stack_to_heap_up_to` on an object with a
null `_stack_start` stops at its assertion, whatever `stop` is. -/
theorem copy_stack_to_heap_up_to_inactive (A : Allocator) (w : Thread) (this stop : Nat)
    (s : StackState) (hs : w.states[this]? = some s) (h0 : s._stack_start = 0) :
    StackState.copy_stack_to_heap_up_to A false w this stop = .error .assertion := by
  unfold StackState.copy_stack_to_heap_up_to
  simp [hs, h0]

/-- C22: assignment and copy construction refuse to steal memory. For objects `a`
and `b` at distinct handles, `a = b` throws `std::runtime_error` exactly when
`b._stack_saved` is non-zero, and then the thread, `a` included, is as it was and
nothing has been freed; when it is zero the call returns, the heap copy that `a`
held has been handed to `PyMem_Free`, once, and `a` has the five members of `b`;
`a = a` changes nothing and frees nothing; and `StackState(b)` throws in the same
case, leaving the thread as it was, and otherwise makes a new object with the five
members of `b`, freeing nothing. -/
theorem assignment_refuses_to_steal (w : Thread) (a b : Nat) (sa sb : StackState)
    (hab : a ≠ b) (ha : w.states[a]? = some sa) (hb : w.states[b]? = some sb) :
    (∃ r, StackState.operator_assign w a b = .ok r ∧
      (r.1 ≠ none ↔ sb._stack_saved ≠ 0) ∧
      (sb._stack_saved ≠ 0 →
        r = (some (.runtime_error "Refusing to steal memory."), w)) ∧
      (sb._stack_saved = 0 →
        r = (none, { w with states := w.states.set a sb
                            freed := PyMem_Free w.freed sa.stack_copy }) ∧
        ∀ blk, sa.stack_copy = some blk → r.2.freed = w.freed ++ [blk])) ∧
    StackState.operator_assign w a a = .ok (none, w) ∧
    (∃ r, StackState.init_copy w b = .ok r ∧
      (r.1 ≠ none ↔ sb._stack_saved ≠ 0) ∧
      (sb._stack_saved ≠ 0 →
        r = (some (.runtime_error "Refusing to steal memory."), w)) ∧
      (sb._stack_saved = 0 → r = (none, { w with states := w.states ++ [sb] }))) := by
  have hba : ¬ b = a := fun e => hab e.symm
  refine ⟨?_, ?_, ?_⟩
  · unfold StackState.operator_assign
    simp only [ha, hb, if_neg hba]
    have hfree : PyMem_Free w.freed (sa.given_up sa.free_stack_copy) =
        PyMem_Free w.freed sa.stack_copy := by
      simp [StackState.given_up, StackState.free_stack_copy]
    by_cases hz : sb._stack_saved = 0
    · refine ⟨_, by rw [if_neg (not_not.mpr hz)], ?_, ?_, ?_⟩
      · simp [hz]
      · intro h; exact absurd hz h
      · intro _
        rw [hfree]
        refine ⟨rfl, ?_⟩
        intro blk hblk
        simp [PyMem_Free, hblk]
    · refine ⟨_, by rw [if_pos hz], ?_, ?_, ?_⟩
      · simp [hz]
      · intro _; rfl
      · intro h; exact absurd h hz
  · unfold StackState.operator_assign
    simp only [ha, if_true]
  · have hlt : b < w.states.length := lt_length_of_getElem? hb
    have hne : ¬ b = w.states.length := by omega
    have h1 : (w.states ++ [StackState.init])[w.states.length]? = some StackState.init := by
      simp
    have h2 : (w.states ++ [StackState.init])[b]? = some sb := by
      rw [List.getElem?_append_left hlt]; exact hb
    unfold StackState.init_copy StackState.operator_assign
    simp only [h1, h2, if_neg hne]
    by_cases hz : sb._stack_saved = 0
    · refine ⟨_, by rw [if_neg (not_not.mpr hz)], ?_, ?_, ?_⟩
      · simp [hz]
      · intro h; exact absurd hz h
      · intro _
        simp [StackState.free_stack_copy, StackState.init, StackState.given_up, PyMem_Free]
    · refine ⟨_, by rw [if_pos hz], ?_, ?_, ?_⟩
      · simp [hz]
      · intro _; rfl
      · intro h; exact absurd h hz

/-- C22 at the thread `assignThread`: assigning from the saved state throws and
frees nothing, and assigning to it from the main state frees its block `[5, 6]` and
overwrites it. -/
theorem assignment_refuses_to_steal_witness :
    assignThread.freed = [] ∧
    (∃ r, StackState.operator_assign assignThread 0 1 = .ok r ∧
      r = (some (.runtime_error "Refusing to steal memory."), assignThread)) ∧
    (∃ r, StackState.operator_assign assignThread 1 0 = .ok r ∧
      r = (none, { assignThread with
        states := [{ StackState.make_main with _stack_start := 12 },
                   { StackState.make_main with _stack_start := 12 }]
        freed := [[5, 6]] }) ∧
      r.2.freed = [] ++ [[5, 6]]) :=
  ⟨rfl,
   match (assignment_refuses_to_steal assignThread 0 1 _ _ (by decide) rfl rfl).1 with
    | ⟨r, h1, _, h3, _⟩ => ⟨r, h1, h3 (by decide)⟩,
   match (assignment_refuses_to_steal assignThread 1 0 _ _ (by decide) rfl rfl).1 with
    | ⟨r, h1, _, _, h4⟩ => ⟨r, h1, (h4 rfl).1, (h4 rfl).2 [5, 6] rfl⟩⟩

/-- C23: reading `run`. `UserGreenlet::run()` throws `AttributeError("run")`
exactly when the greenlet is started, that is its `stack_stop` is non-null, or its
`_run_callable` is empty; it throws nothing else, and otherwise it returns the
stored callable. -/
theorem run_raises_when_started_or_unset (g : UserGreenlet) :
    (g.run = .error (.AttributeError "run") ↔
      (g.stack_state.stack_stop ≠ 0 ∨ g._run_callable.p = 0)) ∧
    (∀ e, g.run = .error e → e = .AttributeError "run") ∧
    (g.stack_state.stack_stop = 0 → g._run_callable.p ≠ 0 → g.run = .ok g._run_callable) ∧
    (∀ r, g.run = .ok r → r = g._run_callable ∧ g.toGreenlet.started = false ∧ r.p ≠ 0) := by
  by_cases hc : g.stack_state.stack_stop ≠ 0 ∨ g._run_callable.p = 0
  · have hb : (g.toGreenlet.started || !g._run_callable.operator_bool) = true := by
      rcases hc with h | h
      · simp [Greenlet.started, StackState.started, h]
      · simp [OwnedReference.operator_bool, h]
    have hr : g.run = .error (.AttributeError "run") := by
      unfold UserGreenlet.run
      rw [if_pos hb]
    refine ⟨⟨fun _ => hc, fun _ => hr⟩, ?_, ?_, ?_⟩
    · intro e he
      rw [hr] at he
      exact (Except.error.inj he).symm
    · intro h1 h2
      rcases hc with h | h
      · exact absurd h1 h
      · exact absurd h h2
    · intro r h
      rw [hr] at h
      cases h
  · push_neg at hc
    have hb : ¬ (g.toGreenlet.started || !g._run_callable.operator_bool) = true := by
      simp [Greenlet.started, StackState.started, OwnedReference.operator_bool, hc.1, hc.2]
    have hr : g.run = .ok g._run_callable := by
      unfold UserGreenlet.run
      rw [if_neg hb]
    refine ⟨⟨fun h => ?_, fun h => ?_⟩, ?_, fun _ _ => hr, ?_⟩
    · rw [hr] at h
      cases h
    · rcases h with h | h
      · exact absurd hc.1 h
      · exact absurd h hc.2
    · intro e he
      rw [hr] at he
      cases he
    · intro r h
      rw [hr] at h
      have e : g._run_callable = r := Except.ok.inj h
      subst e
      refine ⟨rfl, ?_, hc.2⟩
      simp [Greenlet.started, StackState.started, hc.1]

/-- C23 at `userExample`, which has not run and holds the callable `40`. -/
theorem run_raises_when_started_or_unset_witness :
    userExample.run = .ok { p := 40 } :=
  (run_raises_when_started_or_unset userExample).2.2.1 rfl (by decide)

/-- C26: restoring a never-saved exception state installs the thread's own slot.
For an `ExceptionState` as its constructor or `clear()` leaves it,
`operator>>(tstate)` sets `tstate->exc_info` to `&tstate->exc_state` and the four
members of `tstate->exc_state` to null; whenever the saved `exc_info` is null the
thread's own slot is installed, `exc_state` being the saved one; for a saved
`exc_info` that is not null, `tstate->exc_info` is that pointer. -/
theorem never_saved_restores_own_slot (e0 e : ExceptionState) (ts : PyThreadState) :
    (((ExceptionState.init e0).operator_shr ts).2.exc_info = ts.exc_state_addr ∧
      ((ExceptionState.init e0).operator_shr ts).2.exc_state =
        { exc_type := 0, exc_value := 0, exc_traceback := 0, previous_item := 0 }) ∧
    ((e0.clear.operator_shr ts).2.exc_info = ts.exc_state_addr ∧
      (e0.clear.operator_shr ts).2.exc_state =
        { exc_type := 0, exc_value := 0, exc_traceback := 0, previous_item := 0 }) ∧
    (e.exc_info = 0 → (e.operator_shr ts).2.exc_info = ts.exc_state_addr ∧
      (e.operator_shr ts).2.exc_state = e.exc_state) ∧
    (e.exc_info ≠ 0 → (e.operator_shr ts).2.exc_info = e.exc_info ∧
      (e.operator_shr ts).2.exc_state = e.exc_state) := by
  refine ⟨⟨rfl, rfl⟩, ⟨rfl, rfl⟩, ?_, ?_⟩
  · intro h
    simp [ExceptionState.operator_shr, h]
  · intro h
    simp [ExceptionState.operator_shr, h]

/-- C26 at `tstateExample`: a cleared state installs the slot at address `500`, a
state saved with `exc_info = 100` installs `100`. -/
theorem never_saved_restores_own_slot_witness :
    (exceptionExample.operator_shr tstateExample).2.exc_info = 500 ∧
    ((exceptionExample.operator_shl tstateExample).1.operator_shr tstateLater).2.exc_info = 100 :=
  ⟨((never_saved_restores_own_slot exceptionExample exceptionExample tstateExample).2.2.1
      rfl).1,
   ((never_saved_restores_own_slot exceptionExample
      (exceptionExample.operator_shl tstateExample).1 tstateLater).2.2.2 (by decide)).1⟩

/-! ### The invariant between `_stack_saved` and `stack_copy` (C27) -/

theorem AllSavedIffCopy_set {S : List StackState} {i : Nat} {s : StackState}
    (hS : AllSavedIffCopy S) (hs : SavedIffCopy s) : AllSavedIffCopy (S.set i s) := by
  intro k s1 hk
  by_cases hik : i = k
  · subst hik
    have hlt : i < S.length := by
      have := lt_length_of_getElem? hk
      simpa using this
    rw [List.getElem?_set_self hlt] at hk
    have e : s = s1 := Option.some.inj hk
    rw [← e]; exact hs
  · rw [List.getElem?_set_ne hik] at hk
    exact hS k s1 hk

theorem SavedIffCopy_free (s : StackState) : SavedIffCopy s.free_stack_copy := by
  simp [SavedIffCopy, StackState.free_stack_copy]

theorem SavedIffCopy_start {s : StackState} (a : Nat) (h : SavedIffCopy s) :
    SavedIffCopy { s with _stack_start := a } := h

theorem SavedIffCopy_prev {s : StackState} (p : Option Nat) (h : SavedIffCopy s) :
    SavedIffCopy { s with stack_prev := p } := h

theorem SavedIffCopy_evacuated (stack : Nat → Nat) {s : StackState}
    {stop : Nat} (c : List Nat) (hnn : 0 ≤ s._stack_saved)
    (hgt : intptr_t ((stop : Int) - (s._stack_start : Int)) > s._stack_saved) :
    SavedIffCopy (evacuated stack s stop c) := by
  constructor
  · show (0 : Int) ≤ intptr_t ((stop : Int) - (s._stack_start : Int))
    omega
  · constructor
    · intro h
      have h1 : intptr_t ((stop : Int) - (s._stack_start : Int)) = 0 := h
      omega
    · intro h
      simp [evacuated] at h

theorem copy_stack_to_heap_up_to_sound {A : Allocator} {ndebug : Bool} {w w1 : Thread}
    {this stop : Nat} {r : Int} (hw : AllSavedIffCopy w.states)
    (h : StackState.copy_stack_to_heap_up_to A ndebug w this stop = .ok (r, w1)) :
    AllSavedIffCopy w1.states := by
  rcases copy_stack_to_heap_up_to_cases h with ⟨s, hs, -, h1 | h1 | h1⟩
  · rcases h1 with ⟨-, -, rfl⟩; exact hw
  · rcases h1 with ⟨-, -, -, rfl⟩; exact hw
  · rcases h1 with ⟨hgt, hnn, c, -, -, rfl⟩
    exact AllSavedIffCopy_set hw (SavedIffCopy_evacuated w.stack c hnn hgt)

theorem save_loop_sound {A : Allocator} {ndebug : Bool} {this target : Nat} :
    ∀ (fuel : Nat) (w : Thread) (owner : Option Nat) (r : Int) (w2 : Thread),
      AllSavedIffCopy w.states →
      StackState.save_loop A ndebug this target fuel w owner = .ok (r, w2) →
      AllSavedIffCopy w2.states
  | 0, _, _, _, _, _, h => by simp [StackState.save_loop] at h
  | _ + 1, _, none, _, _, _, h => by simp [StackState.save_loop] at h
  | fuel + 1, w, some o, r, w2, hw, h => by
    simp only [StackState.save_loop] at h
    cases hos : w.states[o]? with
    | none => simp [hos] at h
    | some os =>
      simp only [hos] at h
      by_cases hlt : os.stack_stop < target
      · simp only [hlt, if_true] at h
        cases hc : StackState.copy_stack_to_heap_up_to A ndebug w o os.stack_stop with
        | error e => simp [hc] at h
        | ok p =>
          obtain ⟨r1, w1⟩ := p
          simp only [hc] at h
          have hw1 := copy_stack_to_heap_up_to_sound hw hc
          by_cases hr : r1 ≠ 0
          · rw [if_pos hr] at h
            simp only [Except.ok.injEq, Prod.mk.injEq] at h
            rw [← h.2]; exact hw1
          · rw [if_neg hr] at h
            cases hos1 : w1.states[o]? with
            | none => simp [hos1] at h
            | some os1 =>
              simp only [hos1] at h
              exact save_loop_sound fuel w1 os1.stack_prev r w2 hw1 h
      · simp only [hlt, if_false] at h
        by_cases hne : o ≠ this
        · rw [if_pos hne] at h
          cases hc : StackState.copy_stack_to_heap_up_to A ndebug w o target with
          | error e => simp [hc] at h
          | ok p =>
            obtain ⟨r1, w1⟩ := p
            simp only [hc] at h
            have hw1 := copy_stack_to_heap_up_to_sound hw hc
            by_cases hr : r1 ≠ 0
            · rw [if_pos hr] at h
              simp only [Except.ok.injEq, Prod.mk.injEq] at h
              rw [← h.2]; exact hw1
            · rw [if_neg hr] at h
              simp only [Except.ok.injEq, Prod.mk.injEq] at h
              rw [← h.2]; exact hw1
        · rw [if_neg hne] at h
          simp only [Except.ok.injEq, Prod.mk.injEq] at h
          rw [← h.2]; exact hw

theorem copy_stack_to_heap_sound {A : Allocator} {ndebug : Bool} {w w2 : Thread}
    {this stackref current : Nat} {r : Int} (hw : AllSavedIffCopy w.states)
    (h : StackState.copy_stack_to_heap A ndebug w this stackref current = .ok (r, w2)) :
    AllSavedIffCopy w2.states := by
  rcases copy_stack_to_heap_cases h with ⟨t, c, -, hc, -, ⟨-, hl⟩ | ⟨-, hl⟩⟩
  · exact save_loop_sound _ _ _ _ _ hw hl
  · refine save_loop_sound _ _ _ _ _ ?_ hl
    exact AllSavedIffCopy_set hw (SavedIffCopy_start stackref (hw current c hc))

theorem copy_heap_to_stack_sound {w w2 : Thread} {this current : Nat}
    (hw : AllSavedIffCopy w.states)
    (h : StackState.copy_heap_to_stack w this current = .ok w2) :
    AllSavedIffCopy w2.states := by
  rcases copy_heap_to_stack_cases h with ⟨w1, t1, c1, owner1, hr, ht1, -, -, rfl⟩
  have hw1 : AllSavedIffCopy w1.states := by
    rcases restore_heap_copy_cases hr with ⟨s, hs, ⟨-, rfl⟩ | ⟨-, c, -, -, -, -, rfl⟩⟩
    · exact hw
    · exact AllSavedIffCopy_set hw (SavedIffCopy_free s)
  exact AllSavedIffCopy_set hw1 (SavedIffCopy_prev owner1 (hw1 this t1 ht1))

theorem operator_assign_sound {w w1 : Thread} {this other : Nat} {e : Option Exception}
    (hw : AllSavedIffCopy w.states)
    (h : StackState.operator_assign w this other = .ok (e, w1)) :
    AllSavedIffCopy w1.states := by
  unfold StackState.operator_assign at h
  cases ht : w.states[this]? with
  | none => simp [ht] at h
  | some t =>
    cases ho : w.states[other]? with
    | none => simp [ht, ho] at h
    | some o =>
      simp only [ht, ho] at h
      by_cases hsame : other = this
      · rw [if_pos hsame] at h
        simp only [Except.ok.injEq, Prod.mk.injEq] at h
        rw [← h.2]; exact hw
      · rw [if_neg hsame] at h
        by_cases hz : o._stack_saved ≠ 0
        · rw [if_pos hz] at h
          simp only [Except.ok.injEq, Prod.mk.injEq] at h
          rw [← h.2]; exact hw
        · rw [if_neg hz] at h
          simp only [Except.ok.injEq, Prod.mk.injEq] at h
          rw [← h.2]
          exact AllSavedIffCopy_set hw (hw other o ho)

theorem AllSavedIffCopy_append {S : List StackState} {s : StackState}
    (hS : AllSavedIffCopy S) (hs : SavedIffCopy s) : AllSavedIffCopy (S ++ [s]) := by
  intro k s1 hk
  by_cases hlt : k < S.length
  · rw [List.getElem?_append_left hlt] at hk
    exact hS k s1 hk
  · have hge : S.length ≤ k := not_lt.mp hlt
    rw [List.getElem?_append_right hge] at hk
    cases hk0 : k - S.length with
    | zero =>
      rw [hk0] at hk
      have e : s = s1 := by simpa using hk
      rw [← e]; exact hs
    | succ n =>
      rw [hk0] at hk
      simp at hk

theorem SavedIffCopy_init : SavedIffCopy StackState.init := by
  simp [SavedIffCopy, StackState.init]

theorem init_copy_sound {w w1 : Thread} {other : Nat} {e : Option Exception}
    (hw : AllSavedIffCopy w.states)
    (h : StackState.init_copy w other = .ok (e, w1)) :
    AllSavedIffCopy w1.states := by
  unfold StackState.init_copy at h
  cases ha : StackState.operator_assign { w with states := w.states ++ [StackState.init] }
      w.states.length other with
  | error f => simp [ha] at h
  | ok p =>
    obtain ⟨e1, w2⟩ := p
    have hw0 : AllSavedIffCopy
        ({ w with states := w.states ++ [StackState.init] } : Thread).states :=
      AllSavedIffCopy_append hw SavedIffCopy_init
    have hw2 := operator_assign_sound hw0 ha
    cases e1 with
    | none =>
      simp only [ha, Except.ok.injEq, Prod.mk.injEq] at h
      rw [← h.2]; exact hw2
    | some e2 =>
      simp only [ha, Except.ok.injEq, Prod.mk.injEq] at h
      rw [← h.2]; exact hw

theorem set_active_sound {ndebug : Bool} {s s1 : StackState} (hs : SavedIffCopy s)
    (h : s.set_active ndebug = .ok s1) : SavedIffCopy s1 := by
  unfold StackState.set_active at h
  split at h
  · simp at h
  · have e : { s with _stack_start := 1 } = s1 := by simpa using h
    rw [← e]; exact hs

theorem set_inactive_sound (s : StackState) (hs : SavedIffCopy s) :
    SavedIffCopy s.set_inactive ∧ (s.set_inactive.stack_copy = none) := by
  unfold StackState.set_inactive
  simp only
  by_cases hz : s._stack_saved = 0
  · rw [if_neg (not_not.mpr hz)]
    exact ⟨hs, hs.2.mp hz⟩
  · rw [if_pos hz]
    exact ⟨SavedIffCopy_free _, rfl⟩

theorem destructor_sound (s : StackState) (hs : SavedIffCopy s) :
    SavedIffCopy s.destructor ∧ (s.destructor.stack_copy = none) := by
  unfold StackState.destructor
  by_cases hz : s._stack_saved = 0
  · rw [if_neg (not_not.mpr hz)]
    exact ⟨hs, hs.2.mp hz⟩
  · rw [if_pos hz]
    exact ⟨SavedIffCopy_free _, rfl⟩

theorem AllSavedIffCopy_of_mem {S : List StackState} (h : ∀ s ∈ S, SavedIffCopy s) :
    AllSavedIffCopy S :=
  fun _ s hk => h s (List.getElem?_mem hk)

theorem assignThread_sound : AllSavedIffCopy assignThread.states := by
  apply AllSavedIffCopy_of_mem
  intro s hs
  simp only [assignThread, List.mem_cons, List.mem_singleton, List.not_mem_nil, or_false] at hs
  rcases hs with rfl | rfl
  · simp [SavedIffCopy, StackState.make_main, StackState.init]
  · simp [SavedIffCopy]

/-- C27: the `StackState` operations keep `_stack_saved >= 0` and `_stack_saved = 0`
exactly when `stack_copy` is null. The two constructors and `make_main()` establish
it; on a thread whose objects all satisfy it, assignment, copy construction,
`copy_stack_to_heap`, `copy_stack_to_heap_up_to` and `copy_heap_to_stack` leave
objects that all satisfy it, whatever they return or throw; `set_active`,
`set_inactive` and `free_stack_copy` keep it on the object they are called on; and
an object that satisfies it has a null `stack_copy` after `set_inactive()` and
after its destructor, which free the block only when `_stack_saved` is non-zero. -/
theorem saved_zero_iff_no_copy (A : Allocator) (ndebug : Bool) (w : Thread)
    (s current : StackState) (mark cur this other stop stackref : Nat)
    (hw : AllSavedIffCopy w.states) (hs : SavedIffCopy s) :
    (SavedIffCopy StackState.init ∧ SavedIffCopy (StackState.init_mark mark cur current) ∧
      SavedIffCopy StackState.make_main) ∧
    (∀ e w1, StackState.operator_assign w this other = .ok (e, w1) →
      AllSavedIffCopy w1.states) ∧
    (∀ e w1, StackState.init_copy w other = .ok (e, w1) → AllSavedIffCopy w1.states) ∧
    (∀ r w1, StackState.copy_stack_to_heap A ndebug w this stackref cur = .ok (r, w1) →
      AllSavedIffCopy w1.states) ∧
    (∀ r w1, StackState.copy_stack_to_heap_up_to A ndebug w this stop = .ok (r, w1) →
      AllSavedIffCopy w1.states) ∧
    (∀ w1, StackState.copy_heap_to_stack w this cur = .ok w1 → AllSavedIffCopy w1.states) ∧
    (∀ s1, s.set_active ndebug = .ok s1 → SavedIffCopy s1) ∧
    SavedIffCopy s.set_inactive ∧ SavedIffCopy s.free_stack_copy ∧
    SavedIffCopy s.destructor ∧
    s.set_inactive.stack_copy = none ∧ s.destructor.stack_copy = none := by
  refine ⟨⟨SavedIffCopy_init, ?_, ?_⟩, ?_, ?_, ?_, ?_, ?_, ?_, (set_inactive_sound s hs).1,
    SavedIffCopy_free s, (destructor_sound s hs).1, (set_inactive_sound s hs).2,
    (destructor_sound s hs).2⟩
  · simp [SavedIffCopy, StackState.init_mark]
  · simp [SavedIffCopy, StackState.make_main, StackState.init]
  · intro e w1 h; exact operator_assign_sound hw h
  · intro e w1 h; exact init_copy_sound hw h
  · intro r w1 h; exact copy_stack_to_heap_sound hw h
  · intro r w1 h; exact copy_stack_to_heap_up_to_sound hw h
  · intro w1 h; exact copy_heap_to_stack_sound hw h
  · intro s1 h; exact set_active_sound hs h

/-- C27 at the thread `assignThread`: after the main greenlet was saved from 3 up
to 7 every object satisfies the invariant, and the suspended greenlet, with two
bytes saved, has no heap copy after its destructor. -/
theorem saved_zero_iff_no_copy_witness :
    StackState.copy_stack_to_heap neverFails false assignThread 1 3 0 = .ok (0, assignSwitched) ∧
    AllSavedIffCopy assignSwitched.states ∧
    (StackState.destructor
      { _stack_start := 5, stack_stop := 7, stack_copy := some [5, 6], _stack_saved := 2,
        stack_prev := some 0 }).stack_copy = none :=
  ⟨rfl,
   (saved_zero_iff_no_copy neverFails false assignThread
      { _stack_start := 5, stack_stop := 7, stack_copy := some [5, 6], _stack_saved := 2,
        stack_prev := some 0 } StackState.init 0 0 1 0 0 3
      assignThread_sound (assignThread_sound 1 _ rfl)).2.2.2.1 0 assignSwitched rfl,
   (saved_zero_iff_no_copy neverFails false assignThread
      { _stack_start := 5, stack_stop := 7, stack_copy := some [5, 6], _stack_saved := 2,
        stack_prev := some 0 } StackState.init 0 0 1 0 0 3
      assignThread_sound (assignThread_sound 1 _ rfl)).2.2.2.2.2.2.2.2.2.2.2⟩

/-! ### The walks of restore and evacuation (C25, C24) -/

theorem Walk_unique {S : List StackState} {skip : StackState → Bool} :
    ∀ (pre pre2 : List Nat) (o r r2 : Option Nat),
      Walk S skip o pre r → Walk S skip o pre2 r2 → pre = pre2 ∧ r = r2
  | [], [], none, r, r2, h1, h2 => by
    simp only [Walk] at h1 h2
    exact ⟨rfl, h1.trans h2.symm⟩
  | [], [], some h, r, r2, h1, h2 => by
    simp only [Walk] at h1 h2
    exact ⟨rfl, h1.1.trans h2.1.symm⟩
  | [], _ :: _, none, _, _, _, h2 => by simp [Walk] at h2
  | _ :: _, _, none, _, _, h1, _ => by simp [Walk] at h1
  | [], k :: l, some h, r, r2, h1, h2 => by
    simp only [Walk] at h1 h2
    rcases h1 with ⟨-, s, hs, hk⟩
    rcases h2 with ⟨-, s2, hs2, hk2, -⟩
    rw [hs] at hs2
    have e : s = s2 := Option.some.inj hs2
    subst e
    rw [hk] at hk2
    exact absurd hk2 (by decide)
  | k :: l, [], some h, r, r2, h1, h2 => by
    simp only [Walk] at h1 h2
    rcases h1 with ⟨-, s, hs, hk, -⟩
    rcases h2 with ⟨-, s2, hs2, hk2⟩
    rw [hs] at hs2
    have e : s = s2 := Option.some.inj hs2
    subst e
    rw [hk] at hk2
    exact absurd hk2 (by decide)
  | k :: l, k2 :: l2, some h, r, r2, h1, h2 => by
    simp only [Walk] at h1 h2
    rcases h1 with ⟨e1, s, hs, -, hw1⟩
    rcases h2 with ⟨e2, s2, hs2, -, hw2⟩
    rw [hs] at hs2
    have e : s = s2 := Option.some.inj hs2
    subst e
    rcases Walk_unique l l2 _ r r2 hw1 hw2 with ⟨el, er⟩
    exact ⟨by rw [← e1, ← e2, el], er⟩

theorem Walk_congr {S S1 : List StackState} {skip : StackState → Bool}
    (hS : ∀ (k : Nat) (s : StackState), S[k]? = some s →
      ∃ s1, S1[k]? = some s1 ∧ s1.stack_prev = s.stack_prev ∧ skip s1 = skip s) :
    ∀ (pre : List Nat) (o r : Option Nat), Walk S skip o pre r → Walk S1 skip o pre r
  | [], none, _, h => by simpa [Walk] using h
  | _ :: _, none, _, h => by simp [Walk] at h
  | [], some k, r, h => by
    simp only [Walk] at h ⊢
    rcases h with ⟨hr, s, hs, hk⟩
    rcases hS k s hs with ⟨s1, hs1, -, hsk⟩
    exact ⟨hr, s1, hs1, by rw [hsk, hk]⟩
  | k2 :: l, some k, r, h => by
    simp only [Walk] at h ⊢
    rcases h with ⟨e, s, hs, hk, hw⟩
    rcases hS k s hs with ⟨s1, hs1, hp, hsk⟩
    exact ⟨e, s1, hs1, by rw [hsk, hk], by rw [hp]; exact Walk_congr hS l _ r hw⟩

theorem find_more_stack_walk {S : List StackState} {stop : Nat} :
    ∀ (fuel : Nat) (o r : Option Nat), StackState.find_more_stack S stop fuel o = .ok r →
      ∃ pre, Walk S (fun s => decide (s.stack_stop ≤ stop)) o pre r
  | 0, _, _, h => by simp [StackState.find_more_stack] at h
  | _ + 1, none, r, h => by
    simp only [StackState.find_more_stack, Except.ok.injEq] at h
    exact ⟨[], by simp [Walk, h.symm]⟩
  | fuel + 1, some o, r, h => by
    simp only [StackState.find_more_stack] at h
    cases hos : S[o]? with
    | none => simp [hos] at h
    | some os =>
      simp only [hos] at h
      by_cases hle : os.stack_stop ≤ stop
      · rw [if_pos hle] at h
        rcases find_more_stack_walk fuel _ r h with ⟨pre, hw⟩
        refine ⟨o :: pre, ?_⟩
        show o = o ∧ ∃ s, S[o]? = some s ∧ decide (s.stack_stop ≤ stop) = true ∧
          Walk S (fun s => decide (s.stack_stop ≤ stop)) s.stack_prev pre r
        exact ⟨rfl, os, hos, by simpa using hle, hw⟩
      · rw [if_neg hle] at h
        simp only [Except.ok.injEq] at h
        refine ⟨[], ?_⟩
        show r = some o ∧ ∃ s, S[o]? = some s ∧ decide (s.stack_stop ≤ stop) = false
        exact ⟨h.symm, os, hos, by simpa using hle⟩

theorem copy_heap_to_stack_relinks (w w2 : Thread) (t current : Nat)
    (h : StackState.copy_heap_to_stack w t current = .ok w2) :
    ∃ ts cs ts2 pre, w.states[t]? = some ts ∧ w.states[current]? = some cs ∧
      w2.states[t]? = some ts2 ∧
      Walk w.states (fun s => decide (s.stack_stop ≤ ts.stack_stop))
        (if cs._stack_start = 0 then cs.stack_prev else some current) pre ts2.stack_prev ∧
      (∀ pre2 r2, Walk w.states (fun s => decide (s.stack_stop ≤ ts.stack_stop))
        (if cs._stack_start = 0 then cs.stack_prev else some current) pre2 r2 →
          pre2 = pre ∧ r2 = ts2.stack_prev) ∧
      ts2._stack_start = ts._stack_start ∧ ts2.stack_stop = ts.stack_stop ∧
      w2.states.length = w.states.length ∧
      (∀ (k : Nat) (s : StackState), k ≠ t → w.states[k]? = some s →
        w2.states[k]? = some s) := by
  rcases copy_heap_to_stack_spec h with ⟨ts, cs, ts2, hts, hcs, hts2, hstart, hstop, hlen, hfr, -⟩
  rcases copy_heap_to_stack_cases h with ⟨w1, t1, c1, owner1, hr, ht1, hc1, hf, hw2⟩
  rcases restore_heap_copy_frame hr with ⟨hlen1, -, -, hfr1⟩
  rcases hfr1 t ts hts with ⟨t1', ht1', -, hstop1, -, -, -⟩
  have et : t1' = t1 := Option.some.inj (ht1'.symm.trans ht1)
  subst et
  rcases hfr1 current cs hcs with ⟨c1', hc1', hcstart, -, hcprev, -, -⟩
  have ec : c1' = c1 := Option.some.inj (hc1'.symm.trans hc1)
  subst ec
  have hprev : ts2.stack_prev = owner1 := by
    have hlt : t < w1.states.length := lt_length_of_getElem? ht1
    rw [hw2] at hts2
    simp only [List.getElem?_set_self hlt, Option.some.injEq] at hts2
    rw [← hts2]
  rcases find_more_stack_walk _ _ _ hf with ⟨pre, hwalk⟩
  have hback : ∀ (k : Nat) (s1 : StackState), w1.states[k]? = some s1 →
      ∃ s, w.states[k]? = some s ∧ s.stack_prev = s1.stack_prev ∧
        (fun s => decide (s.stack_stop ≤ t1'.stack_stop)) s =
          (fun s => decide (s.stack_stop ≤ t1'.stack_stop)) s1 := by
    intro k s1 hk
    have hklt : k < w.states.length := by
      have := lt_length_of_getElem? hk
      omega
    rcases hfr1 k (w.states.get ⟨k, hklt⟩) (List.getElem?_eq_getElem hklt) with
      ⟨s1', hs1', -, hst, hpr, -, -⟩
    have e : s1' = s1 := Option.some.inj (hs1'.symm.trans hk)
    subst e
    exact ⟨_, List.getElem?_eq_getElem hklt, hpr.symm, by simp only [hst]; rfl⟩
  have hwalk2 := Walk_congr hback pre _ _ hwalk
  rw [hcstart, hcprev, hstop1, ← hprev] at hwalk2
  refine ⟨ts, cs, ts2, pre, hts, hcs, hts2, hwalk2, ?_, hstart, hstop, hlen, hfr⟩
  intro pre2 r2 hw3
  exact Walk_unique pre2 pre _ r2 _ hw3 hwalk2

/-- C25: exact relinking on restore. After `t.copy_heap_to_stack(current)` the
`stack_prev` of `t` is where the walk along `stack_prev` links ends that starts at
`current`, or at `current.stack_prev` when `current._stack_start` is null, and
passes every object whose `stack_stop` is not above that of `t`: the first object
with a greater `stack_stop`, or null when the links end before there is one. The
walk is the only one there is. The arena keeps its length, `t` keeps its
`_stack_start` and `stack_stop`, and every other object is as it was. The call
returns when `t` has nothing saved, or a non-null `_stack_start` and a heap copy
that holds its `_stack_saved` bytes, and the links from `current` end. -/
theorem restore_relinks_to_first_above (w : Thread) (t current : Nat) (ts : StackState)
    (hts : w.states[t]? = some ts) :
    (∀ w2, StackState.copy_heap_to_stack w t current = .ok w2 →
      ∃ cs ts2 pre, w.states[current]? = some cs ∧ w2.states[t]? = some ts2 ∧
        Walk w.states (fun s => decide (s.stack_stop ≤ ts.stack_stop))
          (if cs._stack_start = 0 then cs.stack_prev else some current) pre ts2.stack_prev ∧
        (∀ pre2 r2, Walk w.states (fun s => decide (s.stack_stop ≤ ts.stack_stop))
          (if cs._stack_start = 0 then cs.stack_prev else some current) pre2 r2 →
            pre2 = pre ∧ r2 = ts2.stack_prev) ∧
        ts2._stack_start = ts._stack_start ∧ ts2.stack_stop = ts.stack_stop ∧
        w2.states.length = w.states.length ∧
        (∀ (k : Nat) (s : StackState), k ≠ t → w.states[k]? = some s →
          w2.states[k]? = some s)) ∧
    (∀ (cs : StackState) (l : List Nat),
      (ts._stack_saved = 0 ∨ ∃ c, ts.stack_copy = some c ∧ ts._stack_start ≠ 0 ∧
        0 ≤ ts._stack_saved ∧ ts._stack_saved ≤ (c.length : Int)) →
      w.states[current]? = some cs → IsChain w.states (some current) l →
      ∃ w2, StackState.copy_heap_to_stack w t current = .ok w2) := by
  constructor
  · intro w2 h
    rcases copy_heap_to_stack_relinks w w2 t current h with
      ⟨ts1, cs, ts2, pre, hts1, hcs, hts2, h1, h2, h3, h4, h5, h6⟩
    have e : ts1 = ts := Option.some.inj (hts1.symm.trans hts)
    subst e
    exact ⟨cs, ts2, pre, hcs, hts2, h1, h2, h3, h4, h5, h6⟩
  · intro cs l hpre hcur hch
    have hr : ∃ w1, StackState.restore_heap_copy w t = .ok w1 := by
      unfold StackState.restore_heap_copy
      rcases hpre with h0 | ⟨c, hc, hst, hnn, hle⟩
      · simp only [hts, ne_eq, h0, not_true_eq_false, if_false]
        exact ⟨_, rfl⟩
      · by_cases h0 : ts._stack_saved = 0
        · simp only [hts, ne_eq, h0, not_true_eq_false, if_false]
          exact ⟨_, rfl⟩
        · have hb : ¬ (ts._stack_saved < 0 ∨ (c.length : Int) < ts._stack_saved) := by omega
          simp only [hts, hc, ne_eq, h0, not_false_eq_true, if_true, hst, if_false, hb]
          exact ⟨_, rfl⟩
    rcases hr with ⟨w1, hr⟩
    exact copy_heap_to_stack_returns hr hcur hch

/-- C25 at the thread `walkThread`: the walk from the running greenlet passes the
objects at handles 2 and 1 and ends at the main one, to which handle 3 is linked. -/
theorem restore_relinks_to_first_above_witness :
    StackState.copy_heap_to_stack walkThread 3 2 = .ok walkRestored ∧
    (walkRestored.states[3]?).map StackState.stack_prev = some (some 0) ∧
    Walk walkThread.states (fun s => decide (s.stack_stop ≤ 60)) (some 2) [2, 1] (some 0) ∧
    (∃ cs ts2 pre, walkThread.states[2]? = some cs ∧ walkRestored.states[3]? = some ts2 ∧
      Walk walkThread.states (fun s => decide (s.stack_stop ≤ 60))
        (if cs._stack_start = 0 then cs.stack_prev else some 2) pre ts2.stack_prev ∧
      (∀ pre2 r2, Walk walkThread.states (fun s => decide (s.stack_stop ≤ 60))
        (if cs._stack_start = 0 then cs.stack_prev else some 2) pre2 r2 →
          pre2 = pre ∧ r2 = ts2.stack_prev) ∧
      ts2._stack_start = 35 ∧ ts2.stack_stop = 60 ∧
      walkRestored.states.length = walkThread.states.length ∧
      (∀ (k : Nat) (s : StackState), k ≠ 3 → walkThread.states[k]? = some s →
        walkRestored.states[k]? = some s)) ∧
    ∃ w2, StackState.copy_heap_to_stack walkThread 3 2 = .ok w2 :=
  ⟨rfl, by decide, ⟨rfl, _, rfl, rfl, rfl, _, rfl, rfl, rfl, _, rfl, rfl⟩,
   (restore_relinks_to_first_above walkThread 3 2 walkThree rfl).1 walkRestored rfl,
   (restore_relinks_to_first_above walkThread 3 2 walkThree rfl).2 walkTwo [2, 1, 0]
     (Or.inl rfl) rfl ⟨rfl, _, rfl, rfl, _, rfl, rfl, _, rfl, trivial⟩⟩

theorem MoreSaved_refl (S : List StackState) : MoreSaved S S :=
  ⟨rfl, fun _ s hs => ⟨s, hs, rfl, rfl, rfl, le_refl _⟩⟩

theorem MoreSaved_back {S S1 : List StackState} (h : MoreSaved S S1) (k : Nat)
    (s1 : StackState) (hs1 : S1[k]? = some s1) :
    ∃ s, S[k]? = some s ∧ s1._stack_start = s._stack_start ∧
      s1.stack_stop = s.stack_stop ∧ s1.stack_prev = s.stack_prev ∧
      s._stack_saved ≤ s1._stack_saved := by
  have hklt : k < S.length := by
    have := lt_length_of_getElem? hs1
    rw [h.1] at this
    exact this
  rcases h.2 k _ (List.getElem?_eq_getElem hklt) with ⟨s1', hs1', a, b, c, d⟩
  have e : s1' = s1 := Option.some.inj (hs1'.symm.trans hs1)
  subst e
  exact ⟨_, List.getElem?_eq_getElem hklt, a, b, c, d⟩

theorem copy_stack_to_heap_up_to_more {A : Allocator} {ndebug : Bool} {w w1 : Thread}
    {this stop : Nat} {r : Int}
    (h : StackState.copy_stack_to_heap_up_to A ndebug w this stop = .ok (r, w1)) :
    MoreSaved w.states w1.states ∧
    (∀ k : Nat, k ≠ this → w1.states[k]? = w.states[k]?) ∧
    (r = 0 → ∃ s1, w1.states[this]? = some s1 ∧
      intptr_t ((stop : Int) - (s1._stack_start : Int)) ≤ s1._stack_saved) := by
  rcases copy_stack_to_heap_up_to_cases h with ⟨s, hs, -, h1 | h1 | h1⟩
  · rcases h1 with ⟨hgt, -, rfl⟩
    exact ⟨MoreSaved_refl _, fun _ _ => rfl, fun _ => ⟨s, hs, not_lt.mp hgt⟩⟩
  · rcases h1 with ⟨-, -, hr, rfl⟩
    refine ⟨MoreSaved_refl _, fun _ _ => rfl, fun h0 => ?_⟩
    rw [hr] at h0
    exact absurd h0 (by decide)
  · rcases h1 with ⟨hgt, hnn, c, -, -, rfl⟩
    have hlt : this < w.states.length := lt_length_of_getElem? hs
    refine ⟨⟨by simp, ?_⟩, ?_, ?_⟩
    · intro k s0 hk
      by_cases hkt : this = k
      · subst hkt
        rw [hs] at hk
        have e : s = s0 := Option.some.inj hk
        subst e
        refine ⟨evacuated w.stack s stop c, List.getElem?_set_self hlt, rfl, rfl, rfl, ?_⟩
        show s._stack_saved ≤ intptr_t ((stop : Int) - (s._stack_start : Int))
        omega
      · refine ⟨s0, ?_, rfl, rfl, rfl, le_refl _⟩
        show (w.states.set this _)[k]? = some s0
        rw [List.getElem?_set_ne hkt]
        exact hk
    · intro k hk
      show (w.states.set this _)[k]? = w.states[k]?
      rw [List.getElem?_set_ne (Ne.symm hk)]
    · intro _
      exact ⟨evacuated w.stack s stop c, List.getElem?_set_self hlt, le_refl _⟩

theorem set_start_getElem? {S : List StackState} {c : Nat} {cs : StackState} (a : Nat)
    (hc : S[c]? = some cs) (k : Nat) (s1 : StackState)
    (h : (S.set c { cs with _stack_start := a })[k]? = some s1) :
    ∃ s, S[k]? = some s ∧ s1.stack_stop = s.stack_stop ∧ s1.stack_prev = s.stack_prev ∧
      s1.stack_copy = s.stack_copy ∧ s1._stack_saved = s._stack_saved ∧
      (k ≠ c → s1 = s) ∧ (k = c → s1._stack_start = a) := by
  by_cases hk : c = k
  · subst hk
    rw [List.getElem?_set_self (lt_length_of_getElem? hc)] at h
    have e : { cs with _stack_start := a } = s1 := Option.some.inj h
    subst e
    exact ⟨cs, hc, rfl, rfl, rfl, rfl, fun hn => absurd rfl hn, fun _ => rfl⟩
  · rw [List.getElem?_set_ne hk] at h
    exact ⟨s1, h, rfl, rfl, rfl, rfl, fun _ => rfl, fun e => absurd e.symm hk⟩

/-- On the thread `twoMains` the evacuation for the object at handle 0 comes to the one
at handle 1, whose `stack_stop` is not below the target's, and evacuates it up to
`(char*)-1`: the difference from its `_stack_start`, 45, is negative as an
`intptr_t`, so the call returns 0, makes no reallocation and saves nothing. -/
theorem evacuation_up_to_sentinel_saves_nothing :
    intptr_t ((CHAR_PTR_MINUS_ONE : Int) - ((45 : Nat) : Int)) = -46 ∧
    StackState.copy_stack_to_heap neverFails false twoMains 0 45 1 =
      .ok (0, { twoMains with
        states := [{ StackState.make_main with _stack_start := 40 },
                   { StackState.make_main with _stack_start := 45 }] }) :=
  ⟨by decide, rfl⟩


/-! ### Evacuation and restore stay inside the owner's range (C28) -/

theorem copy_stack_to_heap_up_to_error {A : Allocator} {ndebug : Bool} {w : Thread}
    {o stop : Nat} {s : StackState} {e : Fault} (hs : w.states[o]? = some s)
    (h : StackState.copy_stack_to_heap_up_to A ndebug w o stop = .error e) :
    (e = .assertion ∧ ndebug = false ∧ s._stack_start = 0) ∨
    (e = .out_of_bounds ∧ s._stack_saved < 0) := by
  unfold StackState.copy_stack_to_heap_up_to at h
  simp only [hs] at h
  by_cases ha : ndebug = false ∧ s._stack_start = 0
  · rw [if_pos ha] at h
    exact Or.inl ⟨(Except.error.inj h).symm, ha.1, ha.2⟩
  · rw [if_neg ha] at h
    by_cases hgt : intptr_t ((stop : Int) - (s._stack_start : Int)) > s._stack_saved
    · rw [if_pos hgt] at h
      cases hc : PyMem_Realloc A w.nrealloc s.stack_copy (intptr_t ((stop : Int) - (s._stack_start : Int))) with
      | none => simp [hc] at h
      | some c =>
        simp only [hc] at h
        by_cases hneg : s._stack_saved < 0
        · rw [if_pos hneg] at h
          exact Or.inr ⟨(Except.error.inj h).symm, hneg⟩
        · rw [if_neg hneg] at h
          simp at h
    · rw [if_neg hgt] at h
      simp at h

theorem IsChain_more {S S1 : List StackState} (h : MoreSaved S S1) {o : Option Nat}
    {l : List Nat} (hc : IsChain S o l) : IsChain S1 o l := by
  refine IsChain_congr ?_ hc
  intro k
  cases hk : S[k]? with
  | some s =>
    rcases h.2 k s hk with ⟨s1, hs1, -, -, hp, -⟩
    rw [hs1]
    simp [hp]
  | none =>
    have h1 : S.length ≤ k := List.getElem?_eq_none_iff.mp hk
    have h2 : S1[k]? = none := List.getElem?_eq_none_iff.mpr (by rw [h.1]; exact h1)
    rw [h2]

theorem save_loop_total {A : Allocator} {ndebug : Bool} {this target : Nat}
    (hmax : target ≤ CHAR_PTR_MINUS_ONE) :
    ∀ (l1 : List Nat) (m : Nat) (l2 : List Nat) (fuel : Nat) (w : Thread) (owner : Option Nat),
      IsChain w.states owner (l1 ++ m :: l2) →
      (∃ sm, w.states[m]? = some sm ∧ sm.stack_stop = CHAR_PTR_MINUS_ONE) →
      l1.length < fuel →
      (∀ e, StackState.save_loop A ndebug this target fuel w owner = .error e →
        (e = .assertion ∧ ndebug = false ∧
          ∃ k ∈ l1 ++ [m], ∃ s, w.states[k]? = some s ∧ s._stack_start = 0) ∨
        (e = .out_of_bounds ∧
          ∃ k ∈ l1 ++ [m], ∃ s, w.states[k]? = some s ∧ s._stack_saved < 0)) ∧
      (∀ r w2, StackState.save_loop A ndebug this target fuel w owner = .ok (r, w2) →
        ∀ k, k ∉ l1 ++ [m] → w2.states[k]? = w.states[k]?)
  | _, _, _, 0, _, _, _, _, hf => by simp at hf
  | [], m, l2, fuel + 1, w, none, hc, _, _ => by simp [IsChain] at hc
  | _ :: _, m, l2, fuel + 1, w, none, hc, _, _ => by simp [IsChain] at hc
  | [], m, l2, fuel + 1, w, some o, hc, hm, _ => by
    simp only [List.nil_append, IsChain] at hc
    rcases hc with ⟨hok, os, hos, -⟩
    subst hok
    rcases hm with ⟨sm, hsm, hstop⟩
    have e0 : os = sm := Option.some.inj (hos.symm.trans hsm)
    subst e0
    have hlt : ¬ os.stack_stop < target := by omega
    simp only [StackState.save_loop, hos, if_neg hlt, List.nil_append, List.mem_singleton]
    by_cases hne : o ≠ this
    · rw [if_pos hne]
      cases hcu : StackState.copy_stack_to_heap_up_to A ndebug w o target with
      | error e1 =>
        refine ⟨?_, by intro r w2 h; simp at h⟩
        intro e h
        have e2 : e1 = e := Except.error.inj h
        subst e2
        rcases copy_stack_to_heap_up_to_error hos hcu with ⟨h1, h2, h3⟩ | ⟨h1, h2⟩
        · exact Or.inl ⟨h1, h2, o, rfl, os, hos, h3⟩
        · exact Or.inr ⟨h1, o, rfl, os, hos, h2⟩
      | ok p =>
        obtain ⟨r1, w1⟩ := p
        rcases copy_stack_to_heap_up_to_more hcu with ⟨-, hother, -⟩
        simp only []
        refine ⟨by intro e h; split at h <;> simp at h, ?_⟩
        intro r w2 h k hk
        have e2 : w1 = w2 := by
          split at h <;> simp only [Except.ok.injEq, Prod.mk.injEq] at h <;> exact h.2
        rw [← e2]
        exact hother k hk
    · rw [if_neg hne]
      refine ⟨by intro e h; simp at h, ?_⟩
      intro r w2 h k _
      simp only [Except.ok.injEq, Prod.mk.injEq] at h
      rw [← h.2]
  | k0 :: l1, m, l2, fuel + 1, w, some o, hc, hm, hf => by
    simp only [List.cons_append, IsChain] at hc
    rcases hc with ⟨hok, os, hos, hcl⟩
    subst hok
    simp only [StackState.save_loop, hos, List.cons_append, List.mem_cons]
    by_cases hlt : os.stack_stop < target
    · rw [if_pos hlt]
      cases hcu : StackState.copy_stack_to_heap_up_to A ndebug w o os.stack_stop with
      | error e1 =>
        refine ⟨?_, by intro r w2 h; simp at h⟩
        intro e h
        have e2 : e1 = e := Except.error.inj h
        subst e2
        rcases copy_stack_to_heap_up_to_error hos hcu with ⟨h1, h2, h3⟩ | ⟨h1, h2⟩
        · exact Or.inl ⟨h1, h2, o, Or.inl rfl, os, hos, h3⟩
        · exact Or.inr ⟨h1, o, Or.inl rfl, os, hos, h2⟩
      | ok p =>
        obtain ⟨r1, w1⟩ := p
        rcases copy_stack_to_heap_up_to_more hcu with ⟨hmore, hother, -⟩
        simp only []
        by_cases hr : r1 ≠ 0
        · rw [if_pos hr]
          refine ⟨by intro e h; simp at h, ?_⟩
          intro r w2 h k hk
          simp only [Except.ok.injEq, Prod.mk.injEq] at h
          rw [← h.2]
          exact hother k (fun e => hk (Or.inl e))
        · rw [if_neg hr]
          rcases hmore.2 o os hos with ⟨os1, hos1, -, -, hprev1, -⟩
          simp only [hos1]
          have hm1 : ∃ sm, w1.states[m]? = some sm ∧ sm.stack_stop = CHAR_PTR_MINUS_ONE := by
            rcases hm with ⟨sm, hsm, hstop⟩
            rcases hmore.2 m sm hsm with ⟨sm1, hsm1, -, hb, -, -⟩
            exact ⟨sm1, hsm1, hb.trans hstop⟩
          have hcl1 : IsChain w1.states os1.stack_prev (l1 ++ m :: l2) := by
            rw [hprev1]
            exact IsChain_more hmore hcl
          have hf1 : l1.length < fuel := by
            simp only [List.length_cons] at hf
            omega
          rcases save_loop_total hmax l1 m l2 fuel w1 os1.stack_prev hcl1 hm1 hf1 with ⟨ih1, ih2⟩
          constructor
          · intro e h
            rcases ih1 e h with ⟨h1, h2, k, hk, s1, hs1, h3⟩ | ⟨h1, k, hk, s1, hs1, h3⟩
            · rcases MoreSaved_back hmore k s1 hs1 with ⟨s, hs, ha, -, -, -⟩
              exact Or.inl ⟨h1, h2, k, Or.inr hk, s, hs, by rw [← ha]; exact h3⟩
            · rcases MoreSaved_back hmore k s1 hs1 with ⟨s, hs, -, -, -, hd⟩
              exact Or.inr ⟨h1, k, Or.inr hk, s, hs, by omega⟩
          · intro r w2 h k hk
            push_neg at hk
            rw [ih2 r w2 h k hk.2]
            exact hother k hk.1
    · rw [if_neg hlt]
      by_cases hne : o ≠ this
      · rw [if_pos hne]
        cases hcu : StackState.copy_stack_to_heap_up_to A ndebug w o target with
        | error e1 =>
          refine ⟨?_, by intro r w2 h; simp at h⟩
          intro e h
          have e2 : e1 = e := Except.error.inj h
          subst e2
          rcases copy_stack_to_heap_up_to_error hos hcu with ⟨h1, h2, h3⟩ | ⟨h1, h2⟩
          · exact Or.inl ⟨h1, h2, o, Or.inl rfl, os, hos, h3⟩
          · exact Or.inr ⟨h1, o, Or.inl rfl, os, hos, h2⟩
        | ok p =>
          obtain ⟨r1, w1⟩ := p
          rcases copy_stack_to_heap_up_to_more hcu with ⟨-, hother, -⟩
          simp only []
          refine ⟨by intro e h; split at h <;> simp at h, ?_⟩
          intro r w2 h k hk
          have e2 : w1 = w2 := by
            split at h <;> simp only [Except.ok.injEq, Prod.mk.injEq] at h <;> exact h.2
          rw [← e2]
          exact hother k (fun e => hk (Or.inl e))
      · rw [if_neg hne]
        refine ⟨by intro e h; simp at h, ?_⟩
        intro r w2 h k _
        simp only [Except.ok.injEq, Prod.mk.injEq] at h
        rw [← h.2]

theorem IsChain_head_mem {S : List StackState} {h m : Nat} {l1 l2 : List Nat}
    (hc : IsChain S (some h) (l1 ++ m :: l2)) : h ∈ l1 ++ [m] := by
  cases l1 with
  | nil =>
    simp only [List.nil_append, IsChain] at hc
    simp [hc.1]
  | cons k l =>
    simp only [List.cons_append, IsChain] at hc
    simp [hc.1]

theorem copy_stack_to_heap_total (A : Allocator) (ndebug : Bool) (w : Thread)
    (t stackref current : Nat) (ts cs : StackState) (l1 : List Nat) (m : Nat) (l2 : List Nat)
    (hts : w.states[t]? = some ts) (hcs : w.states[current]? = some cs)
    (hmax : ts.stack_stop ≤ CHAR_PTR_MINUS_ONE)
    (hchain : IsChain w.states (if cs._stack_start = 0 then cs.stack_prev else some current)
      (l1 ++ m :: l2))
    (hmain : ∃ sm, w.states[m]? = some sm ∧ sm.main = true) :
    (∀ e, StackState.copy_stack_to_heap A ndebug w t stackref current = .error e →
      (e = .assertion ∧ ndebug = false ∧
        (cs._stack_saved ≠ 0 ∨ (cs._stack_start ≠ 0 ∧ stackref = 0) ∨
          ∃ k ∈ l1 ++ [m], ∃ s, w.states[k]? = some s ∧ s._stack_start = 0)) ∨
      (e = .out_of_bounds ∧
        ∃ k ∈ l1 ++ [m], ∃ s, w.states[k]? = some s ∧ s._stack_saved < 0)) ∧
    (∀ r w2, StackState.copy_stack_to_heap A ndebug w t stackref current = .ok (r, w2) →
      ∀ k, k ∉ l1 ++ [m] → w2.states[k]? = w.states[k]?) := by
  have hmain1 : ∃ sm, w.states[m]? = some sm ∧ sm.stack_stop = CHAR_PTR_MINUS_ONE := by
    rcases hmain with ⟨sm, hsm, hm⟩
    exact ⟨sm, hsm, by simpa [StackState.main] using hm⟩
  have hlen : l1.length < w.states.length + 1 := by
    have := IsChain_length_le hchain
    simp only [List.length_append, List.length_cons] at this
    omega
  unfold StackState.copy_stack_to_heap
  simp only [hts, hcs]
  by_cases ha : ndebug = false ∧ cs._stack_saved ≠ 0
  · rw [if_pos ha]
    refine ⟨?_, by intro r w2 h; simp at h⟩
    intro e h
    exact Or.inl ⟨(Except.error.inj h).symm, ha.1, Or.inl ha.2⟩
  · rw [if_neg ha]
    by_cases hz : cs._stack_start = 0
    · rw [if_pos hz] at hchain ⊢
      rcases save_loop_total hmax l1 m l2 _ w cs.stack_prev hchain hmain1 hlen with ⟨h1, h2⟩
      refine ⟨?_, h2⟩
      intro e h
      rcases h1 e h with ⟨a, b, c⟩ | hb
      · exact Or.inl ⟨a, b, Or.inr (Or.inr c)⟩
      · exact Or.inr hb
    · rw [if_neg hz] at hchain ⊢
      have hclt : current < w.states.length := lt_length_of_getElem? hcs
      have hprev : ∀ h : Nat,
          ((w.states.set current { cs with _stack_start := stackref })[h]?).map
            StackState.stack_prev = (w.states[h]?).map StackState.stack_prev := by
        intro h
        by_cases hh : current = h
        · subst hh
          rw [List.getElem?_set_self hclt, hcs]
          rfl
        · rw [List.getElem?_set_ne hh]
      have hchain1 := IsChain_congr hprev hchain
      have hmain2 : ∃ sm, (w.states.set current { cs with _stack_start := stackref })[m]? =
          some sm ∧ sm.stack_stop = CHAR_PTR_MINUS_ONE := by
        rcases hmain1 with ⟨sm, hsm, hstop⟩
        by_cases hh : current = m
        · subst hh
          rw [hcs] at hsm
          have e : cs = sm := Option.some.inj hsm
          subst e
          exact ⟨_, List.getElem?_set_self hclt, hstop⟩
        · exact ⟨sm, by rw [List.getElem?_set_ne hh]; exact hsm, hstop⟩
      rcases save_loop_total hmax l1 m l2 _
          { w with states := w.states.set current { cs with _stack_start := stackref } }
          (some current) hchain1 hmain2 hlen with ⟨h1, h2⟩
      constructor
      · intro e h
        rcases h1 e h with ⟨a, b, k, hk, s1, hs1, h3⟩ | ⟨a, k, hk, s1, hs1, h3⟩
        · rcases set_start_getElem? stackref hcs k s1 hs1 with ⟨s, hs, -, -, -, -, hne, heq⟩
          by_cases hkc : k = current
          · refine Or.inl ⟨a, b, Or.inr (Or.inl ⟨hz, ?_⟩)⟩
            rw [← heq hkc]
            exact h3
          · refine Or.inl ⟨a, b, Or.inr (Or.inr ⟨k, hk, s, hs, ?_⟩)⟩
            rw [← hne hkc]
            exact h3
        · rcases set_start_getElem? stackref hcs k s1 hs1 with ⟨s, hs, -, -, -, hsv, -, -⟩
          exact Or.inr ⟨a, k, hk, s, hs, by rw [← hsv]; exact h3⟩
      · intro r w2 h k hk
        rw [h2 r w2 h k hk]
        have hkc : current ≠ k := by
          intro e
          subst e
          exact hk (IsChain_head_mem hchain)
        show (w.states.set current _)[k]? = w.states[k]?
        rw [List.getElem?_set_ne hkc]

/-- C29 fails as stated. On `dyingMainThread` the chain from the running object is
finite and holds a main state, the running object itself, which has a non-null
`stack_prev`; its `_stack_start` being null, the walk starts behind it, passes the
object at handle 1 and follows that object's null `stack_prev`. -/
theorem walk_behind_dying_main_runs_off :
    ¬ WalkEndsAtRoot neverFails false dyingMainThread 0 5 2 := by
  intro h
  have h1 := h (StackState.init_mark CHAR_PTR_MINUS_ONE 1
      { _stack_start := 50, stack_stop := 100, stack_copy := none, _stack_saved := 0,
        stack_prev := none }) [2, 1] rfl
    ⟨rfl, _, rfl, rfl, _, rfl, trivial⟩
    ⟨2, by decide, _, rfl, by decide⟩ (Or.inr (by decide))
  exact h1.2 rfl

/-- C29, amended: the evacuation walk is total when the chain it walks reaches a
main state. Let the chain of `stack_prev` links from the object where the walk of
`T.copy_stack_to_heap(stackref, current)` starts (`current`, or
`current.stack_prev` when `current._stack_start` is null) be finite and hold a
main object `m`, and let `T.stack_stop` be an address. Then the call does not run
for ever and follows no null link; when moreover `current` has nothing saved,
`stackref` is not null and every object of the chain up to `m` has a non-null
`_stack_start`, no assertion fails; when their `_stack_saved` is not negative
either, the call returns; and a call that returns has left every object that is
not on the chain up to `m` as it was. -/
theorem evacuation_walk_reaches_main (A : Allocator) (ndebug : Bool) (w : Thread)
    (t stackref current : Nat) (ts cs : StackState) (l1 : List Nat) (m : Nat) (l2 : List Nat)
    (hts : w.states[t]? = some ts) (hcs : w.states[current]? = some cs)
    (hmax : ts.stack_stop ≤ CHAR_PTR_MINUS_ONE)
    (hchain : IsChain w.states (if cs._stack_start = 0 then cs.stack_prev else some current)
      (l1 ++ m :: l2))
    (hmain : ∃ sm, w.states[m]? = some sm ∧ sm.main = true) :
    StackState.copy_stack_to_heap A ndebug w t stackref current ≠ .error .no_return ∧
    StackState.copy_stack_to_heap A ndebug w t stackref current ≠ .error .null_deref ∧
    (cs._stack_saved = 0 → stackref ≠ 0 →
      (∀ k ∈ l1 ++ [m], ∀ s, w.states[k]? = some s → s._stack_start ≠ 0) →
      StackState.copy_stack_to_heap A ndebug w t stackref current ≠ .error .assertion ∧
      ((∀ k ∈ l1 ++ [m], ∀ s, w.states[k]? = some s → 0 ≤ s._stack_saved) →
        ∃ r w2, StackState.copy_stack_to_heap A ndebug w t stackref current = .ok (r, w2))) ∧
    (∀ r w2, StackState.copy_stack_to_heap A ndebug w t stackref current = .ok (r, w2) →
      ∀ k, k ∉ l1 ++ [m] → w2.states[k]? = w.states[k]?) := by
  rcases copy_stack_to_heap_total A ndebug w t stackref current ts cs l1 m l2 hts hcs hmax
    hchain hmain with ⟨hf, hframe⟩
  refine ⟨?_, ?_, ?_, hframe⟩
  · intro h
    rcases hf _ h with ⟨a, -⟩ | ⟨a, -⟩ <;> cases a
  · intro h
    rcases hf _ h with ⟨a, -⟩ | ⟨a, -⟩ <;> cases a
  · intro hsaved href hact
    have hna : StackState.copy_stack_to_heap A ndebug w t stackref current ≠
        .error .assertion := by
      intro h
      rcases hf _ h with ⟨-, -, h1 | ⟨-, h1⟩ | ⟨k, hk, s, hs, h1⟩⟩ | ⟨a, -⟩
      · exact h1 hsaved
      · exact href h1
      · exact hact k hk s hs h1
      · cases a
    refine ⟨hna, ?_⟩
    intro hnn
    cases hres : StackState.copy_stack_to_heap A ndebug w t stackref current with
    | ok p => exact ⟨p.1, p.2, rfl⟩
    | error e =>
      exfalso
      rcases hf e hres with ⟨a, -, h1 | ⟨-, h1⟩ | ⟨k, hk, s, hs, h1⟩⟩ | ⟨-, k, hk, s, hs, h1⟩
      · exact h1 hsaved
      · exact href h1
      · exact hact k hk s hs h1
      · have := hnn k hk s hs
        omega

theorem walkThread_chain_active :
    ∀ k ∈ [2, 1] ++ [0], ∀ s, walkThread.states[k]? = some s →
      s._stack_start ≠ 0 ∧ 0 ≤ s._stack_saved := by
  intro k hk s hs
  simp only [List.cons_append, List.nil_append, List.mem_cons, List.mem_singleton,
    List.not_mem_nil, or_false] at hk
  rcases hk with rfl | rfl | rfl
  · have e : walkTwo = s := Option.some.inj hs
    rw [← e]
    decide
  · have e : walkOne = s := Option.some.inj hs
    rw [← e]
    decide
  · have e : { StackState.make_main with _stack_start := 55 } = s := Option.some.inj hs
    rw [← e]
    decide

/-- The amended C29 at the thread `walkThread`: the chain from the running
greenlet is handles 2, 1 and the main greenlet 0, and the call returns. -/
theorem evacuation_walk_reaches_main_witness :
    StackState.copy_stack_to_heap neverFails false walkThread 3 22 2 ≠ .error .no_return ∧
    StackState.copy_stack_to_heap neverFails false walkThread 3 22 2 ≠ .error .null_deref ∧
    StackState.copy_stack_to_heap neverFails false walkThread 3 22 2 ≠ .error .assertion ∧
    ∃ r w2, StackState.copy_stack_to_heap neverFails false walkThread 3 22 2 = .ok (r, w2) :=
  have h := evacuation_walk_reaches_main neverFails false walkThread 3 22 2
    { _stack_start := 35, stack_stop := 60, stack_copy := none, _stack_saved := 0,
      stack_prev := none } walkTwo [2, 1] 0 [] rfl rfl (by decide)
    (show IsChain walkThread.states (some 2) [2, 1, 0] from
      ⟨rfl, _, rfl, rfl, _, rfl, rfl, _, rfl, trivial⟩)
    ⟨_, rfl, by decide⟩
  ⟨h.1, h.2.1,
   (h.2.2.1 rfl (by decide) (fun k hk s hs => (walkThread_chain_active k hk s hs).1)).1,
   (h.2.2.1 rfl (by decide) (fun k hk s hs => (walkThread_chain_active k hk s hs).1)).2
     (fun k hk s hs => (walkThread_chain_active k hk s hs).2)⟩

end greenlet
